import Mathlib

/-!
# Verification of the DualCaseIndex engine

Shallow embedding of the `casefilter` dual-case inverted-index engine
(`src/prep_casefilter.c`, `src/search_casefilter.c`).

Words and queries are modelled as lists of character codes (`Nat`), so a
character `'A'` is the number 65 and the alphabet {A..J} is the range
[65, 75).  All machine integers are modelled as `Nat`; `uint64_t`
arithmetic that can wrap (the subtraction, additions and the
multiplication inside `popcount64`) carries an explicit `% 2^64`.
-/

set_option maxRecDepth 4000

namespace CaseFilter

/-- `KEYWORD_LEN` from `types.h`. -/
def KEYWORD_LEN : Nat := 15

/-- `CASEFILTER_H_KEY_SPACE` from `index.h`. -/
def H_KEY_SPACE : Nat := 1000000

/-- `CASEFILTER_DEL_KEY_SPACE` from `index.h`. -/
def DEL_KEY_SPACE : Nat := 10000000

/-- A word is the list of its character codes (`'A'` = 65). -/
abbrev Word := List Nat

/-- The words this engine indexes: length 15 over the alphabet {A..J},
i.e. character codes in [65, 75). -/
def validWord (w : Word) : Prop := w.length = 15 ∧ ∀ c ∈ w, 65 ≤ c ∧ c < 75

instance (w : Word) : Decidable (validWord w) := by unfold validWord; infer_instance

/-- `(uint64_t)(c - 'A') & 0xF`, the per-character nibble used by
`pack_keyword`, `pack_key6`, `pack_key7` and `casefilter_insert`. -/
def charNib (c : Nat) : Nat := (c - 65) &&& 0xF

/-- `pack_keyword` / the code computation of `casefilter_insert`
(`search_casefilter.c` lines 183-190): character `i` is packed into bits
[4i, 4i+4) of a 64-bit code via `v |= nib << (i * 4)`. -/
def pack_keyword (word : Word) : Nat :=
  (List.range KEYWORD_LEN).foldl
    (fun v i => v ||| (charNib (word.getD i 0) <<< (i * 4))) 0

/-- First HAKMEM statement of `popcount64` (`search_casefilter.c` line
176): `x = x - ((x >> 1) & 0x5555555555555555ULL)`.  The `uint64_t`
subtraction wraps; since the subtrahend is below 2^64 it equals
`(x + (2^64 - y)) % 2^64`. -/
def hakmem1 (x : Nat) : Nat :=
  (x + (2 ^ 64 - ((x >>> 1) &&& 0x5555555555555555))) % 2 ^ 64

/-- Second HAKMEM statement (line 177):
`x = (x & 0x3333...) + ((x >> 2) & 0x3333...)`, wrapping. -/
def hakmem2 (x : Nat) : Nat :=
  ((x &&& 0x3333333333333333) + ((x >>> 2) &&& 0x3333333333333333)) % 2 ^ 64

/-- Third HAKMEM statement (line 178): `x = (x + (x >> 4)) & 0x0F0F...`,
wrapping. -/
def hakmem3 (x : Nat) : Nat :=
  ((x + (x >>> 4)) % 2 ^ 64) &&& 0x0F0F0F0F0F0F0F0F

/-- `popcount64` (`search_casefilter.c` lines 175-180), the HAKMEM
bit-parallel population count on `uint64_t`, as the composition of its
four statements; the final `(x * 0x0101010101010101) >> 56` multiply
wraps modulo 2^64. -/
def popcount64 (x : Nat) : Nat :=
  ((hakmem3 (hakmem2 (hakmem1 x)) * 0x0101010101010101) % 2 ^ 64) >>> 56

/-- `hamming_packed15` (`search_casefilter.c` lines 192-198). -/
def hamming_packed15 (a b : Nat) : Nat :=
  let x := a ^^^ b
  let x := x ||| (x >>> 1)
  let x := x ||| (x >>> 2)
  popcount64 (x &&& 0x1111111111111111)

/-- `hamming_packed14` (`search_casefilter.c` lines 200-206); the mask
keeps only the 14 low nibbles (56 bits). -/
def hamming_packed14 (a b : Nat) : Nat :=
  let x := a ^^^ b
  let x := x ||| (x >>> 1)
  let x := x ||| (x >>> 2)
  popcount64 (x &&& 0x11111111111111)

/-- `pack_key6` (`search_casefilter.c` lines 208-216): interprets six
characters as decimal digits, least-significant first. -/
def pack_key6 (key : List Nat) : Nat :=
  (List.range 6).foldl (fun v i => v + charNib (key.getD i 0) * 10 ^ i) 0

/-- `pack_key7` (`search_casefilter.c` lines 218-226). -/
def pack_key7 (key : List Nat) : Nat :=
  (List.range 7).foldl (fun v i => v + charNib (key.getD i 0) * 10 ^ i) 0

/-- `casefilter_pack_delete` (`search_casefilter.c` lines 63-68):
removes nibble `del_pos` from a packed code. -/
def casefilter_pack_delete (code : Nat) (del_pos : Nat) : Nat :=
  let low_mask : Nat := if del_pos = 0 then 0 else (1 <<< (del_pos * 4)) - 1
  let lower := code &&& low_mask
  let upper := code >>> ((del_pos + 1) * 4)
  lower ||| (upper <<< (del_pos * 4))

/-! ## Digit toolkit

`Nat.ofDigits 16` of the list of per-character nibbles is the arithmetic
form of the packed code; the lemmas below connect the C bit fiddling to
that form. -/

/-- The nibble digits of a word. -/
def wordDigits (w : Word) : List Nat := w.map charNib

/-! ## Claim C5: SWAR Hamming -/

/-- The two OR-shift collapse steps shared by `hamming_packed15` and
`hamming_packed14` (`x |= x >> 1; x |= x >> 2`). -/
def swarCollapse (x : Nat) : Nat :=
  let y := x ||| (x >>> 1)
  y ||| (y >>> 2)

/-- The repeated-`0x1` nibble masks of `hamming_packed15/14`. -/
def maskOnes (n : Nat) : Nat := Nat.ofDigits 16 (List.replicate n 1)

/-- Per-position difference indicators of two digit lists. -/
def diffInds (xs ys : List Nat) : List Nat :=
  List.zipWith (fun x y => if x = y then 0 else 1) xs ys

/-- Pointwise sum of two digit lists (digit values may exceed neither
base nor carry — `Nat.ofDigits` is linear in the digit list). -/
def addD : List Nat → List Nat → List Nat
  | [], ys => ys
  | xs, [] => xs
  | x :: xs, y :: ys => (x + y) :: addD xs ys

/-- Zero out the digits at odd positions. -/
def maskOddD : List Nat → List Nat
  | [] => []
  | [a] => [a]
  | a :: _ :: r => a :: 0 :: maskOddD r

/-- Keep only the digits at even positions. -/
def evensD : List Nat → List Nat
  | [] => []
  | [a] => [a]
  | a :: _ :: r => a :: evensD r

/-- The byte mask `0x0F0F0F0F0F0F0F0F` as alternating nibble digits. -/
def maskFL : List Nat := [15, 0, 15, 0, 15, 0, 15, 0, 15, 0, 15, 0, 15, 0, 15, 0]

/-- Character-wise Hamming distance between two strings (number of
positions at which they differ). -/
def listHamming (a b : List Nat) : Nat :=
  (List.zipWith (fun x y => if x = y then 0 else 1) a b).sum

/-- A sample word for witnesses: "ABCDEFGHIJABCDE". -/
def wex : Word := [65, 66, 67, 68, 69, 70, 71, 72, 73, 74, 65, 66, 67, 68, 69]

/-- A second sample word, "ABCJEFGHIJABCJE" (differs from `wex` at
positions 3 and 13). -/
def wex2 : Word := [65, 66, 67, 74, 69, 70, 71, 72, 73, 74, 65, 66, 67, 74, 69]

/-! ## The index: Case A (pair) and Case B (deletion) tables -/

/-- `pair_i` block table (`search_casefilter.c` line 171). -/
def pair_i : List Nat := [0, 0, 0, 0, 1, 1, 1, 2, 2, 3]

/-- `pair_j` block table (`search_casefilter.c` line 172). -/
def pair_j : List Nat := [1, 2, 3, 4, 2, 3, 4, 3, 4, 4]

/-- The 6-character key of pair `p` of a word: the concatenation of
3-character blocks `pair_i[p]` and `pair_j[p]`. -/
def pairKey (w : Word) (p : Nat) : List Nat :=
  ((w.drop (3 * pair_i.getD p 0)).take 3) ++ ((w.drop (3 * pair_j.getD p 0)).take 3)

/-- The Case-A slot of pair `p` of a word:
`pack_key6(key) + p * H_KEY_SPACE` (`prep_casefilter.c` line 150,
`search_casefilter.c` line 259). -/
def hslot (w : Word) (p : Nat) : Nat := pack_key6 (pairKey w p) + p * H_KEY_SPACE

/-- `counts[s]` after the first pass of `build_hindex`
(`prep_casefilter.c` lines 141-153): one tally per `(id, p)` whose slot
is `s`. -/
def hcounts (D : List Word) (s : Nat) : Nat :=
  ((List.range D.length).map fun id =>
    ((List.range 10).map fun p => if hslot (D.getD id []) p = s then 1 else 0).sum).sum

/-- `offsets[s]` of `build_hindex`: the exclusive prefix sum of
`counts` (`prep_casefilter.c` lines 155-159). -/
def hoffsets (D : List Word) (s : Nat) : Nat :=
  ((List.range s).map (hcounts D)).sum

/-- The run of `ids` payload belonging to slot `s` after the second
pass of `build_hindex` (`prep_casefilter.c` lines 164-176): ids in
ascending order, one per `(id, p)` with slot `s`. -/
def hposting (D : List Word) (s : Nat) : List Nat :=
  (List.range D.length).flatMap fun id =>
    (List.range 10).filterMap fun p =>
      if hslot (D.getD id []) p = s then some id else none

/-- The whole `ids` payload array of `build_hindex`: the slot runs in
slot order. -/
def hpayload (D : List Word) : List Nat :=
  (List.range (H_KEY_SPACE * 10)).flatMap (hposting D)

/-- The Case-B left slot: `pack_key7` of the first 7 characters after
deleting position `pos` (`prep_casefilter.c` lines 193-196). -/
def dslotL (w : Word) (pos : Nat) : Nat := pack_key7 ((w.eraseIdx pos).take 7)

/-- The Case-B right slot: `pack_key7` of characters 7..13 after
deleting position `pos`. -/
def dslotR (w : Word) (pos : Nat) : Nat := pack_key7 (((w.eraseIdx pos).drop 7).take 7)

/-- The packed Case-B posting
`(id & 0xFFFFF) | (pos << 20)` (`prep_casefilter.c` line 221). -/
def packIdPos (id pos : Nat) : Nat := (id &&& 0xFFFFF) ||| (pos <<< 20)

/-- `counts[s]` after the first pass of `build_dindex`
(`prep_casefilter.c` lines 184-199): each `(id, pos)` tallies its left
and its right slot. -/
def dcounts (D : List Word) (s : Nat) : Nat :=
  ((List.range D.length).map fun id =>
    ((List.range 15).map fun pos =>
      (if dslotL (D.getD id []) pos = s then 1 else 0) +
        (if dslotR (D.getD id []) pos = s then 1 else 0)).sum).sum

/-- `offsets[s]` of `build_dindex`. -/
def doffsets (D : List Word) (s : Nat) : Nat :=
  ((List.range s).map (dcounts D)).sum

/-- The run of `idpos` payload belonging to slot `s` after the second
pass of `build_dindex` (`prep_casefilter.c` lines 211-227). -/
def dposting (D : List Word) (s : Nat) : List Nat :=
  (List.range D.length).flatMap fun id =>
    (List.range 15).flatMap fun pos =>
      (if dslotL (D.getD id []) pos = s then [packIdPos id pos] else []) ++
        (if dslotR (D.getD id []) pos = s then [packIdPos id pos] else [])

/-- The whole `idpos` payload array of `build_dindex`. -/
def dpayload (D : List Word) : List Nat :=
  (List.range DEL_KEY_SPACE).flatMap (dposting D)

/-- `codes[id]`: the nibble code computed at insertion
(`prep_casefilter.c` lines 126-131). -/
def codeOf (D : List Word) (id : Nat) : Nat := pack_keyword (D.getD id [])

/-! ## The search engine -/

/-- The searcher's process-wide mutable state (`visited_buf`,
`visited_cap`, `gen` — `search_casefilter.c` lines 231-233), modelled
functionally; `buf` is the content of `visited_buf`. -/
structure SearchState where
  buf : Nat → Nat
  cap : Nat
  gen : Nat

/-- The initial process state: no buffer yet (`visited_buf = NULL`,
capacity 0, `gen = 1`). -/
def initState : SearchState := ⟨fun _ => 0, 0, 1⟩

/-- `pairs[p].len`, the posting length of probe `p` of a query
(`search_casefilter.c` line 261). -/
def probeLen (D : List Word) (q : Word) (p : Nat) : Nat :=
  (hposting D (hslot q p)).length

/-- The inner loop of the selection sort over probe indices
(`search_casefilter.c` lines 265-269): pull the minimum-length probe
into position `i`. -/
def selInner (len : Nat → Nat) (ord : List Nat) (i : Nat) : List Nat :=
  ((List.range 10).drop (i + 1)).foldl
    (fun o j =>
      if len (o.getD j 0) < len (o.getD i 0) then
        (o.set i (o.getD j 0)).set j (o.getD i 0)
      else o)
    ord

/-- The selection sort of `order` by posting length
(`search_casefilter.c` lines 264-270). -/
def selSort (len : Nat → Nat) : List Nat :=
  (List.range 10).foldl (selInner len) (List.range 10)

/-- The probe order of Phase A for a query. -/
def probeOrder (D : List Word) (q : Word) : List Nat :=
  selSort (probeLen D q)

/-- All Phase A candidate ids, in visiting order. -/
def phaseAIds (D : List Word) (q : Word) : List Nat :=
  (probeOrder D q).flatMap fun p => hposting D (hslot q p)

/-- The Phase A scan (`search_casefilter.c` lines 272-283): each not
yet visited id is marked, then its 15-nibble Hamming distance tested;
a distance ≤ k returns 1 immediately. -/
def scanA (D : List Word) (qcode k g : Nat) : List Nat → (Nat → Nat) → Bool × (Nat → Nat)
  | [], buf => (false, buf)
  | id :: rest, buf =>
    if buf id = g then scanA D qcode k g rest buf
    else
      let buf' := fun j => if j = id then g else buf j
      if hamming_packed15 qcode (codeOf D id) ≤ k then (true, buf')
      else scanA D qcode k g rest buf'

/-- All Phase B candidates `(pos, idpos)` in visiting order: for each
deletion position of the query, the left-slot postings then the
right-slot postings (`search_casefilter.c` lines 289-334). -/
def phaseBCands (D : List Word) (q : Word) : List (Nat × Nat) :=
  (List.range 15).flatMap fun pos =>
    ((dposting D (dslotL q pos)).map fun v => (pos, v)) ++
      ((dposting D (dslotR q pos)).map fun v => (pos, v))

/-- The Phase B scan (`search_casefilter.c` lines 300-333): a not yet
visited candidate is tested (`2 + hamming14 ≤ k`); it is marked only on
a hit, which returns 1 immediately. -/
def scanB (D : List Word) (qcode k g : Nat) : List (Nat × Nat) → (Nat → Nat) → Bool × (Nat → Nat)
  | [], buf => (false, buf)
  | (pos, v) :: rest, buf =>
    let id := v &&& 0xFFFFF
    if buf id = g then scanB D qcode k g rest buf
    else
      if 2 + hamming_packed14 (casefilter_pack_delete qcode pos)
          (casefilter_pack_delete (codeOf D id) ((v >>> 20) &&& 0xF)) ≤ k then
        (true, fun j => if j = id then g else buf j)
      else scanB D qcode k g rest buf

/-- `casefilter_search` (`search_casefilter.c` lines 228-337) as a
state transformer over the process-wide searcher state.  The dictionary
`D` stands for the finalized index (whose tables are `hposting` /
`dposting` / `codes`).  Allocation always succeeds in the model. -/
def casefilter_search (D : List Word) (q : Word) (k : Nat) (st : SearchState) :
    Bool × SearchState :=
  if q.length ≠ 15 then (false, st)
  else
    let st1 : SearchState := if D.length > st.cap then ⟨fun _ => 0, D.length, 1⟩ else st
    let g1 := (st1.gen + 1) % 2 ^ 32
    let gA := if g1 = 0 then 1 else g1
    let buf1 := if g1 = 0 then (fun _ => 0) else st1.buf
    let qcode := pack_keyword q
    let resA := scanA D qcode k gA (phaseAIds D q) buf1
    if resA.1 then (true, ⟨resA.2, st1.cap, gA⟩)
    else
      let gB := (gA + 1) % 2 ^ 32
      let resB := scanB D qcode k gB (phaseBCands D q) resA.2
      (resB.1, ⟨resB.2, st1.cap, gB⟩)

/-- Running a sequence of searches, threading the process state. -/
def runSearches (D : List Word) (k : Nat) : List Word → SearchState → List Bool
  | [], _ => []
  | q :: qs, st =>
    let r := casefilter_search D q k st
    r.1 :: runSearches D k qs r.2

/-! ## The builder (`casefilter_create` / `casefilter_insert`) -/

/-- A `Collecting` index: the keyword records and their codes (the
capacity bookkeeping of the C struct does not affect the contents). -/
structure BuildIndex where
  keywords : List Word
  codes : List Nat
  deriving DecidableEq

/-- `casefilter_create` (`prep_casefilter.c` lines 112-118): an empty
`Collecting` index. -/
def casefilter_create : BuildIndex := ⟨[], []⟩

/-- `casefilter_insert` (`prep_casefilter.c` lines 120-133); `none`
models a NULL `word` pointer.  A non-NULL word is always inserted:
`memcpy` copies 15 bytes from the buffer (for a shorter word the C
reads past the buffer — the model reads zeros there) and the next id is
assigned. -/
def casefilter_insert (idx : BuildIndex) (word : Option (List Nat)) : BuildIndex :=
  match word with
  | none => idx
  | some w =>
    let stored := (List.range KEYWORD_LEN).map fun i => w.getD i 0
    ⟨idx.keywords ++ [stored], idx.codes ++ [pack_keyword w]⟩

/-! ## Levenshtein distance and Claim C2 (soundness) -/

/-- Levenshtein distance with unit costs (standard recursion). -/
def levD : List Nat → List Nat → Nat
  | [], ys => ys.length
  | xs, [] => xs.length
  | x :: xs, y :: ys =>
    min ((if x = y then 0 else 1) + levD xs ys)
      (min (1 + levD (x :: xs) ys) (1 + levD xs (y :: ys)))
termination_by xs ys => xs.length + ys.length

/-- The 3-character block `b` of a word. -/
def blockOf (u : List Nat) (b : Nat) : List Nat := (u.drop (3 * b)).take 3

/-! ## Claim C7: probe order -/

/-- One comparison/swap of the Phase A selection sort
(`search_casefilter.c` lines 266-268). -/
def swapStep (len : Nat → Nat) (i : Nat) (o : List Nat) (j : Nat) : List Nat :=
  if len (o.getD j 0) < len (o.getD i 0) then (o.set i (o.getD j 0)).set j (o.getD i 0)
  else o

/-- The query of the C7 counterexample: agrees with `wex` on blocks
0-3, differs on block 4. -/
def qex7 : Word := [65, 66, 67, 68, 69, 70, 71, 72, 73, 74, 65, 66, 74, 74, 74]

def wH : Word := List.replicate 15 72

def fJ : Word := List.replicate 15 74

def qB9 : Word := [66, 67, 68, 69, 70, 71, 72, 73, 74, 65, 66, 67, 68, 69, 65]

def D9 : List Word := [wex, wH]

def n9 : Nat := 2 ^ 31 - 2

/-! ## Serialization (claims C3 and C8) -/

/-- Little-endian byte writing, `w` bytes (`fwrite` of the fixed-width
integers and the 3-byte truncated payload entries in
`prep_casefilter.c` lines 236-289). -/
def wrNum : Nat → Nat → List Nat
  | 0, _ => []
  | w + 1, v => v % 256 :: wrNum w (v / 256)

/-- Little-endian byte reading, `w` bytes (`fread_exact` of the
fixed-width integers, and the 3-byte reads at `search_casefilter.c`
lines 119-122, 146-149). -/
def rdNum : Nat → List Nat → Option (Nat × List Nat)
  | 0, bs => some (0, bs)
  | w + 1, bs =>
    match bs with
    | [] => none
    | b :: rest =>
      match rdNum w rest with
      | none => none
      | some (v, rest') => some (b + 256 * v, rest')

/-- Reading `k` consecutive `w`-byte numbers (the counts and payload
arrays of `casefilter_deserialize`). -/
def rdNums (w : Nat) : Nat → List Nat → Option (List Nat × List Nat)
  | 0, bs => some ([], bs)
  | k + 1, bs =>
    match rdNum w bs with
    | none => none
    | some (v, rest) =>
      match rdNums w k rest with
      | none => none
      | some (vs, rest') => some (v :: vs, rest')

/-- Reading `k` consecutive 16-byte keyword records
(`search_casefilter.c` line 83). -/
def rdChunks : Nat → List Nat → Option (List (List Nat) × List Nat)
  | 0, bs => some ([], bs)
  | k + 1, bs =>
    if 16 ≤ bs.length then
      match rdChunks k (bs.drop 16) with
      | none => none
      | some (ws, rest) => some (bs.take 16 :: ws, rest)
    else none

/-- The serializable content of a finalized `CaseFilterIndex`: the
keyword count, the raw 16-byte keyword records, and the two CSR tables
(key spaces, counts, payloads).  The `offsets` arrays are not stored:
the builder keeps `offsets[slots] = Σ counts = payload length`
(claim C6), and the deserializer recomputes them by prefix summing. -/
structure SerIndex where
  keyword_count : Nat
  keywords : List (List Nat)
  h_key_space : Nat
  h_pair_count : Nat
  h_counts : List Nat
  h_ids : List Nat
  d_key_space : Nat
  d_counts : List Nat
  d_idpos : List Nat
  deriving DecidableEq

/-- `serialize_hindex` (`prep_casefilter.c` lines 236-262): key space,
pair count, a count-width byte (16 iff the largest count fits 16 bits),
the counts at that width, the total payload length `offsets[slots]`
(= the length of `ids`), and the ids as 3-byte little-endian values. -/
def serialize_hindex (m : SerIndex) : List Nat :=
  wrNum 4 m.h_key_space ++
    (wrNum 4 m.h_pair_count ++
      ((if m.h_counts.foldl max 0 ≤ 65535 then
          16 :: m.h_counts.flatMap fun c => wrNum 2 (c % 2 ^ 16)
        else
          32 :: m.h_counts.flatMap fun c => wrNum 4 c) ++
        (wrNum 4 m.h_ids.length ++ m.h_ids.flatMap fun v => wrNum 3 (v % 2 ^ 24))))

/-- `serialize_dindex` (`prep_casefilter.c` lines 264-289): key space,
count-width byte, counts, total payload length, and the packed
`id | pos << 20` entries masked to 24 bits, 3 bytes each. -/
def serialize_dindex (m : SerIndex) : List Nat :=
  wrNum 4 m.d_key_space ++
    ((if m.d_counts.foldl max 0 ≤ 65535 then
        16 :: m.d_counts.flatMap fun c => wrNum 2 (c % 2 ^ 16)
      else
        32 :: m.d_counts.flatMap fun c => wrNum 4 c) ++
      (wrNum 4 m.d_idpos.length ++ m.d_idpos.flatMap fun v => wrNum 3 (v % 2 ^ 24)))

/-- `casefilter_serialize` (`prep_casefilter.c` lines 291-297): the
keyword count, the `keyword_count` raw 16-byte records, then the two
index blocks. -/
def casefilter_serialize (m : SerIndex) : List Nat :=
  wrNum 4 m.keyword_count ++ (m.keywords.flatMap id ++
    (serialize_hindex m ++ serialize_dindex m))

/-- `casefilter_deserialize` (`search_casefilter.c` lines 75-153) on a
byte stream: every failed read returns `none`, and each block's stored
total payload length is cross-checked against the prefix sum of its
counts (`offsets[slots]`); a mismatch returns `none`.  Trailing bytes
are ignored, as the C reads exactly this prefix of the stream. -/
def casefilter_deserialize (bs : List Nat) : Option SerIndex :=
  match rdNum 4 bs with
  | none => none
  | some (n, bs) =>
    match rdChunks n bs with
    | none => none
    | some (words, bs) =>
      match rdNum 4 bs with
      | none => none
      | some (hks, bs) =>
        match rdNum 4 bs with
        | none => none
        | some (hpc, bs) =>
          match rdNum 1 bs with
          | none => none
          | some (cb, bs) =>
            match rdNums (if cb = 16 then 2 else 4) (hks * hpc) bs with
            | none => none
            | some (hcounts, bs) =>
              match rdNum 4 bs with
              | none => none
              | some (htot, bs) =>
                if hcounts.sum ≠ htot then none
                else
                  match rdNums 3 htot bs with
                  | none => none
                  | some (hids, bs) =>
                    match rdNum 4 bs with
                    | none => none
                    | some (dks, bs) =>
                      match rdNum 1 bs with
                      | none => none
                      | some (cb2, bs) =>
                        match rdNums (if cb2 = 16 then 2 else 4) dks bs with
                        | none => none
                        | some (dcounts, bs) =>
                          match rdNum 4 bs with
                          | none => none
                          | some (dtot, bs) =>
                            if dcounts.sum ≠ dtot then none
                            else
                              match rdNums 3 dtot bs with
                              | none => none
                              | some (didpos, _) =>
                                some ⟨n, words, hks, hpc, hcounts, hids,
                                  dks, dcounts, didpos⟩

/-- The invariants `casefilter_finalize` guarantees of the in-memory
index (positive `int` fields; counts lengths matching the slot spaces;
`offsets[slots] = Σ counts =` payload length, claim C6; payload entries
that fit the 3-byte on-disk encoding: ids below `2^20 ≤ 2^24` and
`id | pos << 20 < 2^24`). -/
def SerWF (m : SerIndex) : Prop :=
  m.keywords.length = m.keyword_count ∧
    (∀ w ∈ m.keywords, List.length w = 16) ∧
    m.keyword_count < 2 ^ 31 ∧
    m.h_key_space < 2 ^ 31 ∧ m.h_pair_count < 2 ^ 31 ∧
    m.h_counts.length = m.h_key_space * m.h_pair_count ∧
    (∀ c ∈ m.h_counts, c < 2 ^ 32) ∧
    m.h_counts.sum = m.h_ids.length ∧ m.h_ids.length < 2 ^ 31 ∧
    (∀ v ∈ m.h_ids, v < 2 ^ 24) ∧
    m.d_key_space < 2 ^ 31 ∧
    m.d_counts.length = m.d_key_space ∧
    (∀ c ∈ m.d_counts, c < 2 ^ 32) ∧
    m.d_counts.sum = m.d_idpos.length ∧ m.d_idpos.length < 2 ^ 31 ∧
    (∀ v ∈ m.d_idpos, v < 2 ^ 24)

instance (m : SerIndex) : Decidable (SerWF m) := by
  unfold SerWF
  infer_instance

/-- The byte stream `casefilter_serialize` would produce if the two
stored payload totals were replaced by `tH` and `tD` (used to state the
cross-validation of claim C8; with the true totals it is exactly
`casefilter_serialize`). -/
def serializeTampered (m : SerIndex) (tH tD : Nat) : List Nat :=
  wrNum 4 m.keyword_count ++ (m.keywords.flatMap id ++
    ((wrNum 4 m.h_key_space ++
      (wrNum 4 m.h_pair_count ++
        ((if m.h_counts.foldl max 0 ≤ 65535 then
            16 :: m.h_counts.flatMap fun c => wrNum 2 (c % 2 ^ 16)
          else 32 :: m.h_counts.flatMap fun c => wrNum 4 c) ++
          (wrNum 4 tH ++ m.h_ids.flatMap fun v => wrNum 3 (v % 2 ^ 24))))) ++
      (wrNum 4 m.d_key_space ++
        ((if m.d_counts.foldl max 0 ≤ 65535 then
            16 :: m.d_counts.flatMap fun c => wrNum 2 (c % 2 ^ 16)
          else 32 :: m.d_counts.flatMap fun c => wrNum 4 c) ++
          (wrNum 4 tD ++ m.d_idpos.flatMap fun v => wrNum 3 (v % 2 ^ 24))))))

/-- A small concrete finalized-index content used as evaluation witness
for the serialization claims. -/
def mser : SerIndex :=
  ⟨1, [[65, 66, 67, 68, 69, 70, 71, 72, 73, 74, 65, 66, 67, 68, 69, 0]],
    2, 1, [1, 0], [0], 3, [1, 0, 1], [0, 5242880]⟩

/-- The serializable content of the finalized index of a dictionary
`D`: the stored 16-byte records (15 characters and a terminating 0),
the two counts tables and the two payload arrays of
`casefilter_finalize`. -/
def mkSerIndex (D : List Word) : SerIndex :=
  ⟨D.length,
    D.map fun w => ((List.range KEYWORD_LEN).map fun i => w.getD i 0) ++ [0],
    H_KEY_SPACE, 10, (List.range (H_KEY_SPACE * 10)).map (hcounts D), hpayload D,
    DEL_KEY_SPACE, (List.range DEL_KEY_SPACE).map (dcounts D), dpayload D⟩

/-! ## Theorems -/

theorem charNib_lt (c : Nat) : charNib c < 16 :=
  Nat.lt_succ_of_le (Nat.and_le_right)

theorem charNib_of_valid {c : Nat} (h1 : 65 ≤ c) (h2 : c < 75) :
    charNib c = c - 65 := by
  have : c - 65 < 10 := by omega
  unfold charNib
  rw [show (0xF : Nat) = 2 ^ 4 - 1 by norm_num,
    Nat.and_pow_two_sub_one_eq_mod, Nat.mod_eq_of_lt (by omega)]

theorem ofDigits_lt_pow {b : Nat} (hb : 0 < b) :
    ∀ (L : List Nat), (∀ d ∈ L, d < b) → Nat.ofDigits b L < b ^ L.length := by
  intro L
  induction L with
  | nil => intro _; simp [Nat.ofDigits_nil, hb]

  | cons d t ih =>
    intro h
    have hd : d < b := h d (List.mem_cons_self ..)
    have ht : Nat.ofDigits b t < b ^ t.length := ih fun x hx => h x (List.mem_cons_of_mem _ hx)
    have : (Nat.ofDigits b t : Nat) ≤ b ^ t.length - 1 := by omega
    calc (Nat.ofDigits b (d :: t) : Nat) = d + b * Nat.ofDigits b t := by
          simp [Nat.ofDigits_cons]
      _ ≤ (b - 1) + b * (b ^ t.length - 1) := by
          have := Nat.mul_le_mul_left b this
          omega
      _ < b ^ (t.length + 1) := by
          have hbp : 0 < b ^ t.length := Nat.pos_pow_of_pos _ hb
          have : b * (b ^ t.length - 1) + b = b * b ^ t.length := by
            rw [Nat.mul_sub, Nat.mul_one]
            have : b ≤ b * b ^ t.length := Nat.le_mul_of_pos_right b hbp
            omega
          have hpow : b ^ (t.length + 1) = b * b ^ t.length := by ring
          omega
      _ = b ^ (d :: t).length := by simp

/-- Generic fold-of-ORs ↦ `ofDigits` bridge: packing nibbles `f i` at
bit positions `4 i` is base-16 digit assembly. -/
theorem pow16_eq (n : Nat) : (16 : Nat) ^ n = 2 ^ (n * 4) := by
  rw [show (16 : Nat) = 2 ^ 4 by norm_num, ← pow_mul, Nat.mul_comm]

/-- Disjoint OR is addition: appending a value above `n` nibbles. -/
theorem or_high_eq_add {a : Nat} (b n : Nat) (ha : a < 16 ^ n) :
    a ||| (b <<< (n * 4)) = a + b * 16 ^ n := by
  have ha' : a < 2 ^ (n * 4) := by rw [← pow16_eq]; exact ha
  calc a ||| (b <<< (n * 4)) = 2 ^ (n * 4) * b ||| a := by
        rw [Nat.shiftLeft_eq, Nat.or_comm, Nat.mul_comm]
    _ = 2 ^ (n * 4) * b + a := (Nat.mul_add_lt_is_or ha' b).symm
    _ = a + b * 16 ^ n := by rw [pow16_eq]; ring

theorem foldl_or_eq_ofDigits (f : Nat → Nat) (hf : ∀ i, f i < 16) :
    ∀ n : Nat,
      (List.range n).foldl (fun v i => v ||| (f i <<< (i * 4))) 0 =
        Nat.ofDigits 16 ((List.range n).map f) := by
  intro n
  induction n with
  | zero => simp [Nat.ofDigits]
  | succ n ih =>
    rw [List.range_succ, List.foldl_append, List.foldl_cons, List.foldl_nil, ih,
      List.map_append, Nat.ofDigits_append]
    have hlt : (Nat.ofDigits 16 ((List.range n).map f) : Nat) < 16 ^ n := by
      have := ofDigits_lt_pow (b := 16) (by norm_num) ((List.range n).map f)
        (by intro d hd; obtain ⟨i, _, rfl⟩ := List.mem_map.mp hd; exact hf i)
      simpa using this
    rw [or_high_eq_add (f n) n hlt]
    simp only [List.map_cons, List.map_nil, Nat.ofDigits_singleton, List.length_map,
      List.length_range]
    ring

theorem pack_keyword_eq_ofDigits (w : Word) :
    pack_keyword w = Nat.ofDigits 16 ((List.range KEYWORD_LEN).map fun i => charNib (w.getD i 0)) :=
  foldl_or_eq_ofDigits _ (fun i => charNib_lt _) KEYWORD_LEN

theorem range_map_getD_eq (w : Word) (h : w.length = 15) :
    ((List.range KEYWORD_LEN).map fun i => charNib (w.getD i 0)) = wordDigits w := by
  have : KEYWORD_LEN = w.length := by rw [h]; rfl
  rw [this, wordDigits]
  apply List.ext_getElem
  · simp
  · intro i h1 h2
    simp only [List.getElem_map, List.getElem_range]
    rw [List.getD_eq_getElem _ _ (by simpa using h2)]

theorem pack_keyword_eq (w : Word) (h : w.length = 15) :
    pack_keyword w = Nat.ofDigits 16 (wordDigits w) := by
  rw [pack_keyword_eq_ofDigits, range_map_getD_eq w h]

/-- Bit `j` of a base-`2^k` digit assembly is bit `j % k` of digit `j / k`. -/
theorem testBit_ofDigits_pow (k : Nat) (hk : 0 < k) :
    ∀ (L : List Nat), (∀ d ∈ L, d < 2 ^ k) → ∀ j,
      Nat.testBit (Nat.ofDigits (2 ^ k) L) j = Nat.testBit (L.getD (j / k) 0) (j % k) := by
  intro L
  induction L with
  | nil => simp
  | cons d t ih =>
    intro hd j
    have hdlt : d < 2 ^ k := hd d (List.mem_cons_self ..)
    have hcons : (Nat.ofDigits (2 ^ k) (d :: t) : Nat) = 2 ^ k * Nat.ofDigits (2 ^ k) t + d := by
      simp [Nat.ofDigits_cons]; ring
    rw [hcons, Nat.testBit_mul_pow_two_add _ hdlt]
    by_cases hj : j < k
    · rw [if_pos hj, Nat.div_eq_of_lt hj, Nat.mod_eq_of_lt hj]
      rfl
    · rw [if_neg hj]
      obtain ⟨m, rfl⟩ : ∃ m, j = k + m := ⟨j - k, by omega⟩
      rw [Nat.add_sub_cancel_left, ih (fun x hx => hd x (List.mem_cons_of_mem _ hx)) m,
        Nat.add_div_left _ hk, Nat.add_mod_left]
      simp [List.getD_cons_succ]

/-! ## Claim C4: the deletion identity -/

/-- Arithmetic form of `casefilter_pack_delete`: keep the low `p`
nibbles, then append everything above nibble `p`. -/
theorem pack_delete_arith (code p : Nat) :
    casefilter_pack_delete code p = code % 16 ^ p + (code / 16 ^ (p + 1)) * 16 ^ p := by
  unfold casefilter_pack_delete
  have hmask : (if p = 0 then (0 : Nat) else (1 <<< (p * 4)) - 1) = 2 ^ (p * 4) - 1 := by
    by_cases hp : p = 0
    · subst hp; norm_num
    · rw [if_neg hp, Nat.shiftLeft_eq, one_mul]
  simp only [hmask]
  rw [Nat.and_pow_two_sub_one_eq_mod, ← pow16_eq,
    or_high_eq_add _ p (Nat.mod_lt _ (Nat.pos_pow_of_pos _ (by norm_num)))]
  congr 1
  rw [Nat.shiftRight_eq_div_pow, pow16_eq (p + 1)]

theorem mod_digit_step {d : Nat} (T p : Nat) (hd : d < 16) :
    (d + 16 * T) % 16 ^ (p + 1) = d + 16 * (T % 16 ^ p) := by
  have h1 : (16 : Nat) ^ (p + 1) = 16 * 16 ^ p := by ring
  have hp16 : (0 : Nat) < 16 ^ p := Nat.pos_pow_of_pos _ (by norm_num)
  rw [h1, Nat.add_mod, Nat.mul_mod_mul_left, Nat.mod_eq_of_lt (a := d) (by
    calc d < 16 := hd
      _ ≤ 16 * 16 ^ p := Nat.le_mul_of_pos_right _ hp16)]
  exact Nat.mod_eq_of_lt (by
    have : T % 16 ^ p < 16 ^ p := Nat.mod_lt _ hp16
    calc d + 16 * (T % 16 ^ p) < 16 + 16 * (T % 16 ^ p) := by omega
      _ ≤ 16 + 16 * (16 ^ p - 1) := by
          have : T % 16 ^ p ≤ 16 ^ p - 1 := by omega
          omega
      _ ≤ 16 * 16 ^ p := by omega)

theorem div_digit_step {d : Nat} (T p : Nat) (hd : d < 16) :
    (d + 16 * T) / 16 ^ (p + 1) = T / 16 ^ p := by
  have h1 : (16 : Nat) ^ (p + 1) = 16 * 16 ^ p := by ring
  rw [h1, ← Nat.div_div_eq_div_mul, Nat.add_mul_div_left _ _ (by norm_num : (0:Nat) < 16),
    Nat.div_eq_of_lt hd, Nat.zero_add]

/-- `Nat.ofDigits` of a list with one entry removed, in arithmetic form. -/
theorem ofDigits_eraseIdx :
    ∀ (p : Nat) (L : List Nat), (∀ d ∈ L, d < 16) → p < L.length →
      (Nat.ofDigits 16 (L.eraseIdx p) : Nat) =
        Nat.ofDigits 16 L % 16 ^ p + (Nat.ofDigits 16 L / 16 ^ (p + 1)) * 16 ^ p := by
  intro p
  induction p with
  | zero =>
    intro L hL hlen
    cases L with
    | nil => simp at hlen
    | cons d t =>
      have hdlt : d < 16 := hL d (List.mem_cons_self ..)
      simp only [List.eraseIdx_cons_zero, pow_zero, pow_one, Nat.mod_one, Nat.mul_one,
        Nat.zero_add, Nat.ofDigits_cons]
      push_cast
      rw [Nat.add_mul_div_left _ _ (by norm_num : (0:Nat) < 16), Nat.div_eq_of_lt hdlt]
      omega
  | succ p ih =>
    intro L hL hlen
    cases L with
    | nil => simp at hlen
    | cons d t =>
      have hdlt : d < 16 := hL d (List.mem_cons_self ..)
      have ht : ∀ x ∈ t, x < 16 := fun x hx => hL x (List.mem_cons_of_mem _ hx)
      have hplen : p < t.length := by simpa using hlen
      simp only [List.eraseIdx_cons_succ, Nat.ofDigits_cons]
      push_cast
      rw [ih t ht hplen, mod_digit_step _ p hdlt, div_digit_step _ (p + 1) hdlt]
      ring

theorem map_eraseIdx {α β : Type} (f : α → β) :
    ∀ (l : List α) (p : Nat), (l.eraseIdx p).map f = (l.map f).eraseIdx p := by
  intro l
  induction l with
  | nil => intro p; simp
  | cons a t ih =>
    intro p
    cases p with
    | zero => simp
    | succ p =>
      simp only [List.eraseIdx_cons_succ, List.map_cons]
      rw [ih p]

theorem wordDigits_eraseIdx (w : Word) (p : Nat) :
    wordDigits (w.eraseIdx p) = (wordDigits w).eraseIdx p :=
  map_eraseIdx charNib w p

theorem wordDigits_length (w : Word) : (wordDigits w).length = w.length := by
  simp [wordDigits]

theorem wordDigits_lt (w : Word) : ∀ d ∈ wordDigits w, d < 16 := by
  intro d hd
  obtain ⟨c, _, rfl⟩ := List.mem_map.mp hd
  exact charNib_lt c

/-- Deletion identity, helper form: `casefilter_pack_delete` on the
packed code removes the corresponding character. -/
theorem pack_delete_code14 (w : Word) (hw : validWord w) (p : Nat) (hp : p < 15) :
    casefilter_pack_delete (pack_keyword w) p = Nat.ofDigits 16 (wordDigits (w.eraseIdx p)) := by
  obtain ⟨hlen, _⟩ := hw
  have hplen : p < (wordDigits w).length := by rw [wordDigits_length, hlen]; exact hp
  rw [pack_keyword_eq w hlen, pack_delete_arith, wordDigits_eraseIdx,
    ofDigits_eraseIdx p (wordDigits w) (wordDigits_lt w) hplen]

theorem code14_lt (w : Word) (hw : validWord w) (p : Nat) (hp : p < 15) :
    Nat.ofDigits 16 (wordDigits (w.eraseIdx p)) < 16 ^ 14 := by
  obtain ⟨hlen, _⟩ := hw
  have hplen : p < (wordDigits w).length := by rw [wordDigits_length, hlen]; exact hp
  have h14 : (wordDigits (w.eraseIdx p)).length = 14 := by
    rw [wordDigits_eraseIdx, List.length_eraseIdx_of_lt hplen, wordDigits_length, hlen]
  have := ofDigits_lt_pow (b := 16) (by norm_num) (wordDigits (w.eraseIdx p))
    (by rw [wordDigits_eraseIdx]; intro d hd; exact wordDigits_lt w d (List.mem_of_mem_eraseIdx hd))
  rw [h14] at this
  exact this

/-- **C4** (deletion identity): for every word `w` of length 15 over
{A..J} and every `p < 15`, `casefilter_pack_delete (encode w) p` is the
nibble code — over 14 nibbles, hence below `16^14` — of the 14-character
string obtained by removing `w[p]`, where `encode` = `pack_keyword`
packs character `i` into bits [4i, 4i+4) as `w[i] - 'A'`. -/
theorem C4_deletion_identity (w : Word) (hw : validWord w) (p : Nat) (hp : p < 15) :
    casefilter_pack_delete (pack_keyword w) p = Nat.ofDigits 16 (wordDigits (w.eraseIdx p)) ∧
      Nat.ofDigits 16 (wordDigits (w.eraseIdx p)) < 16 ^ 14 :=
  ⟨pack_delete_code14 w hw p hp, code14_lt w hw p hp⟩

theorem hamming_packed15_eq_collapse (a b : Nat) :
    hamming_packed15 a b = popcount64 (swarCollapse (a ^^^ b) &&& 0x1111111111111111) := rfl

theorem hamming_packed14_eq_collapse (a b : Nat) :
    hamming_packed14 a b = popcount64 (swarCollapse (a ^^^ b) &&& 0x11111111111111) := rfl

theorem testBit_swarCollapse (x j : Nat) :
    (swarCollapse x).testBit j =
      (x.testBit j || x.testBit (j + 1) || x.testBit (j + 2) || x.testBit (j + 3)) := by
  unfold swarCollapse
  simp only [Nat.testBit_or, Nat.testBit_shiftRight]
  rw [show 1 + j = j + 1 by omega, show 2 + j = j + 2 by omega,
    show 1 + (j + 2) = j + 3 by omega]
  cases x.testBit j <;> cases x.testBit (j + 1) <;> cases x.testBit (j + 2) <;>
    cases x.testBit (j + 3) <;> rfl

theorem getD_cases (l : List Nat) (i : Nat) : l.getD i 0 = 0 ∨ l.getD i 0 ∈ l := by
  by_cases h : i < l.length
  · right
    rw [List.getD_eq_getElem _ _ h]
    exact l.getElem_mem h
  · left
    exact List.getD_eq_default _ _ (by omega)

theorem getD_lt_of_forall {l : List Nat} {b : Nat} (hb : 0 < b) (h : ∀ d ∈ l, d < b)
    (i : Nat) : l.getD i 0 < b := by
  rcases getD_cases l i with h0 | hm
  · omega
  · exact h _ hm

theorem testBit_one_eq (r : Nat) : Nat.testBit 1 r = decide (r = 0) := by
  cases r with
  | zero => decide
  | succ r =>
    rw [Nat.testBit_lt_two_pow (by
      have : (2:Nat) ^ 1 ≤ 2 ^ (r + 1) := Nat.pow_le_pow_right (by norm_num) (by omega)
      omega)]
    simp

theorem testBit_le_one {d : Nat} (hd : d ≤ 1) {r : Nat} (hr : r ≠ 0) :
    d.testBit r = false := by
  apply Nat.testBit_lt_two_pow
  have : (2:Nat) ^ 1 ≤ 2 ^ r := Nat.pow_le_pow_right (by norm_num) (by omega)
  omega

theorem getD_replicate (a : Nat) : ∀ (n i : Nat),
    (List.replicate n a).getD i 0 = if i < n then a else 0 := by
  intro n
  induction n with
  | zero => intro i; simp
  | succ n ih =>
    intro i
    cases i with
    | zero => simp [List.replicate_succ]
    | succ i =>
      simp only [List.replicate_succ, List.getD_cons_succ, ih i]
      by_cases h : i < n
      · rw [if_pos h, if_pos (by omega)]
      · rw [if_neg h, if_neg (by omega)]

/-- Bit characterisation of an `ofDigits 16` value whose digits are 0/1. -/
theorem testBit_spread (inds : List Nat) (h1 : ∀ d ∈ inds, d ≤ 1) (j : Nat) :
    (Nat.ofDigits 16 inds).testBit j =
      (decide (j % 4 = 0) && decide (inds.getD (j / 4) 0 = 1)) := by
  have h16 : ∀ d ∈ inds, d < 2 ^ 4 := fun d hd => by have := h1 d hd; omega
  rw [show (16:Nat) = 2 ^ 4 by norm_num] at *
  rw [testBit_ofDigits_pow 4 (by norm_num) inds h16 j]
  have hd : inds.getD (j / 4) 0 ≤ 1 := by
    rcases getD_cases inds (j / 4) with h0 | hm
    · omega
    · exact h1 _ hm
  by_cases hj : j % 4 = 0
  · rw [hj]
    interval_cases h : inds.getD (j / 4) 0 <;> simp
  · rw [testBit_le_one hd hj]
    simp [hj]

theorem getD_zipWith (f : Nat → Nat → Nat) (hf : f 0 0 = 0) :
    ∀ (xs ys : List Nat), xs.length = ys.length → ∀ i,
      (List.zipWith f xs ys).getD i 0 = f (xs.getD i 0) (ys.getD i 0) := by
  intro xs
  induction xs with
  | nil =>
    intro ys h i
    cases ys with
    | nil => simp [hf]
    | cons y yt => simp at h
  | cons x xt ih =>
    intro ys h i
    cases ys with
    | nil => simp at h
    | cons y yt =>
      cases i with
      | zero => simp
      | succ i =>
        simp only [List.zipWith_cons_cons, List.getD_cons_succ]
        exact ih yt (by simpa using h) i

/-- Bit characterisation of the XOR of two packed codes: bit `j` lives
in the XOR of nibble `j / 4`. -/
theorem testBit_xor_ofDigits (xs ys : List Nat) (hx : ∀ d ∈ xs, d < 16)
    (hy : ∀ d ∈ ys, d < 16) (j : Nat) :
    (Nat.ofDigits 16 xs ^^^ Nat.ofDigits 16 ys).testBit j =
      ((xs.getD (j / 4) 0) ^^^ (ys.getD (j / 4) 0)).testBit (j % 4) := by
  have hx' : ∀ d ∈ xs, d < 2 ^ 4 := by intro d hd; have := hx d hd; omega
  have hy' : ∀ d ∈ ys, d < 2 ^ 4 := by intro d hd; have := hy d hd; omega
  rw [Nat.testBit_xor, show (16:Nat) = 2 ^ 4 by norm_num,
    testBit_ofDigits_pow 4 (by norm_num) xs hx' j,
    testBit_ofDigits_pow 4 (by norm_num) ys hy' j, ← Nat.testBit_xor]

theorem testBit_maskOnes (n j : Nat) :
    (maskOnes n).testBit j = (decide (j % 4 = 0) && decide (j / 4 < n)) := by
  unfold maskOnes
  rw [testBit_spread _ (by intro d hd; rw [List.eq_of_mem_replicate hd]), getD_replicate]
  by_cases h : j / 4 < n
  · simp [h]
  · simp [h]

theorem diffInds_le_one : ∀ (xs ys : List Nat), ∀ d ∈ diffInds xs ys, d ≤ 1 := by
  intro xs
  induction xs with
  | nil => intro ys d hd; simp [diffInds] at hd
  | cons x xt ih =>
    intro ys d hd
    cases ys with
    | nil => simp [diffInds] at hd
    | cons y yt =>
      simp only [diffInds, List.zipWith_cons_cons, List.mem_cons] at hd
      rcases hd with h | h
      · subst h; split <;> omega
      · exact ih yt d h

theorem or4_testBit_ne_zero : ∀ u : Nat, u < 16 →
    (u.testBit 0 || u.testBit 1 || u.testBit 2 || u.testBit 3) = !decide (u = 0) := by
  decide

/-- Core SWAR fact: collapsing the XOR of two packed codes and masking
the low bit of each of `n` nibbles yields the packed difference
indicators. -/
theorem collapse_mask_spread (xs ys : List Nat) (hx : ∀ d ∈ xs, d < 16)
    (hy : ∀ d ∈ ys, d < 16) (hlen : xs.length = ys.length) (n : Nat) (hn : xs.length ≤ n) :
    swarCollapse (Nat.ofDigits 16 xs ^^^ Nat.ofDigits 16 ys) &&& maskOnes n =
      Nat.ofDigits 16 (diffInds xs ys) := by
  apply Nat.eq_of_testBit_eq
  intro j
  rw [Nat.testBit_and, testBit_swarCollapse, testBit_maskOnes,
    testBit_spread _ (diffInds_le_one xs ys)]
  simp only [diffInds]
  simp only [getD_zipWith (fun x y => if x = y then 0 else 1) (by norm_num) xs ys hlen]
  by_cases hj : j % 4 = 0
  · have e0 : j / 4 = j / 4 ∧ j % 4 = 0 := ⟨rfl, hj⟩
    have e1 : (j + 1) / 4 = j / 4 ∧ (j + 1) % 4 = 1 := ⟨by omega, by omega⟩
    have e2 : (j + 2) / 4 = j / 4 ∧ (j + 2) % 4 = 2 := ⟨by omega, by omega⟩
    have e3 : (j + 3) / 4 = j / 4 ∧ (j + 3) % 4 = 3 := ⟨by omega, by omega⟩
    rw [testBit_xor_ofDigits xs ys hx hy j,
      testBit_xor_ofDigits xs ys hx hy (j + 1),
      testBit_xor_ofDigits xs ys hx hy (j + 2),
      testBit_xor_ofDigits xs ys hx hy (j + 3),
      e1.1, e1.2, e2.1, e2.2, e3.1, e3.2, hj,
      or4_testBit_ne_zero _ (Nat.xor_lt_two_pow (n := 4)
        (getD_lt_of_forall (by norm_num) hx _) (getD_lt_of_forall (by norm_num) hy _))]
    by_cases hxy : xs.getD (j / 4) 0 = ys.getD (j / 4) 0
    · rw [hxy]
      simp
    · have hz : xs.getD (j / 4) 0 ^^^ ys.getD (j / 4) 0 ≠ 0 := by
        intro h0
        exact hxy (Nat.xor_eq_zero.mp h0)
      have hin : j / 4 < xs.length := by
        by_contra hge
        have hx0 : xs.getD (j / 4) 0 = 0 := List.getD_eq_default _ _ (by omega)
        have hy0 : ys.getD (j / 4) 0 = 0 := List.getD_eq_default _ _ (by omega)
        exact hxy (by rw [hx0, hy0])
      have hjn : j / 4 < n := by omega
      simp [hz, hxy, hjn]
  · simp [hj]

theorem ofDigits_addD (b : Nat) : ∀ xs ys : List Nat,
    (Nat.ofDigits b (addD xs ys) : Nat) = Nat.ofDigits b xs + Nat.ofDigits b ys := by
  intro xs
  induction xs with
  | nil => intro ys; simp [addD]
  | cons x xt ih =>
    intro ys
    cases ys with
    | nil => simp [addD]
    | cons y yt =>
      simp only [addD, Nat.ofDigits_cons, ih yt]
      push_cast
      ring

theorem mem_addD_le {a b : Nat} : ∀ (xs ys : List Nat), (∀ d ∈ xs, d ≤ a) →
    (∀ d ∈ ys, d ≤ b) → ∀ d ∈ addD xs ys, d ≤ a + b := by
  intro xs
  induction xs with
  | nil =>
    intro ys _ hy d hd
    simp only [addD] at hd
    have := hy d hd
    omega
  | cons x xt ih =>
    intro ys hx hy d hd
    cases ys with
    | nil =>
      simp only [addD] at hd
      have := hx d hd
      omega
    | cons y yt =>
      simp only [addD, List.mem_cons] at hd
      rcases hd with rfl | hd
      · have := hx x (List.mem_cons_self ..)
        have := hy y (List.mem_cons_self ..)
        omega
      · exact ih yt (fun u hu => hx u (List.mem_cons_of_mem _ hu))
          (fun u hu => hy u (List.mem_cons_of_mem _ hu)) d hd

theorem length_addD : ∀ xs ys : List Nat, (addD xs ys).length = max xs.length ys.length := by
  intro xs
  induction xs with
  | nil => intro ys; simp [addD]
  | cons x xt ih =>
    intro ys
    cases ys with
    | nil => simp [addD]
    | cons y yt => simp [addD, ih yt, Nat.succ_max_succ]

theorem ofDigits_shiftRight4 (l : List Nat) (h : ∀ d ∈ l, d < 16) :
    (Nat.ofDigits 16 l : Nat) >>> 4 = Nat.ofDigits 16 l.tail := by
  cases l with
  | nil => simp
  | cons d t =>
    have hd : d < 16 := h d (List.mem_cons_self ..)
    rw [Nat.shiftRight_eq_div_pow, Nat.ofDigits_cons]
    push_cast
    rw [Nat.add_mul_div_left _ _ (by norm_num : (0:Nat) < 16), Nat.div_eq_of_lt hd]
    simp

theorem getD_maskOddD : ∀ (l : List Nat) (i : Nat),
    (maskOddD l).getD i 0 = if i % 2 = 0 then l.getD i 0 else 0 := by
  intro l
  induction l using maskOddD.induct with
  | case1 =>
    intro i
    simp [maskOddD]
  | case2 a =>
    intro i
    match i with
    | 0 => simp [maskOddD]
    | 1 => simp [maskOddD]
    | (i+2) => simp [maskOddD, Nat.add_mod_right]
  | case3 a b r ih =>
    intro i
    match i with
    | 0 => simp [maskOddD]
    | 1 => simp [maskOddD]
    | (i+2) =>
      simp only [maskOddD, List.getD_cons_succ]
      rw [ih i, Nat.add_mod_right]

theorem mem_maskOddD : ∀ (l : List Nat), ∀ d ∈ maskOddD l, d ∈ l ∨ d = 0 := by
  intro l
  induction l using maskOddD.induct with
  | case1 => simp [maskOddD]
  | case2 a => simp [maskOddD]
  | case3 a b r ih =>
    intro d hd
    simp only [maskOddD, List.mem_cons] at hd ⊢
    rcases hd with rfl | rfl | hd
    · left; left; rfl
    · right; rfl
    · rcases ih d hd with h | h
      · left; right; right; exact h
      · right; exact h

theorem length_maskOddD_le : ∀ l : List Nat, (maskOddD l).length ≤ l.length := by
  intro l
  induction l using maskOddD.induct with
  | case1 => simp [maskOddD]
  | case2 a => simp [maskOddD]
  | case3 a b r ih => simpa [maskOddD] using ih

theorem ofDigits_maskOddD_to_256 : ∀ l : List Nat,
    (Nat.ofDigits 16 (maskOddD l) : Nat) = Nat.ofDigits 256 (evensD l) := by
  intro l
  induction l using maskOddD.induct with
  | case1 => simp [maskOddD, evensD]
  | case2 a => simp [maskOddD, evensD, Nat.ofDigits_singleton]
  | case3 a b r ih =>
    simp only [maskOddD, evensD, Nat.ofDigits_cons, ih]
    push_cast
    ring

theorem mem_evensD : ∀ (l : List Nat), ∀ d ∈ evensD l, d ∈ l := by
  intro l
  induction l using evensD.induct with
  | case1 => simp [evensD]
  | case2 a => simp [evensD]
  | case3 a b r ih =>
    intro d hd
    simp only [evensD, List.mem_cons] at hd ⊢
    rcases hd with rfl | hd
    · left; rfl
    · right; right; exact ih d hd

theorem length_evensD : ∀ l : List Nat, 2 * (evensD l).length ≤ l.length + 1 := by
  intro l
  induction l using evensD.induct with
  | case1 => simp [evensD]
  | case2 a => simp [evensD]
  | case3 a b r ih =>
    simp only [evensD, List.length_cons]
    omega

theorem sum_evensD_addD : ∀ l : List Nat, (evensD (addD l l.tail)).sum = l.sum := by
  intro l
  induction l using evensD.induct with
  | case1 => simp [addD, evensD]
  | case2 a => simp [addD, evensD]
  | case3 a b r ih =>
    cases r with
    | nil => simp [addD, evensD]
    | cons c r' =>
      have h1 : addD (a :: b :: c :: r') (b :: c :: r') =
          (a + b) :: addD (b :: c :: r') (c :: r') := rfl
      have h2 : addD (b :: c :: r') (c :: r') = (b + c) :: addD (c :: r') r' := rfl
      simp only [List.tail_cons] at ih ⊢
      rw [h1, h2, show evensD ((a + b) :: (b + c) :: addD (c :: r') r') =
        (a + b) :: evensD (addD (c :: r') r') from rfl]
      simp only [List.sum_cons, ih]
      omega

theorem mask5_eq : (0x5555555555555555 : Nat) = Nat.ofDigits (2 ^ 4) (List.replicate 16 5) := by
  decide

theorem mask3_eq : (0x3333333333333333 : Nat) = Nat.ofDigits (2 ^ 4) (List.replicate 16 3) := by
  decide

theorem maskF_eq : (0x0F0F0F0F0F0F0F0F : Nat) = Nat.ofDigits (2 ^ 4) maskFL := by
  decide

theorem maskFL_getD (i : Nat) :
    maskFL.getD i 0 = if i % 2 = 0 ∧ i < 16 then 15 else 0 := by
  by_cases h : i < 16
  · interval_cases i <;> simp [maskFL]
  · rw [List.getD_eq_default _ _ (by simp [maskFL]; omega), if_neg (by omega)]

theorem testBit_15_lt4 {r : Nat} (h : r < 4) : Nat.testBit 15 r = true := by
  interval_cases r <;> decide

/-- `hakmem1` is the identity on spread (one-bit-per-nibble) values. -/
theorem hakmem1_spread (inds : List Nat) (h1 : ∀ d ∈ inds, d ≤ 1)
    (hlt : (Nat.ofDigits 16 inds : Nat) < 2 ^ 64) :
    hakmem1 (Nat.ofDigits 16 inds) = Nat.ofDigits 16 inds := by
  have hz : ((Nat.ofDigits 16 inds : Nat) >>> 1) &&& 0x5555555555555555 = 0 := by
    apply Nat.eq_of_testBit_eq
    intro j
    rw [Nat.testBit_and, Nat.testBit_shiftRight, Nat.zero_testBit,
      testBit_spread inds h1 (1 + j)]
    by_cases hj : (1 + j) % 4 = 0
    · have hmask : (0x5555555555555555 : Nat).testBit j = false := by
        rw [mask5_eq, testBit_ofDigits_pow 4 (by norm_num) _
          (by intro d hd; rw [List.eq_of_mem_replicate hd]; norm_num) j, getD_replicate]
        have h3 : j % 4 = 3 := by omega
        by_cases h16 : j / 4 < 16
        · rw [if_pos h16, h3]; decide
        · rw [if_neg h16]; simp
      rw [hmask, Bool.and_false]
    · simp [hj]
  unfold hakmem1
  rw [hz, Nat.sub_zero, Nat.add_mod_right]
  exact Nat.mod_eq_of_lt hlt

/-- `hakmem2` is the identity on spread values with at most 15 nibbles. -/
theorem hakmem2_spread (inds : List Nat) (h1 : ∀ d ∈ inds, d ≤ 1)
    (hlen : inds.length ≤ 15) (hlt : (Nat.ofDigits 16 inds : Nat) < 2 ^ 64) :
    hakmem2 (Nat.ofDigits 16 inds) = Nat.ofDigits 16 inds := by
  have ha : (Nat.ofDigits 16 inds : Nat) &&& 0x3333333333333333 = Nat.ofDigits 16 inds := by
    apply Nat.eq_of_testBit_eq
    intro j
    rw [Nat.testBit_and]
    cases hb : (Nat.ofDigits 16 inds : Nat).testBit j with
    | false => simp
    | true =>
      rw [testBit_spread inds h1 j] at hb
      have hj0 : j % 4 = 0 ∧ inds.getD (j / 4) 0 = 1 := by simpa using hb
      have hidx : j / 4 < inds.length := by
        by_contra hge
        rw [List.getD_eq_default _ _ (by omega)] at hj0
        omega
      have hmask : (0x3333333333333333 : Nat).testBit j = true := by
        rw [mask3_eq, testBit_ofDigits_pow 4 (by norm_num) _
          (by intro d hd; rw [List.eq_of_mem_replicate hd]; norm_num) j, getD_replicate,
          if_pos (by omega : j / 4 < 16), hj0.1]
        decide
      rw [hmask, Bool.and_true]
  have hb : ((Nat.ofDigits 16 inds : Nat) >>> 2) &&& 0x3333333333333333 = 0 := by
    apply Nat.eq_of_testBit_eq
    intro j
    rw [Nat.testBit_and, Nat.testBit_shiftRight, Nat.zero_testBit,
      testBit_spread inds h1 (2 + j)]
    by_cases hj : (2 + j) % 4 = 0
    · have hmask : (0x3333333333333333 : Nat).testBit j = false := by
        rw [mask3_eq, testBit_ofDigits_pow 4 (by norm_num) _
          (by intro d hd; rw [List.eq_of_mem_replicate hd]; norm_num) j, getD_replicate]
        have h2 : j % 4 = 2 := by omega
        by_cases h16 : j / 4 < 16
        · rw [if_pos h16, h2]; decide
        · rw [if_neg h16]; simp
      rw [hmask, Bool.and_false]
    · simp [hj]
  unfold hakmem2
  rw [ha, hb, Nat.add_zero]
  exact Nat.mod_eq_of_lt hlt

/-- Masking a ≤ 15-nibble value with `0x0F0F0F0F0F0F0F0F` zeroes the
digits at odd nibble positions. -/
theorem and_maskF_eq_maskOddD (S : List Nat) (hS : ∀ d ∈ S, d < 16)
    (hlen : S.length ≤ 15) :
    (Nat.ofDigits 16 S : Nat) &&& 0x0F0F0F0F0F0F0F0F = Nat.ofDigits 16 (maskOddD S) := by
  have hS' : ∀ d ∈ S, d < 2 ^ 4 := by intro d hd; have := hS d hd; omega
  have hMO : ∀ d ∈ maskOddD S, d < 2 ^ 4 := by
    intro d hd
    rcases mem_maskOddD S d hd with h | rfl
    · exact hS' d h
    · norm_num
  have hFL : ∀ d ∈ maskFL, d < 2 ^ 4 := by intro d hd; fin_cases hd <;> norm_num
  apply Nat.eq_of_testBit_eq
  intro j
  rw [Nat.testBit_and, maskF_eq, show (16:Nat) = 2 ^ 4 by norm_num,
    testBit_ofDigits_pow 4 (by norm_num) S hS' j,
    testBit_ofDigits_pow 4 (by norm_num) maskFL hFL j,
    testBit_ofDigits_pow 4 (by norm_num) (maskOddD S) hMO j,
    getD_maskOddD S (j / 4), maskFL_getD (j / 4)]
  by_cases he : (j / 4) % 2 = 0
  · by_cases h16 : j / 4 < 16
    · rw [if_pos ⟨he, h16⟩, if_pos he, testBit_15_lt4 (Nat.mod_lt _ (by norm_num)),
        Bool.and_true]
    · rw [if_neg (by tauto), if_pos he,
        List.getD_eq_default _ _ (show S.length ≤ j / 4 by omega)]
      simp
  · rw [if_neg (by tauto), if_neg he]
    simp

theorem sum_le_length_mul (c : Nat) : ∀ l : List Nat, (∀ d ∈ l, d ≤ c) →
    l.sum ≤ l.length * c := by
  intro l
  induction l with
  | nil => simp
  | cons a t ih =>
    intro h
    have ha : a ≤ c := h a (List.mem_cons_self ..)
    have ht := ih fun d hd => h d (List.mem_cons_of_mem _ hd)
    simp only [List.sum_cons, List.length_cons]
    calc a + t.sum ≤ c + t.length * c := by omega
      _ = (t.length + 1) * c := by ring

theorem ofDigits_replicate_zero (b : Nat) : ∀ n, (Nat.ofDigits b (List.replicate n 0) : Nat) = 0 := by
  intro n
  induction n with
  | zero => simp
  | succ n ih => simp [List.replicate_succ, Nat.ofDigits_cons, ih]

theorem list_eq_of_length_eight (l : List Nat) (h : l.length = 8) :
    ∃ b0 b1 b2 b3 b4 b5 b6 b7 : Nat, l = [b0, b1, b2, b3, b4, b5, b6, b7] := by
  rcases l with _ | ⟨b0, l⟩; · simp at h
  rcases l with _ | ⟨b1, l⟩; · simp at h
  rcases l with _ | ⟨b2, l⟩; · simp at h
  rcases l with _ | ⟨b3, l⟩; · simp at h
  rcases l with _ | ⟨b4, l⟩; · simp at h
  rcases l with _ | ⟨b5, l⟩; · simp at h
  rcases l with _ | ⟨b6, l⟩; · simp at h
  rcases l with _ | ⟨b7, l⟩; · simp at h
  rcases l with _ | ⟨b8, l⟩
  · exact ⟨b0, b1, b2, b3, b4, b5, b6, b7, rfl⟩
  · simp at h

/-- The HAKMEM final multiply: for a byte-packed value whose byte sum is
below 256, the top byte of `x * 0x0101010101010101` (taken modulo 2^64)
is the sum of the bytes. -/
theorem byte_mul_extract (B : List Nat) (hsum : B.sum < 256) (hlen : B.length ≤ 8) :
    ((Nat.ofDigits 256 B * 0x0101010101010101) % 2 ^ 64) >>> 56 = B.sum := by
  obtain ⟨b0, b1, b2, b3, b4, b5, b6, b7, hEq⟩ :=
    list_eq_of_length_eight (B ++ List.replicate (8 - B.length) 0) (by simp; omega)
  have hofd : (Nat.ofDigits 256 B : Nat) =
      Nat.ofDigits 256 (B ++ List.replicate (8 - B.length) 0) := by
    rw [Nat.ofDigits_append, ofDigits_replicate_zero]
    push_cast
    ring
  have hsum' : B.sum = (B ++ List.replicate (8 - B.length) 0).sum := by
    simp
  rw [hofd, hsum', hEq]
  have hofd_val : (Nat.ofDigits 256 [b0, b1, b2, b3, b4, b5, b6, b7] : Nat) =
      b0 + 256*b1 + 65536*b2 + 16777216*b3 + 4294967296*b4 + 1099511627776*b5 +
      281474976710656*b6 + 72057594037927936*b7 := by
    simp [Nat.ofDigits]
    push_cast
    ring
  have hsum_val : ([b0, b1, b2, b3, b4, b5, b6, b7] : List Nat).sum =
      b0 + b1 + b2 + b3 + b4 + b5 + b6 + b7 := by
    simp
    ring
  rw [hofd_val, hsum_val]
  have hS : b0 + b1 + b2 + b3 + b4 + b5 + b6 + b7 < 256 := by
    rw [hsum', hEq, hsum_val] at hsum
    exact hsum
  have key : (b0 + 256*b1 + 65536*b2 + 16777216*b3 + 4294967296*b4 + 1099511627776*b5 +
       281474976710656*b6 + 72057594037927936*b7) * 0x0101010101010101 =
      ((b0 + (b0+b1)*256 + (b0+b1+b2)*65536 + (b0+b1+b2+b3)*16777216
        + (b0+b1+b2+b3+b4)*4294967296 + (b0+b1+b2+b3+b4+b5)*1099511627776
        + (b0+b1+b2+b3+b4+b5+b6)*281474976710656)
      + (b0+b1+b2+b3+b4+b5+b6+b7) * 2 ^ 56)
      + ((b1+b2+b3+b4+b5+b6+b7) + (b2+b3+b4+b5+b6+b7)*256 + (b3+b4+b5+b6+b7)*65536
        + (b4+b5+b6+b7)*16777216 + (b5+b6+b7)*4294967296 + (b6+b7)*1099511627776
        + b7*281474976710656) * 2 ^ 64 := by
    norm_num
    ring
  have hL : (b0 + (b0+b1)*256 + (b0+b1+b2)*65536 + (b0+b1+b2+b3)*16777216
        + (b0+b1+b2+b3+b4)*4294967296 + (b0+b1+b2+b3+b4+b5)*1099511627776
        + (b0+b1+b2+b3+b4+b5+b6)*281474976710656) < 2 ^ 56 := by
    have h56 : (2:Nat) ^ 56 = 72057594037927936 := by norm_num
    omega
  rw [key, Nat.add_mul_mod_self_right,
    Nat.mod_eq_of_lt (by
      have h56 : (2:Nat) ^ 56 = 72057594037927936 := by norm_num
      have h64 : (2:Nat) ^ 64 = 18446744073709551616 := by norm_num
      omega),
    Nat.shiftRight_eq_div_pow,
    Nat.add_mul_div_right _ _ (by norm_num : (0:Nat) < 2 ^ 56),
    Nat.div_eq_of_lt hL]
  omega

/-- **popcount64 on spread values**: on any value packing 0/1 digits
into at most 15 nibbles, the HAKMEM pipeline returns the digit sum. -/
theorem popcount64_spread (inds : List Nat) (h1 : ∀ d ∈ inds, d ≤ 1)
    (hlen : inds.length ≤ 15) :
    popcount64 (Nat.ofDigits 16 inds) = inds.sum := by
  have h16 : ∀ d ∈ inds, d < 16 := fun d hd => by have := h1 d hd; omega
  have hlt : ∀ (l : List Nat), l.length ≤ 15 → (∀ d ∈ l, d < 16) →
      (Nat.ofDigits 16 l : Nat) < 2 ^ 64 := by
    intro l hl hd
    have := ofDigits_lt_pow (by norm_num : (0:Nat) < 16) l hd
    have h2 : (16:Nat) ^ l.length ≤ 16 ^ 15 := Nat.pow_le_pow_right (by norm_num) hl
    have h3 : (16:Nat) ^ 15 < 2 ^ 64 := by norm_num
    omega
  have h1t : ∀ d ∈ inds.tail, d ≤ 1 := by
    cases inds with
    | nil => simp
    | cons d t => intro x hx; exact h1 x (List.mem_cons_of_mem _ hx)
  have h16t : ∀ d ∈ inds.tail, d < 16 := fun d hd => by have := h1t d hd; omega
  have htlen : inds.tail.length ≤ inds.length := by cases inds <;> simp
  have hS2 : ∀ d ∈ addD inds inds.tail, d ≤ 2 := by
    intro d hd
    have := mem_addD_le inds inds.tail h1 h1t d hd
    omega
  have hS16 : ∀ d ∈ addD inds inds.tail, d < 16 := fun d hd => by have := hS2 d hd; omega
  have hSlen : (addD inds inds.tail).length ≤ 15 := by
    rw [length_addD]
    omega
  unfold popcount64
  rw [hakmem1_spread inds h1 (hlt inds hlen h16),
    hakmem2_spread inds h1 hlen (hlt inds hlen h16)]
  have h3 : hakmem3 (Nat.ofDigits 16 inds) = Nat.ofDigits 16 (maskOddD (addD inds inds.tail)) := by
    unfold hakmem3
    rw [ofDigits_shiftRight4 inds h16, ← ofDigits_addD,
      Nat.mod_eq_of_lt (hlt _ hSlen hS16)]
    exact and_maskF_eq_maskOddD _ hS16 hSlen
  rw [h3, ofDigits_maskOddD_to_256]
  have hElen : (evensD (addD inds inds.tail)).length ≤ 8 := by
    have := length_evensD (addD inds inds.tail)
    omega
  have hE2 : ∀ d ∈ evensD (addD inds inds.tail), d ≤ 2 := by
    intro d hd
    exact hS2 d (mem_evensD _ d hd)
  have hEsum : (evensD (addD inds inds.tail)).sum < 256 := by
    have hle := sum_le_length_mul 2 (evensD (addD inds inds.tail)) hE2
    omega
  rw [byte_mul_extract _ hEsum hElen]
  exact sum_evensD_addD inds

theorem diffInds_wordDigits :
    ∀ (a b : List Nat), (∀ c ∈ a, 65 ≤ c ∧ c < 75) → (∀ c ∈ b, 65 ≤ c ∧ c < 75) →
      diffInds (wordDigits a) (wordDigits b) =
        List.zipWith (fun x y => if x = y then 0 else 1) a b := by
  intro a
  induction a with
  | nil => intro b _ _; simp [diffInds, wordDigits]
  | cons x xt ih =>
    intro b ha hb
    cases b with
    | nil => simp [diffInds, wordDigits]
    | cons y yt =>
      have hx := ha x (List.mem_cons_self ..)
      have hy := hb y (List.mem_cons_self ..)
      simp only [wordDigits, List.map_cons, diffInds, List.zipWith_cons_cons]
      have hhead : (if charNib x = charNib y then (0:Nat) else 1) =
          if x = y then 0 else 1 := by
        rw [charNib_of_valid hx.1 hx.2, charNib_of_valid hy.1 hy.2]
        by_cases hxy : x = y
        · rw [if_pos hxy, if_pos (by omega)]
        · rw [if_neg hxy, if_neg (by omega)]
      rw [hhead]
      have := ih yt (fun c hc => ha c (List.mem_cons_of_mem _ hc))
        (fun c hc => hb c (List.mem_cons_of_mem _ hc))
      simp only [wordDigits, diffInds] at this
      rw [this]

theorem mask16_eq_maskOnes : (0x1111111111111111 : Nat) = maskOnes 16 := by decide

theorem mask14_eq_maskOnes : (0x11111111111111 : Nat) = maskOnes 14 := by decide

theorem length_diffInds (xs ys : List Nat) :
    (diffInds xs ys).length = min xs.length ys.length := by
  simp [diffInds]

theorem hamming_packed15_eq_listHamming (a b : Word) (ha : validWord a) (hb : validWord b) :
    hamming_packed15 (pack_keyword a) (pack_keyword b) = listHamming a b := by
  obtain ⟨hal, hav⟩ := ha
  obtain ⟨hbl, hbv⟩ := hb
  have hlen : (wordDigits a).length = (wordDigits b).length := by
    rw [wordDigits_length, wordDigits_length, hal, hbl]
  rw [hamming_packed15_eq_collapse, pack_keyword_eq a hal, pack_keyword_eq b hbl,
    mask16_eq_maskOnes,
    collapse_mask_spread _ _ (wordDigits_lt a) (wordDigits_lt b) hlen 16
      (by rw [wordDigits_length, hal]; norm_num),
    popcount64_spread _ (diffInds_le_one _ _)
      (by rw [length_diffInds, wordDigits_length, wordDigits_length, hal, hbl]; norm_num),
    diffInds_wordDigits a b hav hbv]
  rfl

theorem hamming_packed14_eq_listHamming (u v : Word) (hul : u.length = 14)
    (hvl : v.length = 14) (huv : ∀ c ∈ u, 65 ≤ c ∧ c < 75)
    (hvv : ∀ c ∈ v, 65 ≤ c ∧ c < 75) :
    hamming_packed14 (Nat.ofDigits 16 (wordDigits u)) (Nat.ofDigits 16 (wordDigits v)) =
      listHamming u v := by
  have hlen : (wordDigits u).length = (wordDigits v).length := by
    rw [wordDigits_length, wordDigits_length, hul, hvl]
  rw [hamming_packed14_eq_collapse, mask14_eq_maskOnes,
    collapse_mask_spread _ _ (wordDigits_lt u) (wordDigits_lt v) hlen 14
      (by rw [wordDigits_length, hul]),
    popcount64_spread _ (diffInds_le_one _ _)
      (by rw [length_diffInds, wordDigits_length, wordDigits_length, hul, hvl]; norm_num),
    diffInds_wordDigits u v huv hvv]
  rfl

/-- **C5** (SWAR Hamming correctness): for every pair of length-15 words
over {A..J}, `hamming_packed15` on their nibble codes equals the
character-wise Hamming distance; and for every pair of 14-character
words over {A..J} — in particular the outputs of
`casefilter_pack_delete` on valid codes, cf. C4 — `hamming_packed14` on
their 56-bit nibble codes equals their character-wise Hamming
distance. -/
theorem C5_swar_hamming :
    (∀ a b : Word, validWord a → validWord b →
      hamming_packed15 (pack_keyword a) (pack_keyword b) = listHamming a b) ∧
    (∀ u v : Word, u.length = 14 → v.length = 14 →
      (∀ c ∈ u, 65 ≤ c ∧ c < 75) → (∀ c ∈ v, 65 ≤ c ∧ c < 75) →
      hamming_packed14 (Nat.ofDigits 16 (wordDigits u)) (Nat.ofDigits 16 (wordDigits v)) =
        listHamming u v) :=
  ⟨hamming_packed15_eq_listHamming, hamming_packed14_eq_listHamming⟩

theorem C4_deletion_identity_witness :
    validWord wex ∧ 3 < 15 ∧
      (casefilter_pack_delete (pack_keyword wex) 3 = Nat.ofDigits 16 (wordDigits (wex.eraseIdx 3)) ∧
        Nat.ofDigits 16 (wordDigits (wex.eraseIdx 3)) < 16 ^ 14) :=
  ⟨by decide, by decide, C4_deletion_identity wex (by decide) 3 (by decide)⟩

theorem C5_swar_hamming_witness :
    validWord wex ∧ validWord wex2 ∧
      hamming_packed15 (pack_keyword wex) (pack_keyword wex2) = listHamming wex wex2 ∧
      (wex.eraseIdx 0).length = 14 ∧ (wex2.eraseIdx 3).length = 14 ∧
      hamming_packed14 (Nat.ofDigits 16 (wordDigits (wex.eraseIdx 0)))
          (Nat.ofDigits 16 (wordDigits (wex2.eraseIdx 3))) =
        listHamming (wex.eraseIdx 0) (wex2.eraseIdx 3) :=
  ⟨by decide, by decide,
    C5_swar_hamming.1 wex wex2 (by decide) (by decide),
    by decide, by decide,
    C5_swar_hamming.2 (wex.eraseIdx 0) (wex2.eraseIdx 3) (by decide) (by decide)
      (by decide) (by decide)⟩

/-! ## Claim C10: degenerate inserts -/

/-- **C10 counterexample**: inserting an empty (zero-length, non-NULL)
word does NOT leave the index unchanged — a record is appended. -/
theorem C10_empty_insert_counterexample :
    casefilter_insert casefilter_create (some []) ≠ casefilter_create ∧
      (casefilter_insert casefilter_create (some [])).keywords.length = 1 := by
  constructor
  · intro h
    have := congrArg (fun i => i.keywords.length) h
    simp [casefilter_insert, casefilter_create] at this
  · simp [casefilter_insert, casefilter_create]

/-- **C10 amended**: a NULL word leaves the index completely unchanged;
but any non-NULL word — the empty word included — is inserted: the
keyword count grows by one and a record and a code are appended. -/
theorem C10_insert_degenerate :
    (∀ idx : BuildIndex, casefilter_insert idx none = idx) ∧
      (∀ (idx : BuildIndex) (w : List Nat),
        (casefilter_insert idx (some w)).keywords.length = idx.keywords.length + 1 ∧
          (casefilter_insert idx (some w)).codes.length = idx.codes.length + 1 ∧
          (casefilter_insert idx (some w)).keywords =
            idx.keywords ++ [(List.range KEYWORD_LEN).map fun i => w.getD i 0] ∧
          (casefilter_insert idx (some w)).codes = idx.codes ++ [pack_keyword w]) := by
  constructor
  · intro idx; rfl
  · intro idx w
    refine ⟨?_, ?_, rfl, rfl⟩ <;> simp [casefilter_insert]

/-! ## Claim C6: CSR invariants after finalize -/

theorem list_range_map_sum (f : Nat → Nat) : ∀ n : Nat,
    ((List.range n).map f).sum = ∑ i in Finset.range n, f i := by
  intro n
  induction n with
  | zero => simp
  | succ n ih =>
    rw [List.range_succ, List.map_append, List.sum_append, ih, Finset.sum_range_succ]
    simp

theorem length_flatMap' {α β : Type} (f : α → List β) : ∀ l : List α,
    (l.flatMap f).length = (l.map fun a => (f a).length).sum := by
  intro l
  induction l with
  | nil => rfl
  | cons a t ih => simp [ih]

theorem length_filterMap_ite {α : Type} (v : α) (c : Nat → Prop) [DecidablePred c] :
    ∀ l : List Nat,
      (l.filterMap fun p => if c p then some v else none).length =
        (l.map fun p => if c p then 1 else 0).sum := by
  intro l
  induction l with
  | nil => rfl
  | cons a t ih =>
    by_cases h : c a
    · simp [List.filterMap_cons, h, ih]
      omega
    · simp [List.filterMap_cons, h, ih]

theorem length_hposting (D : List Word) (s : Nat) :
    (hposting D s).length = hcounts D s := by
  unfold hposting hcounts
  rw [length_flatMap']
  refine congrArg List.sum (List.map_congr_left ?_)
  intro id _
  exact length_filterMap_ite id (fun p => hslot (D.getD id []) p = s) (List.range 10)

theorem length_dposting (D : List Word) (s : Nat) :
    (dposting D s).length = dcounts D s := by
  unfold dposting dcounts
  rw [length_flatMap']
  refine congrArg List.sum (List.map_congr_left ?_)
  intro id _
  rw [length_flatMap']
  refine congrArg List.sum (List.map_congr_left ?_)
  intro pos _
  rw [List.length_append]
  by_cases hL : dslotL (D.getD id []) pos = s <;> by_cases hR : dslotR (D.getD id []) pos = s <;>
    simp only [hL, hR, if_true, if_false, ite_true, ite_false, List.length_cons,
      List.length_nil] <;> omega

theorem hoffsets_succ (D : List Word) (i : Nat) :
    hoffsets D (i + 1) = hoffsets D i + hcounts D i := by
  unfold hoffsets
  rw [List.range_succ, List.map_append, List.sum_append]
  simp only [List.map_cons, List.map_nil, List.sum_cons, List.sum_nil, Nat.add_zero]

theorem doffsets_succ (D : List Word) (i : Nat) :
    doffsets D (i + 1) = doffsets D i + dcounts D i := by
  unfold doffsets
  rw [List.range_succ, List.map_append, List.sum_append]
  simp only [List.map_cons, List.map_nil, List.sum_cons, List.sum_nil, Nat.add_zero]

theorem length_hpayload (D : List Word) :
    (hpayload D).length = hoffsets D (H_KEY_SPACE * 10) := by
  unfold hpayload hoffsets
  rw [length_flatMap']
  refine congrArg List.sum (List.map_congr_left ?_)
  intro s _
  exact length_hposting D s

theorem length_dpayload (D : List Word) :
    (dpayload D).length = doffsets D DEL_KEY_SPACE := by
  unfold dpayload doffsets
  rw [length_flatMap']
  refine congrArg List.sum (List.map_congr_left ?_)
  intro s _
  exact length_dposting D s

theorem foldl_add_eq_ofDigits (f : Nat → Nat) : ∀ n : Nat,
    (List.range n).foldl (fun v i => v + f i * 10 ^ i) 0 =
      Nat.ofDigits 10 ((List.range n).map f) := by
  intro n
  induction n with
  | zero => simp [Nat.ofDigits]
  | succ n ih =>
    rw [List.range_succ, List.foldl_append, List.foldl_cons, List.foldl_nil, ih,
      List.map_append, Nat.ofDigits_append]
    simp only [List.map_cons, List.map_nil, Nat.ofDigits_singleton, List.length_map,
      List.length_range]
    push_cast
    ring

theorem pack_key6_lt (key : List Nat) (h : ∀ i, i < 6 → charNib (key.getD i 0) < 10) :
    pack_key6 key < 10 ^ 6 := by
  unfold pack_key6
  rw [foldl_add_eq_ofDigits]
  have := ofDigits_lt_pow (b := 10) (by norm_num)
    ((List.range 6).map fun i => charNib (key.getD i 0))
    (by
      intro d hd
      obtain ⟨i, hi, rfl⟩ := List.mem_map.mp hd
      exact h i (List.mem_range.mp hi))
  simpa using this

theorem pack_key7_lt (key : List Nat) (h : ∀ i, i < 7 → charNib (key.getD i 0) < 10) :
    pack_key7 key < 10 ^ 7 := by
  unfold pack_key7
  rw [foldl_add_eq_ofDigits]
  have := ofDigits_lt_pow (b := 10) (by norm_num)
    ((List.range 7).map fun i => charNib (key.getD i 0))
    (by
      intro d hd
      obtain ⟨i, hi, rfl⟩ := List.mem_map.mp hd
      exact h i (List.mem_range.mp hi))
  simpa using this

theorem charNib_lt_ten {c : Nat} (h : 65 ≤ c ∧ c < 75) : charNib c < 10 := by
  rw [charNib_of_valid h.1 h.2]
  omega

theorem getD_valid_nib {l : List Nat} (hl : ∀ c ∈ l, 65 ≤ c ∧ c < 75) {n : Nat} (i : Nat)
    (hlen : l.length = n) (hi : i < n) : charNib (l.getD i 0) < 10 := by
  have him : l.getD i 0 ∈ l := by
    rw [List.getD_eq_getElem _ _ (by omega)]
    exact l.getElem_mem _
  exact charNib_lt_ten (hl _ him)

theorem pairKey_length (w : Word) (hw : w.length = 15) (p : Nat) (hp : p < 10) :
    (pairKey w p).length = 6 := by
  have hij : pair_i.getD p 0 ≤ 3 ∧ pair_j.getD p 0 ≤ 4 := by
    interval_cases p <;> constructor <;> decide
  unfold pairKey
  rw [List.length_append, List.length_take, List.length_take, List.length_drop,
    List.length_drop, hw]
  omega

theorem pairKey_valid (w : Word) (hw : ∀ c ∈ w, 65 ≤ c ∧ c < 75) :
    ∀ c ∈ pairKey w p, 65 ≤ c ∧ c < 75 := by
  intro c hc
  unfold pairKey at hc
  rcases List.mem_append.mp hc with h | h
  · exact hw c (List.mem_of_mem_drop (List.mem_of_mem_take h))
  · exact hw c (List.mem_of_mem_drop (List.mem_of_mem_take h))

theorem hslot_lt (w : Word) (hw : validWord w) (p : Nat) (hp : p < 10) :
    hslot w p < H_KEY_SPACE * 10 := by
  obtain ⟨hlen, hv⟩ := hw
  have hk : pack_key6 (pairKey w p) < 10 ^ 6 :=
    pack_key6_lt _ fun i hi =>
      getD_valid_nib (pairKey_valid w hv) i (pairKey_length w hlen p hp) hi
  unfold hslot H_KEY_SPACE
  have : (10 : Nat) ^ 6 = 1000000 := by norm_num
  omega

theorem eraseIdx_valid (w : Word) (hw : ∀ c ∈ w, 65 ≤ c ∧ c < 75) (pos : Nat) :
    ∀ c ∈ w.eraseIdx pos, 65 ≤ c ∧ c < 75 :=
  fun c hc => hw c (List.mem_of_mem_eraseIdx hc)

theorem length_eraseIdx_14 (w : Word) (hlen : w.length = 15) (pos : Nat) (hpos : pos < 15) :
    (w.eraseIdx pos).length = 14 := by
  rw [List.length_eraseIdx_of_lt (by omega), hlen]

theorem dslotL_lt (w : Word) (hw : validWord w) (pos : Nat) (hpos : pos < 15) :
    dslotL w pos < DEL_KEY_SPACE := by
  obtain ⟨hlen, hv⟩ := hw
  have h7 : ((w.eraseIdx pos).take 7).length = 7 := by
    rw [List.length_take, length_eraseIdx_14 w hlen pos hpos]
    decide
  have hk : pack_key7 ((w.eraseIdx pos).take 7) < 10 ^ 7 :=
    pack_key7_lt _ fun i hi =>
      getD_valid_nib (fun c hc => eraseIdx_valid w hv pos c (List.mem_of_mem_take hc)) i h7 hi
  unfold dslotL at *
  unfold DEL_KEY_SPACE
  have : (10 : Nat) ^ 7 = 10000000 := by norm_num
  omega

theorem dslotR_lt (w : Word) (hw : validWord w) (pos : Nat) (hpos : pos < 15) :
    dslotR w pos < DEL_KEY_SPACE := by
  obtain ⟨hlen, hv⟩ := hw
  have h7 : (((w.eraseIdx pos).drop 7).take 7).length = 7 := by
    rw [List.length_take, List.length_drop, length_eraseIdx_14 w hlen pos hpos]
    decide
  have hk : pack_key7 (((w.eraseIdx pos).drop 7).take 7) < 10 ^ 7 :=
    pack_key7_lt _ fun i hi =>
      getD_valid_nib (fun c hc =>
        eraseIdx_valid w hv pos c (List.mem_of_mem_drop (List.mem_of_mem_take hc))) i h7 hi
  unfold dslotR at *
  unfold DEL_KEY_SPACE
  have : (10 : Nat) ^ 7 = 10000000 := by norm_num
  omega

theorem getD_mem_of_lt (D : List Word) (id : Nat) (h : id < D.length) :
    D.getD id [] ∈ D := by
  rw [List.getD_eq_getElem _ _ h]
  exact D.getElem_mem _

theorem hcounts_finset (D : List Word) (s : Nat) :
    hcounts D s = ∑ id in Finset.range D.length, ∑ p in Finset.range 10,
      if hslot (D.getD id []) p = s then 1 else 0 := by
  unfold hcounts
  rw [list_range_map_sum]
  refine Finset.sum_congr rfl ?_
  intro id _
  rw [list_range_map_sum]

theorem dcounts_finset (D : List Word) (s : Nat) :
    dcounts D s = ∑ id in Finset.range D.length, ∑ pos in Finset.range 15,
      ((if dslotL (D.getD id []) pos = s then 1 else 0) +
        (if dslotR (D.getD id []) pos = s then 1 else 0)) := by
  unfold dcounts
  rw [list_range_map_sum]
  refine Finset.sum_congr rfl ?_
  intro id _
  rw [list_range_map_sum]

theorem hoffsets_total (D : List Word) (hD : ∀ w ∈ D, validWord w) :
    hoffsets D (H_KEY_SPACE * 10) = 10 * D.length := by
  unfold hoffsets
  rw [list_range_map_sum]
  calc (∑ s in Finset.range (H_KEY_SPACE * 10), hcounts D s)
      = ∑ s in Finset.range (H_KEY_SPACE * 10), ∑ id in Finset.range D.length,
          ∑ p in Finset.range 10, if hslot (D.getD id []) p = s then 1 else 0 :=
        Finset.sum_congr rfl fun s _ => hcounts_finset D s
    _ = ∑ id in Finset.range D.length, ∑ s in Finset.range (H_KEY_SPACE * 10),
          ∑ p in Finset.range 10, if hslot (D.getD id []) p = s then 1 else 0 :=
        Finset.sum_comm
    _ = ∑ id in Finset.range D.length, ∑ p in Finset.range 10,
          ∑ s in Finset.range (H_KEY_SPACE * 10), if hslot (D.getD id []) p = s then 1 else 0 :=
        Finset.sum_congr rfl fun id _ => Finset.sum_comm
    _ = ∑ id in Finset.range D.length, ∑ p in Finset.range 10, 1 := by
        refine Finset.sum_congr rfl fun id hid => Finset.sum_congr rfl fun p hp => ?_
        rw [Finset.sum_ite_eq (Finset.range (H_KEY_SPACE * 10)) (hslot (D.getD id []) p)
          (fun _ => 1), if_pos (Finset.mem_range.mpr
            (hslot_lt _ (hD _ (getD_mem_of_lt D id (Finset.mem_range.mp hid)))
              p (Finset.mem_range.mp hp)))]
    _ = 10 * D.length := by
        simp [Finset.sum_const, Finset.card_range]
        ring

theorem doffsets_total (D : List Word) (hD : ∀ w ∈ D, validWord w) :
    doffsets D DEL_KEY_SPACE = 30 * D.length := by
  unfold doffsets
  rw [list_range_map_sum]
  calc (∑ s in Finset.range DEL_KEY_SPACE, dcounts D s)
      = ∑ s in Finset.range DEL_KEY_SPACE, ∑ id in Finset.range D.length,
          ∑ pos in Finset.range 15,
            ((if dslotL (D.getD id []) pos = s then 1 else 0) +
              (if dslotR (D.getD id []) pos = s then 1 else 0)) :=
        Finset.sum_congr rfl fun s _ => dcounts_finset D s
    _ = ∑ id in Finset.range D.length, ∑ s in Finset.range DEL_KEY_SPACE,
          ∑ pos in Finset.range 15,
            ((if dslotL (D.getD id []) pos = s then 1 else 0) +
              (if dslotR (D.getD id []) pos = s then 1 else 0)) :=
        Finset.sum_comm
    _ = ∑ id in Finset.range D.length, ∑ pos in Finset.range 15,
          ∑ s in Finset.range DEL_KEY_SPACE,
            ((if dslotL (D.getD id []) pos = s then 1 else 0) +
              (if dslotR (D.getD id []) pos = s then 1 else 0)) :=
        Finset.sum_congr rfl fun id _ => Finset.sum_comm
    _ = ∑ id in Finset.range D.length, ∑ pos in Finset.range 15, 2 := by
        refine Finset.sum_congr rfl fun id hid => Finset.sum_congr rfl fun pos hpos => ?_
        rw [Finset.sum_add_distrib,
          Finset.sum_ite_eq (Finset.range DEL_KEY_SPACE) (dslotL (D.getD id []) pos)
            (fun _ => 1),
          Finset.sum_ite_eq (Finset.range DEL_KEY_SPACE) (dslotR (D.getD id []) pos)
            (fun _ => 1),
          if_pos (Finset.mem_range.mpr
            (dslotL_lt _ (hD _ (getD_mem_of_lt D id (Finset.mem_range.mp hid)))
              pos (Finset.mem_range.mp hpos))),
          if_pos (Finset.mem_range.mpr
            (dslotR_lt _ (hD _ (getD_mem_of_lt D id (Finset.mem_range.mp hid)))
              pos (Finset.mem_range.mp hpos)))]
    _ = 30 * D.length := by
        simp [Finset.sum_const, Finset.card_range]
        ring

/-- **C6** (CSR invariants after finalize): for both tables built by
`casefilter_finalize`, `offsets[0] = 0`,
`offsets[i+1] - offsets[i] = counts[i]` for every slot, and
`offsets[slots]` is the payload length; for an index of `N` valid words
the pair-table payload length is exactly `10·N` and the deletion-table
payload length is exactly `30·N`. -/
theorem C6_csr_invariants (D : List Word) (hD : ∀ w ∈ D, validWord w) :
    hoffsets D 0 = 0 ∧ doffsets D 0 = 0 ∧
      (∀ i, hoffsets D (i + 1) - hoffsets D i = hcounts D i) ∧
      (∀ i, doffsets D (i + 1) - doffsets D i = dcounts D i) ∧
      hoffsets D (H_KEY_SPACE * 10) = (hpayload D).length ∧
      doffsets D DEL_KEY_SPACE = (dpayload D).length ∧
      (hpayload D).length = 10 * D.length ∧
      (dpayload D).length = 30 * D.length := by
  refine ⟨rfl, rfl, ?_, ?_, (length_hpayload D).symm, (length_dpayload D).symm, ?_, ?_⟩
  · intro i
    rw [hoffsets_succ]
    omega
  · intro i
    rw [doffsets_succ]
    omega
  · rw [length_hpayload D]
    exact hoffsets_total D hD
  · rw [length_dpayload D]
    exact doffsets_total D hD

theorem C6_csr_invariants_witness :
    (∀ w ∈ [wex], validWord w) ∧
      (hoffsets [wex] 0 = 0 ∧ doffsets [wex] 0 = 0 ∧
        (∀ i, hoffsets [wex] (i + 1) - hoffsets [wex] i = hcounts [wex] i) ∧
        (∀ i, doffsets [wex] (i + 1) - doffsets [wex] i = dcounts [wex] i) ∧
        hoffsets [wex] (H_KEY_SPACE * 10) = (hpayload [wex]).length ∧
        doffsets [wex] DEL_KEY_SPACE = (dpayload [wex]).length ∧
        (hpayload [wex]).length = 10 * [wex].length ∧
        (dpayload [wex]).length = 30 * [wex].length) :=
  ⟨by decide, C6_csr_invariants [wex] (by decide)⟩

theorem levD_nil_right : ∀ xs : List Nat, levD xs [] = xs.length := by
  intro xs
  cases xs <;> simp [levD]

theorem levD_le_hamming : ∀ (xs ys : List Nat), xs.length = ys.length →
    levD xs ys ≤ listHamming xs ys := by
  intro xs
  induction xs with
  | nil =>
    intro ys h
    have : ys = [] := List.length_eq_zero.mp h.symm
    subst this
    simp [levD, listHamming]
  | cons x xt ih =>
    intro ys h
    cases ys with
    | nil => simp at h
    | cons y yt =>
      have hlen : xt.length = yt.length := by simpa using h
      have := ih yt hlen
      simp only [levD, listHamming, List.zipWith_cons_cons, List.sum_cons]
      simp only [listHamming] at this
      omega

theorem levD_del_left : ∀ (n : Nat) (xs ys : List Nat) (i : Nat),
    xs.length + ys.length ≤ n → i < xs.length →
    levD xs ys ≤ 1 + levD (xs.eraseIdx i) ys := by
  intro n
  induction n with
  | zero =>
    intro xs ys i hn hi
    cases xs <;> simp at hn hi
  | succ n ih =>
    intro xs ys i hn hi
    cases xs with
    | nil => simp at hi
    | cons x xt =>
      cases i with
      | zero =>
        simp only [List.eraseIdx_cons_zero]
        cases ys with
        | nil => rw [levD_nil_right, levD_nil_right]; simp; omega
        | cons y yt =>
          calc levD (x :: xt) (y :: yt) ≤ 1 + levD xt (y :: yt) := by
                simp only [levD]
                omega
            _ = 1 + levD xt (y :: yt) := rfl
      | succ i =>
        simp only [List.eraseIdx_cons_succ]
        cases ys with
        | nil =>
          rw [levD_nil_right, levD_nil_right]
          have : i < xt.length := by simpa using hi
          simp only [List.length_cons, List.length_eraseIdx_of_lt this]
          omega
        | cons y yt =>
          have hi' : i < xt.length := by simpa using hi
          have ha := ih xt yt i (by simp at hn; omega) hi'
          have hb := ih (x :: xt) yt (i + 1) (by simp at hn ⊢; omega) (by simpa using hi)
          have hc := ih xt (y :: yt) i (by simp at hn ⊢; omega) hi'
          simp only [List.eraseIdx_cons_succ] at hb
          simp only [levD]
          omega

theorem levD_comm : ∀ (n : Nat) (xs ys : List Nat), xs.length + ys.length ≤ n →
    levD xs ys = levD ys xs := by
  intro n
  induction n with
  | zero =>
    intro xs ys hn
    cases xs <;> cases ys <;> simp_all [levD]
  | succ n ih =>
    intro xs ys hn
    cases xs with
    | nil => simp [levD, levD_nil_right]
    | cons x xt =>
      cases ys with
      | nil => simp [levD, levD_nil_right]
      | cons y yt =>
        have h1 := ih xt yt (by simp at hn; omega)
        have h2 := ih (x :: xt) yt (by simp at hn ⊢; omega)
        have h3 := ih xt (y :: yt) (by simp at hn ⊢; omega)
        have hxy : (if x = y then (0:Nat) else 1) = if y = x then 0 else 1 := by
          by_cases h : x = y
          · rw [if_pos h, if_pos h.symm]
          · rw [if_neg h, if_neg (fun hyx => h hyx.symm)]
        simp only [levD]
        omega

theorem levD_del_right (xs ys : List Nat) (j : Nat) (hj : j < ys.length) :
    levD xs ys ≤ 1 + levD xs (ys.eraseIdx j) := by
  rw [levD_comm (xs.length + ys.length) xs ys (le_refl _),
    levD_comm (xs.length + (ys.eraseIdx j).length) xs (ys.eraseIdx j) (le_refl _)]
  exact levD_del_left (ys.length + xs.length) ys xs j (le_refl _) hj

theorem mem_hposting {D : List Word} {s id' : Nat} :
    id' ∈ hposting D s ↔ id' < D.length ∧ ∃ p, p < 10 ∧ hslot (D.getD id' []) p = s := by
  unfold hposting
  rw [List.mem_flatMap]
  constructor
  · rintro ⟨id, hid, hmem⟩
    rw [List.mem_filterMap] at hmem
    obtain ⟨p, hp, hsome⟩ := hmem
    by_cases hc : hslot (D.getD id []) p = s
    · rw [if_pos hc] at hsome
      have : id = id' := by injection hsome
      subst this
      exact ⟨List.mem_range.mp hid, p, List.mem_range.mp hp, hc⟩
    · rw [if_neg hc] at hsome
      exact absurd hsome (by simp)
  · rintro ⟨hid, p, hp, hs⟩
    exact ⟨id', List.mem_range.mpr hid,
      List.mem_filterMap.mpr ⟨p, List.mem_range.mpr hp, by rw [if_pos hs]⟩⟩

theorem mem_dposting {D : List Word} {s v : Nat} (h : v ∈ dposting D s) :
    ∃ id pos, id < D.length ∧ pos < 15 ∧ v = packIdPos id pos ∧
      (dslotL (D.getD id []) pos = s ∨ dslotR (D.getD id []) pos = s) := by
  unfold dposting at h
  rw [List.mem_flatMap] at h
  obtain ⟨id, hid, h⟩ := h
  rw [List.mem_flatMap] at h
  obtain ⟨pos, hpos, h⟩ := h
  rw [List.mem_append] at h
  refine ⟨id, pos, List.mem_range.mp hid, List.mem_range.mp hpos, ?_⟩
  rcases h with h | h
  · by_cases hc : dslotL (D.getD id []) pos = s
    · rw [if_pos hc] at h
      simp only [List.mem_singleton] at h
      exact ⟨h, Or.inl hc⟩
    · rw [if_neg hc] at h
      simp at h
  · by_cases hc : dslotR (D.getD id []) pos = s
    · rw [if_pos hc] at h
      simp only [List.mem_singleton] at h
      exact ⟨h, Or.inr hc⟩
    · rw [if_neg hc] at h
      simp at h

theorem packIdPos_arith (id pos : Nat) (hid : id < 2 ^ 20) :
    packIdPos id pos = id + pos * 2 ^ 20 := by
  unfold packIdPos
  rw [show (0xFFFFF : Nat) = 2 ^ 20 - 1 by norm_num, Nat.and_pow_two_sub_one_eq_mod,
    Nat.mod_eq_of_lt hid, Nat.shiftLeft_eq, Nat.mul_comm pos, Nat.or_comm,
    ← Nat.mul_add_lt_is_or hid pos]
  ring

theorem packIdPos_extract (id pos : Nat) (hid : id < 2 ^ 20) (hpos : pos < 16) :
    packIdPos id pos &&& 0xFFFFF = id ∧ (packIdPos id pos >>> 20) &&& 0xF = pos := by
  rw [packIdPos_arith id pos hid]
  constructor
  · rw [show (0xFFFFF : Nat) = 2 ^ 20 - 1 by norm_num, Nat.and_pow_two_sub_one_eq_mod,
      Nat.add_mul_mod_self_right, Nat.mod_eq_of_lt hid]
  · rw [Nat.shiftRight_eq_div_pow, Nat.add_mul_div_right _ _ (by norm_num : (0:Nat) < 2 ^ 20),
      Nat.div_eq_of_lt hid, Nat.zero_add, show (0xF : Nat) = 2 ^ 4 - 1 by norm_num,
      Nat.and_pow_two_sub_one_eq_mod, Nat.mod_eq_of_lt (by omega)]

theorem scanA_true_exists (D : List Word) (qcode k g : Nat) :
    ∀ (ids : List Nat) (buf : Nat → Nat), (scanA D qcode k g ids buf).1 = true →
      ∃ id ∈ ids, hamming_packed15 qcode (codeOf D id) ≤ k := by
  intro ids
  induction ids with
  | nil => intro buf h; simp [scanA] at h
  | cons id rest ih =>
    intro buf h
    unfold scanA at h
    by_cases hv : buf id = g
    · rw [if_pos hv] at h
      obtain ⟨id', hmem, htest⟩ := ih buf h
      exact ⟨id', List.mem_cons_of_mem _ hmem, htest⟩
    · rw [if_neg hv] at h
      by_cases ht : hamming_packed15 qcode (codeOf D id) ≤ k
      · exact ⟨id, List.mem_cons_self .., ht⟩
      · rw [if_neg ht] at h
        obtain ⟨id', hmem, htest⟩ := ih _ h
        exact ⟨id', List.mem_cons_of_mem _ hmem, htest⟩

theorem scanB_true_exists (D : List Word) (qcode k g : Nat) :
    ∀ (cands : List (Nat × Nat)) (buf : Nat → Nat), (scanB D qcode k g cands buf).1 = true →
      ∃ c ∈ cands, 2 + hamming_packed14 (casefilter_pack_delete qcode c.1)
        (casefilter_pack_delete (codeOf D (c.2 &&& 0xFFFFF)) ((c.2 >>> 20) &&& 0xF)) ≤ k := by
  intro cands
  induction cands with
  | nil => intro buf h; simp [scanB] at h
  | cons c rest ih =>
    obtain ⟨pos, v⟩ := c
    intro buf h
    unfold scanB at h
    by_cases hv : buf (v &&& 0xFFFFF) = g
    · rw [if_pos hv] at h
      obtain ⟨c', hmem, htest⟩ := ih buf h
      exact ⟨c', List.mem_cons_of_mem _ hmem, htest⟩
    · rw [if_neg hv] at h
      by_cases ht : 2 + hamming_packed14 (casefilter_pack_delete qcode pos)
          (casefilter_pack_delete (codeOf D (v &&& 0xFFFFF)) ((v >>> 20) &&& 0xF)) ≤ k
      · exact ⟨(pos, v), List.mem_cons_self .., ht⟩
      · rw [if_neg ht] at h
        obtain ⟨c', hmem, htest⟩ := ih _ h
        exact ⟨c', List.mem_cons_of_mem _ hmem, htest⟩

theorem search_true_cases (D : List Word) (q : Word) (k : Nat) (st : SearchState)
    (h : (casefilter_search D q k st).1 = true) :
    (∃ g buf, (scanA D (pack_keyword q) k g (phaseAIds D q) buf).1 = true) ∨
      (∃ g buf, (scanB D (pack_keyword q) k g (phaseBCands D q) buf).1 = true) := by
  unfold casefilter_search at h
  by_cases hlen : q.length ≠ 15
  · rw [if_pos hlen] at h
    simp at h
  · rw [if_neg hlen] at h
    dsimp only at h
    by_cases hA : (scanA D (pack_keyword q) k
        (if (((if D.length > st.cap then (⟨fun _ => 0, D.length, 1⟩ : SearchState) else st).gen + 1) % 2 ^ 32) = 0 then 1
          else (((if D.length > st.cap then (⟨fun _ => 0, D.length, 1⟩ : SearchState) else st).gen + 1) % 2 ^ 32))
        (phaseAIds D q)
        (if (((if D.length > st.cap then (⟨fun _ => 0, D.length, 1⟩ : SearchState) else st).gen + 1) % 2 ^ 32) = 0 then (fun _ => 0)
          else (if D.length > st.cap then (⟨fun _ => 0, D.length, 1⟩ : SearchState) else st).buf)).1 = true
    · exact Or.inl ⟨_, _, hA⟩
    · rw [if_neg hA] at h
      exact Or.inr ⟨_, _, h⟩

/-- **C2** (soundness of search): whatever the prior searcher state, if
`casefilter_search idx q 3` returns 1 on a finalized index of at most
2^20 valid words, some dictionary word is within Levenshtein distance 3
of the query (a Phase A hit gives Hamming ≤ 3; a Phase B hit gives one
deletion, one insertion and at most one substitution). -/
theorem C2_soundness (D : List Word) (hD : ∀ w ∈ D, validWord w) (hN : D.length ≤ 2 ^ 20)
    (q : Word) (hq : validWord q) (st : SearchState)
    (h : (casefilter_search D q 3 st).1 = true) :
    ∃ w ∈ D, levD q w ≤ 3 := by
  obtain ⟨hql, hqv⟩ := hq
  rcases search_true_cases D q 3 st h with ⟨g, buf, hA⟩ | ⟨g, buf, hB⟩
  · obtain ⟨id, hmem, htest⟩ := scanA_true_exists D (pack_keyword q) 3 g _ buf hA
    unfold phaseAIds at hmem
    rw [List.mem_flatMap] at hmem
    obtain ⟨p, _, hpost⟩ := hmem
    have hid : id < D.length := (mem_hposting.mp hpost).1
    have hw : D.getD id [] ∈ D := getD_mem_of_lt D id hid
    have hwv := hD _ hw
    refine ⟨D.getD id [], hw, ?_⟩
    unfold codeOf at htest
    rw [hamming_packed15_eq_listHamming q (D.getD id []) ⟨hql, hqv⟩ hwv] at htest
    calc levD q (D.getD id []) ≤ listHamming q (D.getD id []) :=
          levD_le_hamming q _ (by rw [hql, hwv.1])
      _ ≤ 3 := htest
  · obtain ⟨⟨pos, v⟩, hmem, htest⟩ := scanB_true_exists D (pack_keyword q) 3 g _ buf hB
    unfold phaseBCands at hmem
    rw [List.mem_flatMap] at hmem
    obtain ⟨pos', hpos', hmem⟩ := hmem
    have hpos15 : pos' < 15 := List.mem_range.mp hpos'
    rw [List.mem_append] at hmem
    have hvd : pos' = pos ∧ (v ∈ dposting D (dslotL q pos') ∨ v ∈ dposting D (dslotR q pos')) := by
      rcases hmem with hm | hm
      · obtain ⟨v0, hv0, heq⟩ := List.mem_map.mp hm
        simp only [Prod.mk.injEq] at heq
        exact ⟨heq.1, Or.inl (heq.2 ▸ hv0)⟩
      · obtain ⟨v0, hv0, heq⟩ := List.mem_map.mp hm
        simp only [Prod.mk.injEq] at heq
        exact ⟨heq.1, Or.inr (heq.2 ▸ hv0)⟩
    obtain ⟨rfl, hvd⟩ := hvd
    have hvp : ∃ id pw, id < D.length ∧ pw < 15 ∧ v = packIdPos id pw := by
      rcases hvd with h' | h'
      · obtain ⟨id, pw, h1, h2, h3, _⟩ := mem_dposting h'
        exact ⟨id, pw, h1, h2, h3⟩
      · obtain ⟨id, pw, h1, h2, h3, _⟩ := mem_dposting h'
        exact ⟨id, pw, h1, h2, h3⟩
    obtain ⟨id, pw, hid, hpw, rfl⟩ := hvp
    have hext := packIdPos_extract id pw (by omega) (by omega)
    rw [hext.1, hext.2] at htest
    have hw : D.getD id [] ∈ D := getD_mem_of_lt D id hid
    have hwv := hD _ hw
    refine ⟨D.getD id [], hw, ?_⟩
    have e1 : casefilter_pack_delete (pack_keyword q) pos' =
        Nat.ofDigits 16 (wordDigits (q.eraseIdx pos')) :=
      pack_delete_code14 q ⟨hql, hqv⟩ pos' hpos15
    have e2 : casefilter_pack_delete (codeOf D id) pw =
        Nat.ofDigits 16 (wordDigits ((D.getD id []).eraseIdx pw)) := by
      unfold codeOf
      exact pack_delete_code14 (D.getD id []) hwv pw hpw
    rw [e1, e2] at htest
    rw [hamming_packed14_eq_listHamming (q.eraseIdx pos') ((D.getD id []).eraseIdx pw)
      (length_eraseIdx_14 q hql pos' hpos15) (length_eraseIdx_14 _ hwv.1 pw hpw)
      (eraseIdx_valid q hqv pos') (eraseIdx_valid _ hwv.2 pw)] at htest
    have d1 : levD q (D.getD id []) ≤ 1 + levD (q.eraseIdx pos') (D.getD id []) :=
      levD_del_left (q.length + (D.getD id []).length) q (D.getD id []) pos'
        (le_refl _) (by omega)
    have d2 : levD (q.eraseIdx pos') (D.getD id []) ≤
        1 + levD (q.eraseIdx pos') ((D.getD id []).eraseIdx pw) :=
      levD_del_right _ _ pw (by rw [hwv.1]; omega)
    have d3 : levD (q.eraseIdx pos') ((D.getD id []).eraseIdx pw) ≤
        listHamming (q.eraseIdx pos') ((D.getD id []).eraseIdx pw) :=
      levD_le_hamming _ _ (by
        rw [length_eraseIdx_14 q hql pos' hpos15, length_eraseIdx_14 _ hwv.1 pw hpw])
    omega

set_option maxRecDepth 200000 in
theorem C2_soundness_witness :
    (∀ w ∈ [wex], validWord w) ∧ [wex].length ≤ 2 ^ 20 ∧ validWord wex ∧
      (casefilter_search [wex] wex 3 initState).1 = true ∧
      ∃ w ∈ [wex], levD wex w ≤ 3 :=
  ⟨by decide, by decide, by decide, by decide,
    C2_soundness [wex] (by decide) (by decide) wex (by decide) initState (by decide)⟩

/-! ## Claim C1: Phase A completeness -/

theorem mem_swap_set {l : List Nat} {i j : Nat} (hi : i < l.length) (hj : j < l.length)
    (hij : i ≠ j) (x : Nat) :
    (x ∈ (l.set i (l.getD j 0)).set j (l.getD i 0)) ↔ x ∈ l := by
  have hgi : l.getD i 0 = l[i] := List.getD_eq_getElem l 0 hi
  have hgj : l.getD j 0 = l[j] := List.getD_eq_getElem l 0 hj
  constructor
  · intro hx
    obtain ⟨k, hk, hkx⟩ := List.mem_iff_getElem.mp hx
    rw [List.length_set, List.length_set] at hk
    rw [List.getElem_set, List.getElem_set] at hkx
    by_cases hkj : j = k
    · rw [if_pos hkj, hgi] at hkx
      exact hkx ▸ List.getElem_mem hi
    · rw [if_neg hkj] at hkx
      by_cases hki : i = k
      · rw [if_pos hki, hgj] at hkx
        exact hkx ▸ List.getElem_mem hj
      · rw [if_neg hki] at hkx
        exact hkx ▸ List.getElem_mem hk
  · intro hx
    obtain ⟨k, hk, hkx⟩ := List.mem_iff_getElem.mp hx
    rw [List.mem_iff_getElem]
    by_cases hki : k = i
    · subst hki
      refine ⟨j, by rw [List.length_set, List.length_set]; omega, ?_⟩
      rw [List.getElem_set, if_pos rfl, hgi]
      exact hkx
    · by_cases hkj : k = j
      · subst hkj
        refine ⟨i, by rw [List.length_set, List.length_set]; omega, ?_⟩
        rw [List.getElem_set, if_neg (fun h => hij h.symm), List.getElem_set, if_pos rfl, hgj]
        exact hkx
      · refine ⟨k, by rw [List.length_set, List.length_set]; omega, ?_⟩
        rw [List.getElem_set, if_neg (fun h => hkj h.symm),
          List.getElem_set, if_neg (fun h => hki h.symm)]
        exact hkx

theorem mem_drop_range {n m j : Nat} (h : j ∈ (List.range n).drop m) : m ≤ j ∧ j < n := by
  obtain ⟨k, hk, hkx⟩ := List.mem_iff_getElem.mp h
  rw [List.getElem_drop] at hkx
  rw [List.length_drop, List.length_range] at hk
  rw [List.getElem_range] at hkx
  omega

/-- The inner selection-sort pass preserves length and membership. -/
theorem selInner_fold_facts (len : Nat → Nat) (i : Nat) :
    ∀ (jl : List Nat) (ord : List Nat), ord.length = 10 → (∀ j ∈ jl, i < j ∧ j < 10) →
      i < 10 →
      (jl.foldl (fun o j =>
        if len (o.getD j 0) < len (o.getD i 0) then
          (o.set i (o.getD j 0)).set j (o.getD i 0)
        else o) ord).length = 10 ∧
      (∀ x, x ∈ jl.foldl (fun o j =>
        if len (o.getD j 0) < len (o.getD i 0) then
          (o.set i (o.getD j 0)).set j (o.getD i 0)
        else o) ord ↔ x ∈ ord) := by
  intro jl
  induction jl with
  | nil => intro ord hlen _ _; exact ⟨hlen, fun x => Iff.rfl⟩
  | cons j rest ih =>
    intro ord hlen hjl hi
    have hj := hjl j (List.mem_cons_self ..)
    simp only [List.foldl_cons]
    by_cases hsw : len (ord.getD j 0) < len (ord.getD i 0)
    · rw [if_pos hsw]
      have hlen' : ((ord.set i (ord.getD j 0)).set j (ord.getD i 0)).length = 10 := by
        rw [List.length_set, List.length_set, hlen]
      obtain ⟨hL, hM⟩ := ih _ hlen' (fun u hu => hjl u (List.mem_cons_of_mem _ hu)) hi
      refine ⟨hL, fun x => ?_⟩
      rw [hM x, mem_swap_set (by omega) (by omega) (by omega) x]
    · rw [if_neg hsw]
      exact ih ord hlen (fun u hu => hjl u (List.mem_cons_of_mem _ hu)) hi

theorem selInner_facts (len : Nat → Nat) (ord : List Nat) (i : Nat) (hlen : ord.length = 10)
    (hi : i < 10) :
    (selInner len ord i).length = 10 ∧ (∀ x, x ∈ selInner len ord i ↔ x ∈ ord) := by
  unfold selInner
  exact selInner_fold_facts len i _ ord hlen (fun j hj => mem_drop_range hj |>.imp (by omega) id) hi

theorem selSort_facts (len : Nat → Nat) :
    (selSort len).length = 10 ∧ ∀ x, x ∈ selSort len ↔ x ∈ List.range 10 := by
  unfold selSort
  have main : ∀ (il : List Nat) (ord : List Nat), ord.length = 10 → (∀ i ∈ il, i < 10) →
      (il.foldl (selInner len) ord).length = 10 ∧
        (∀ x, x ∈ il.foldl (selInner len) ord ↔ x ∈ ord) := by
    intro il
    induction il with
    | nil => intro ord hlen _; exact ⟨hlen, fun _ => Iff.rfl⟩
    | cons i rest ih =>
      intro ord hlen hil
      have hi := hil i (List.mem_cons_self ..)
      simp only [List.foldl_cons]
      obtain ⟨hL, hM⟩ := selInner_facts len ord i hlen hi
      obtain ⟨hL', hM'⟩ := ih (selInner len ord i) hL (fun u hu => hil u (List.mem_cons_of_mem _ hu))
      exact ⟨hL', fun x => (hM' x).trans (hM x)⟩
  exact main (List.range 10) (List.range 10) (by simp) (fun i hi => List.mem_range.mp hi)

theorem mem_probeOrder (D : List Word) (q : Word) (p : Nat) (hp : p < 10) :
    p ∈ probeOrder D q := by
  unfold probeOrder
  rw [(selSort_facts (probeLen D q)).2 p]
  exact List.mem_range.mpr hp

/-- Phase A never misses: if the buffer holds the invariant that every
already-marked id fails the Hamming test and some listed candidate
passes it, the scan returns 1. -/
theorem scanA_complete (D : List Word) (qcode k g : Nat) :
    ∀ (ids : List Nat) (buf : Nat → Nat),
      (∀ j, buf j = g → ¬ hamming_packed15 qcode (codeOf D j) ≤ k) →
      (∃ id ∈ ids, hamming_packed15 qcode (codeOf D id) ≤ k) →
      (scanA D qcode k g ids buf).1 = true := by
  intro ids
  induction ids with
  | nil => intro buf _ hex; simp at hex
  | cons id rest ih =>
    intro buf hinv hex
    unfold scanA
    by_cases hv : buf id = g
    · rw [if_pos hv]
      obtain ⟨id', hmem, htest⟩ := hex
      rcases List.mem_cons.mp hmem with rfl | hmem'
      · exact absurd htest (hinv id' hv)
      · exact ih buf hinv ⟨id', hmem', htest⟩
    · rw [if_neg hv]
      by_cases ht : hamming_packed15 qcode (codeOf D id) ≤ k
      · rw [if_pos ht]
      · rw [if_neg ht]
        obtain ⟨id', hmem, htest⟩ := hex
        rcases List.mem_cons.mp hmem with rfl | hmem'
        · exact absurd htest ht
        · refine ih _ ?_ ⟨id', hmem', htest⟩
          intro j hj
          have hj' : (if j = id then g else buf j) = g := hj
          by_cases hji : j = id
          · subst hji; exact ht
          · rw [if_neg hji] at hj'
            exact hinv j hj'

/-- Reducing `casefilter_search` from the initial state on a nonempty
dictionary: the Phase A scan runs with generation 2 on a zero buffer. -/
theorem search_init_phaseA (D : List Word) (q : Word) (k : Nat) (hql : q.length = 15)
    (hN : 0 < D.length)
    (hA : (scanA D (pack_keyword q) k 2 (phaseAIds D q) (fun _ => 0)).1 = true) :
    (casefilter_search D q k initState).1 = true := by
  unfold casefilter_search
  rw [if_neg (by simp [hql])]
  dsimp only [initState]
  rw [if_pos (show D.length > 0 from hN)]
  have h2 : ((1 : Nat) + 1) % 2 ^ 32 = 2 := by norm_num
  dsimp only
  rw [h2]
  norm_num
  rw [hA]
  simp

theorem pairKey_eq_blocks (w : Word) (p : Nat) :
    pairKey w p = blockOf w (pair_i.getD p 0) ++ blockOf w (pair_j.getD p 0) := rfl

theorem listHamming_take_drop (k : Nat) (a b : List Nat) :
    listHamming a b =
      listHamming (a.take k) (b.take k) + listHamming (a.drop k) (b.drop k) := by
  unfold listHamming
  rw [← List.zipWith_distrib_take, ← List.zipWith_distrib_drop, List.sum_take_add_sum_drop]

theorem listHamming_blocks : ∀ (n : Nat) (a b : List Nat),
    listHamming a b =
      (∑ i in Finset.range n, listHamming (blockOf a i) (blockOf b i)) +
        listHamming (a.drop (3 * n)) (b.drop (3 * n)) := by
  intro n
  induction n with
  | zero => intro a b; simp
  | succ n ih =>
    intro a b
    rw [ih a b, Finset.sum_range_succ,
      listHamming_take_drop 3 (a.drop (3 * n)) (b.drop (3 * n))]
    unfold blockOf
    rw [List.drop_drop, List.drop_drop, show 3 * (n + 1) = 3 * n + 3 by ring]
    omega

theorem listHamming_zero_eq : ∀ (a b : List Nat), a.length = b.length →
    listHamming a b = 0 → a = b := by
  intro a
  induction a with
  | nil =>
    intro b hl _
    exact (List.length_eq_zero.mp hl.symm).symm
  | cons x xt ih =>
    intro b hl h0
    cases b with
    | nil => simp at hl
    | cons y yt =>
      simp only [listHamming, List.zipWith_cons_cons, List.sum_cons] at h0
      have hxy : x = y := by
        by_cases h : x = y
        · exact h
        · rw [if_neg h] at h0; omega
      have ht : listHamming xt yt = 0 := by
        rw [if_pos hxy] at h0
        simpa [listHamming] using h0
      rw [hxy, ih yt (by simpa using hl) ht]

theorem blockOf_length (u : List Nat) (hu : u.length = 15) (b : Nat) (hb : b < 5) :
    (blockOf u b).length = 3 := by
  unfold blockOf
  rw [List.length_take, List.length_drop, hu]
  omega

theorem diffBlocks_le_hamming (q w : Word) (hq : q.length = 15) (hw : w.length = 15) :
    ((Finset.range 5).filter fun b => ¬ blockOf q b = blockOf w b).card ≤ listHamming q w := by
  rw [Finset.card_filter]
  have hdec := listHamming_blocks 5 q w
  have hdrop : q.drop (3 * 5) = [] := List.drop_eq_nil_of_le (by omega)
  rw [hdrop] at hdec
  simp only [listHamming, List.zipWith_nil_left, List.sum_nil, Nat.add_zero] at hdec
  rw [show listHamming q w = ∑ i in Finset.range 5,
    listHamming (blockOf q i) (blockOf w i) from hdec]
  refine Finset.sum_le_sum ?_
  intro b hb
  by_cases hbe : blockOf q b = blockOf w b
  · simp [hbe]
  · rw [if_pos hbe]
    by_contra hlt
    have h0 : listHamming (blockOf q b) (blockOf w b) = 0 := by omega
    exact hbe (listHamming_zero_eq _ _ (by
      rw [blockOf_length q hq b (Finset.mem_range.mp hb),
        blockOf_length w hw b (Finset.mem_range.mp hb)]) h0)

theorem pair_table_complete : ∀ b : Nat, b < 5 → ∀ a : Nat, a < b →
    ∃ p, p < 10 ∧ pair_i.getD p 0 = a ∧ pair_j.getD p 0 = b := by
  decide

/-- Pigeonhole: a query within Hamming distance 3 of a word agrees with
it on at least two of the five blocks, hence on some whole pair key. -/
theorem pigeonhole_pair (q w : Word) (hq : q.length = 15) (hw : w.length = 15)
    (hham : listHamming q w ≤ 3) : ∃ p, p < 10 ∧ pairKey q p = pairKey w p := by
  have hsplit := Finset.filter_card_add_filter_neg_card_eq_card
    (s := Finset.range 5) (p := fun b => blockOf q b = blockOf w b)
  have hdiff := diffBlocks_le_hamming q w hq hw
  have hcard : 1 < ((Finset.range 5).filter fun b => blockOf q b = blockOf w b).card := by
    rw [Finset.card_range] at hsplit
    omega
  obtain ⟨a, ha, b, hb, hab⟩ := Finset.one_lt_card.mp hcard
  rw [Finset.mem_filter, Finset.mem_range] at ha hb
  rcases Nat.lt_or_ge a b with hlt | hge
  · obtain ⟨p, hp, hpi, hpj⟩ := pair_table_complete b hb.1 a hlt
    exact ⟨p, hp, by rw [pairKey_eq_blocks, pairKey_eq_blocks, hpi, hpj, ha.2, hb.2]⟩
  · have hlt : b < a := by omega
    obtain ⟨p, hp, hpi, hpj⟩ := pair_table_complete a ha.1 b hlt
    exact ⟨p, hp, by rw [pairKey_eq_blocks, pairKey_eq_blocks, hpi, hpj, ha.2, hb.2]⟩

/-- **C1** (Phase A completeness): on a finalized index of valid words,
any query within character-wise Hamming distance 3 of some dictionary
word is reported found — the pigeonhole argument guarantees a shared
pair slot and the visited-set marking never suppresses the first
evaluation of a candidate. -/
theorem C1_phaseA_completeness (D : List Word) (hD : ∀ w ∈ D, validWord w)
    (q : Word) (hq : validWord q) (hex : ∃ w ∈ D, listHamming q w ≤ 3) :
    (casefilter_search D q 3 initState).1 = true := by
  obtain ⟨hql, hqv⟩ := hq
  obtain ⟨w, hwD, hham⟩ := hex
  obtain ⟨id, hid, hidw⟩ := List.mem_iff_getElem.mp hwD
  have hgetD : D.getD id [] = w := by rw [List.getD_eq_getElem D [] hid, hidw]
  have hwv : validWord w := hD w hwD
  obtain ⟨p, hp, hkey⟩ := pigeonhole_pair q w hql hwv.1 hham
  apply search_init_phaseA D q 3 hql (by omega)
  apply scanA_complete
  · intro j hj
    simp at hj
  · refine ⟨id, ?_, ?_⟩
    · unfold phaseAIds
      rw [List.mem_flatMap]
      refine ⟨p, mem_probeOrder D q p hp, ?_⟩
      rw [mem_hposting]
      refine ⟨hid, p, hp, ?_⟩
      rw [hgetD]
      unfold hslot
      rw [hkey]
    · unfold codeOf
      rw [hgetD, hamming_packed15_eq_listHamming q w ⟨hql, hqv⟩ hwv]
      exact hham

theorem C1_phaseA_completeness_witness :
    (∀ w ∈ [wex], validWord w) ∧ validWord wex2 ∧
      (∃ w ∈ [wex], listHamming wex2 w ≤ 3) ∧
      (casefilter_search [wex] wex2 3 initState).1 = true :=
  ⟨by decide, by decide, by decide,
    C1_phaseA_completeness [wex] (by decide) wex2 (by decide) (by decide)⟩

theorem selInner_eq_fold (len : Nat → Nat) (ord : List Nat) (i : Nat) :
    selInner len ord i = ((List.range 10).drop (i + 1)).foldl (swapStep len i) ord := rfl

theorem getD_set_ne (l : List Nat) (a k v : Nat) (h : a ≠ k) :
    (l.set a v).getD k 0 = l.getD k 0 := by
  rw [List.getD_eq_getElem?_getD, List.getD_eq_getElem?_getD, List.getElem?_set_ne h]

theorem getD_set_self (l : List Nat) (a v : Nat) (h : a < l.length) :
    (l.set a v).getD a 0 = v := by
  rw [List.getD_eq_getElem?_getD, List.getElem?_set_self h]
  rfl

theorem swapStep_getD_other (len : Nat → Nat) (i : Nat) (o : List Nat) (j k : Nat)
    (hki : k ≠ i) (hkj : k ≠ j) : (swapStep len i o j).getD k 0 = o.getD k 0 := by
  unfold swapStep
  split
  · rw [getD_set_ne _ _ _ _ (fun h => hkj h.symm), getD_set_ne _ _ _ _ (fun h => hki h.symm)]
  · rfl

theorem swapStep_length (len : Nat → Nat) (i : Nat) (o : List Nat) (j : Nat) :
    (swapStep len i o j).length = o.length := by
  unfold swapStep
  split <;> simp [List.length_set]

theorem fold_swapStep_length (len : Nat → Nat) (i : Nat) :
    ∀ (jl : List Nat) (o : List Nat), (jl.foldl (swapStep len i) o).length = o.length := by
  intro jl
  induction jl with
  | nil => intro o; rfl
  | cons j rest ih =>
    intro o
    simp only [List.foldl_cons]
    rw [ih, swapStep_length]

theorem fold_swapStep_untouched (len : Nat → Nat) (i : Nat) :
    ∀ (jl : List Nat) (o : List Nat) (k : Nat), k ≠ i → (∀ j ∈ jl, j ≠ k) →
      (jl.foldl (swapStep len i) o).getD k 0 = o.getD k 0 := by
  intro jl
  induction jl with
  | nil => intro o k _ _; rfl
  | cons j rest ih =>
    intro o k hki hjl
    simp only [List.foldl_cons]
    rw [ih _ k hki (fun u hu => hjl u (List.mem_cons_of_mem _ hu)),
      swapStep_getD_other len i o j k hki (fun h => hjl j (List.mem_cons_self ..) h.symm)]

theorem swapStep_getD_i (len : Nat → Nat) (i : Nat) (o : List Nat) (j : Nat)
    (hij : i ≠ j) (hi : i < o.length) :
    len ((swapStep len i o j).getD i 0) ≤ len (o.getD i 0) := by
  unfold swapStep
  split
  · rw [getD_set_ne _ _ _ _ (Ne.symm hij), getD_set_self _ _ _ hi]
    omega
  · exact le_refl _

theorem fold_swapStep_mono_i (len : Nat → Nat) (i : Nat) :
    ∀ (jl : List Nat) (o : List Nat), i < o.length → (∀ j ∈ jl, i ≠ j) →
      len ((jl.foldl (swapStep len i) o).getD i 0) ≤ len (o.getD i 0) := by
  intro jl
  induction jl with
  | nil => intro o _ _; exact le_refl _
  | cons j rest ih =>
    intro o hi hjl
    simp only [List.foldl_cons]
    calc len ((rest.foldl (swapStep len i) (swapStep len i o j)).getD i 0)
        ≤ len ((swapStep len i o j).getD i 0) :=
          ih _ (by rw [swapStep_length]; exact hi)
            (fun u hu => hjl u (List.mem_cons_of_mem _ hu))
      _ ≤ len (o.getD i 0) := swapStep_getD_i len i o j (hjl j (List.mem_cons_self ..)) hi

theorem fold_swapStep_from_suffix (len : Nat → Nat) (i : Nat) :
    ∀ (jl : List Nat) (o : List Nat), i < 10 → o.length = 10 →
      (∀ j ∈ jl, i < j ∧ j < 10) → ∀ k, i ≤ k → k < 10 →
      ∃ k', i ≤ k' ∧ k' < 10 ∧ (jl.foldl (swapStep len i) o).getD k 0 = o.getD k' 0 := by
  intro jl
  induction jl with
  | nil => intro o _ _ _ k hk1 hk2; exact ⟨k, hk1, hk2, rfl⟩
  | cons j rest ih =>
    intro o hi hlen hjl k hk1 hk2
    have hj := hjl j (List.mem_cons_self ..)
    simp only [List.foldl_cons]
    obtain ⟨k', hk'1, hk'2, hk'⟩ := ih (swapStep len i o j) hi
      (by rw [swapStep_length]; exact hlen)
      (fun u hu => hjl u (List.mem_cons_of_mem _ hu)) k hk1 hk2
    rw [hk']
    unfold swapStep
    split
    · by_cases hkj : k' = j
      · subst hkj
        rw [getD_set_self _ _ _ (by rw [List.length_set, hlen]; omega)]
        exact ⟨i, le_refl _, hi, rfl⟩
      · by_cases hkI : k' = i
        · subst hkI
          rw [getD_set_ne _ _ _ _ (fun h => hkj h.symm),
            getD_set_self _ _ _ (by rw [hlen]; omega)]
          exact ⟨j, by omega, hj.2, rfl⟩
        · rw [getD_set_ne _ _ _ _ (fun h => hkj h.symm),
            getD_set_ne _ _ _ _ (fun h => hkI h.symm)]
          exact ⟨k', hk'1, hk'2, rfl⟩
    · exact ⟨k', hk'1, hk'2, rfl⟩

theorem fold_swapStep_i_min (len : Nat → Nat) (i : Nat) :
    ∀ (jl : List Nat) (o : List Nat), i < 10 → o.length = 10 → jl.Nodup →
      (∀ j ∈ jl, i < j ∧ j < 10) → ∀ j ∈ jl,
      len ((jl.foldl (swapStep len i) o).getD i 0) ≤
        len ((jl.foldl (swapStep len i) o).getD j 0) := by
  intro jl
  induction jl with
  | nil => intro o _ _ _ _ j hj; simp at hj
  | cons j rest ih =>
    intro o hi hlen hnd hjl j' hj'
    have hj := hjl j (List.mem_cons_self ..)
    have hnotin : j ∉ rest := (List.nodup_cons.mp hnd).1
    simp only [List.foldl_cons]
    rcases List.mem_cons.mp hj' with rfl | hj'r
    · -- the element just processed: its位置 stays fixed for the rest of the pass
      have huntouched : (rest.foldl (swapStep len i) (swapStep len i o j')).getD j' 0 =
          (swapStep len i o j').getD j' 0 :=
        fold_swapStep_untouched len i rest _ j' (by omega)
          (fun u hu => fun h => hnotin (h ▸ hu))
      have hmono : len ((rest.foldl (swapStep len i) (swapStep len i o j')).getD i 0) ≤
          len ((swapStep len i o j').getD i 0) :=
        fold_swapStep_mono_i len i rest _ (by rw [swapStep_length, hlen]; omega)
          (fun u hu => by have := hjl u (List.mem_cons_of_mem _ hu); omega)
      have hstep : len ((swapStep len i o j').getD i 0) ≤
          len ((swapStep len i o j').getD j' 0) := by
        unfold swapStep
        split
        · rw [getD_set_ne _ _ _ _ (by omega), getD_set_self _ _ _ (by rw [hlen]; omega),
            getD_set_self _ _ _ (by rw [List.length_set, hlen]; omega)]
          omega
        · omega
      rw [huntouched]
      omega
    · exact ih (swapStep len i o j) hi (by rw [swapStep_length]; exact hlen)
        (List.nodup_cons.mp hnd).2
        (fun u hu => hjl u (List.mem_cons_of_mem _ hu)) j' hj'r

theorem mem_drop_range_of (n m j : Nat) (h1 : m ≤ j) (h2 : j < n) :
    j ∈ (List.range n).drop m := by
  rw [List.mem_iff_getElem]
  refine ⟨j - m, by rw [List.length_drop, List.length_range]; omega, ?_⟩
  rw [List.getElem_drop, List.getElem_range]
  omega

theorem drop_range_facts (i : Nat) :
    ((List.range 10).drop (i + 1)).Nodup ∧
      (∀ j ∈ (List.range 10).drop (i + 1), i < j ∧ j < 10) :=
  ⟨List.Nodup.sublist (List.drop_sublist _ _) (List.nodup_range 10),
    fun j hj => by have := mem_drop_range hj; omega⟩

theorem selSort_sorted_aux (len : Nat → Nat) : ∀ k, k ≤ 10 →
    ((List.range k).foldl (selInner len) (List.range 10)).length = 10 ∧
      ∀ a b, a < b → b < 10 → a < k →
        len (((List.range k).foldl (selInner len) (List.range 10)).getD a 0) ≤
          len (((List.range k).foldl (selInner len) (List.range 10)).getD b 0) := by
  intro k
  induction k with
  | zero =>
    intro _
    constructor
    · simp
    · intro a b _ _ ha
      omega
  | succ k ih =>
    intro hk10
    obtain ⟨hL, hS⟩ := ih (by omega)
    have hk : k < 10 := by omega
    rw [show List.range (k + 1) = List.range k ++ [k] from List.range_succ k,
      List.foldl_append, List.foldl_cons, List.foldl_nil]
    set F := (List.range k).foldl (selInner len) (List.range 10) with hF
    obtain ⟨hnd, hbounds⟩ := drop_range_facts k
    constructor
    · exact (selInner_facts len F k hL hk).1
    · intro a b hab hb hak1
      rw [selInner_eq_fold]
      by_cases hak : a < k
      · have ha_eq : (((List.range 10).drop (k + 1)).foldl (swapStep len k) F).getD a 0 =
            F.getD a 0 :=
          fold_swapStep_untouched len k _ F a (by omega)
            (fun j hj => by have := mem_drop_range hj; omega)
        rw [ha_eq]
        by_cases hbk : b < k
        · have hb_eq : (((List.range 10).drop (k + 1)).foldl (swapStep len k) F).getD b 0 =
              F.getD b 0 :=
            fold_swapStep_untouched len k _ F b (by omega)
              (fun j hj => by have := mem_drop_range hj; omega)
          rw [hb_eq]
          exact hS a b hab hb hak
        · obtain ⟨b', hb'1, hb'2, hb'⟩ :=
            fold_swapStep_from_suffix len k _ F hk hL hbounds b (by omega) hb
          rw [hb']
          exact hS a b' (by omega) hb'2 hak
      · have hak' : a = k := by omega
        subst hak'
        exact fold_swapStep_i_min len a _ F hk hL hnd hbounds b
          (mem_drop_range_of 10 (a + 1) b (by omega) hb)

theorem selSort_sorted (len : Nat → Nat) : ∀ a b, a ≤ b → b < 10 →
    len ((selSort len).getD a 0) ≤ len ((selSort len).getD b 0) := by
  intro a b hab hb
  rcases Nat.lt_or_ge a b with hlt | hge
  · exact (selSort_sorted_aux len 10 (le_refl _)).2 a b hlt hb (by omega)
  · have : a = b := by omega
    subst this
    exact le_refl _

set_option maxRecDepth 200000 in
/-- **C7 counterexample**: on the single-word index of `wex` and query
`qex7`, probes 4 and 1 have equal posting length, yet the search visits
probe 4 (at rank 4) before probe 1 (at rank 6): the selection sort is
not stable, so the claimed pair-index tie-break does not hold. -/
theorem C7_probe_order_counterexample :
    probeOrder [wex] qex7 = [3, 6, 8, 9, 4, 5, 1, 7, 2, 0] ∧
      probeLen [wex] qex7 ((probeOrder [wex] qex7).getD 4 0) =
        probeLen [wex] qex7 ((probeOrder [wex] qex7).getD 6 0) ∧
      (probeOrder [wex] qex7).getD 6 0 < (probeOrder [wex] qex7).getD 4 0 := by
  refine ⟨by decide, by decide, by decide⟩

/-- **C7 amended**: for every index and every query, `casefilter_search`
visits the 10 pair probes in ascending order of posting-list length
(the probe order is a rearrangement of the pair indices 0..9); the
relative order of equal-length probes is whatever the unstable
selection-sort swap leaves, not the pair-index order. -/
theorem C7_probe_order (D : List Word) (q : Word) :
    (probeOrder D q).length = 10 ∧
      (∀ p, p < 10 → p ∈ probeOrder D q) ∧
      ∀ a b, a ≤ b → b < 10 →
        probeLen D q ((probeOrder D q).getD a 0) ≤
          probeLen D q ((probeOrder D q).getD b 0) :=
  ⟨(selSort_facts (probeLen D q)).1, fun p hp => mem_probeOrder D q p hp,
    fun a b hab hb => selSort_sorted (probeLen D q) a b hab hb⟩

set_option maxRecDepth 200000 in
theorem C7_probe_order_witness :
    4 ≤ 6 ∧ 6 < 10 ∧
      probeLen [wex] qex7 ((probeOrder [wex] qex7).getD 4 0) ≤
        probeLen [wex] qex7 ((probeOrder [wex] qex7).getD 6 0) :=
  ⟨by decide, by decide, (C7_probe_order [wex] qex7).2.2 4 6 (by decide) (by decide)⟩

/-! ## Claim C9: query-order independence -/

/-! ## Claim C9 development -/

theorem scanA_cons (D : List Word) (qc k g id : Nat) (rest : List Nat) (buf : Nat → Nat) :
    scanA D qc k g (id :: rest) buf =
      if buf id = g then scanA D qc k g rest buf
      else if hamming_packed15 qc (codeOf D id) ≤ k then
        (true, fun j => if j = id then g else buf j)
      else scanA D qc k g rest (fun j => if j = id then g else buf j) := rfl

theorem scanB_cons (D : List Word) (qc k g pos v : Nat) (rest : List (Nat × Nat))
    (buf : Nat → Nat) :
    scanB D qc k g ((pos, v) :: rest) buf =
      if buf (v &&& 0xFFFFF) = g then scanB D qc k g rest buf
      else if 2 + hamming_packed14 (casefilter_pack_delete qc pos)
          (casefilter_pack_delete (codeOf D (v &&& 0xFFFFF)) ((v >>> 20) &&& 0xF)) ≤ k then
        (true, fun j => if j = v &&& 0xFFFFF then g else buf j)
      else scanB D qc k g rest buf := rfl

theorem search_noalloc (D : List Word) (q : Word) (k : Nat) (buf : Nat → Nat) (cap g : Nat)
    (hq : q.length = 15) (hcap : ¬ D.length > cap) (hg : g + 2 < 2 ^ 32) :
    casefilter_search D q k ⟨buf, cap, g⟩ =
      (if (scanA D (pack_keyword q) k (g + 1) (phaseAIds D q) buf).1 then
        (true, ⟨(scanA D (pack_keyword q) k (g + 1) (phaseAIds D q) buf).2, cap, g + 1⟩)
      else
        ((scanB D (pack_keyword q) k (g + 2) (phaseBCands D q)
            (scanA D (pack_keyword q) k (g + 1) (phaseAIds D q) buf).2).1,
          ⟨(scanB D (pack_keyword q) k (g + 2) (phaseBCands D q)
              (scanA D (pack_keyword q) k (g + 1) (phaseAIds D q) buf).2).2, cap, g + 2⟩)) := by
  have e1 : (g + 1) % 2 ^ 32 = g + 1 := Nat.mod_eq_of_lt (by omega)
  have e2 : (g + 1 + 1) % 2 ^ 32 = g + 2 := Nat.mod_eq_of_lt (by omega)
  simp only [casefilter_search, hq, ne_eq, not_true_eq_false, if_false, if_neg hcap, e1, e2,
    Nat.succ_ne_zero, ite_false]

theorem search_wrongLen (D : List Word) (q : Word) (k : Nat) (st : SearchState)
    (h : q.length ≠ 15) : casefilter_search D q k st = (false, st) := by
  unfold casefilter_search
  rw [if_pos h]

theorem search_realloc (D : List Word) (q : Word) (k : Nat) (st : SearchState)
    (hq : q.length = 15) (h : D.length > st.cap) :
    casefilter_search D q k st = casefilter_search D q k ⟨fun _ => 0, D.length, 1⟩ := by
  simp only [casefilter_search, hq, ne_eq, not_true_eq_false, if_false, if_pos h,
    gt_iff_lt, lt_irrefl, ite_false]

theorem filler_step (D : List Word) (f : Word) (k : Nat) (buf : Nat → Nat) (cap g : Nat)
    (hf : f.length = 15) (hA : phaseAIds D f = []) (hB : phaseBCands D f = [])
    (hcap : ¬ D.length > cap) (hg : g + 2 < 2 ^ 32) :
    casefilter_search D f k ⟨buf, cap, g⟩ = (false, ⟨buf, cap, g + 2⟩) := by
  rw [search_noalloc D f k buf cap g hf hcap hg, hA, hB]
  simp only [scanA, scanB, ite_false, if_false, Bool.false_eq_true]

theorem runSearches_cons (D : List Word) (k : Nat) (q : Word) (qs : List Word)
    (st : SearchState) :
    runSearches D k (q :: qs) st =
      (casefilter_search D q k st).1 ::
        runSearches D k qs (casefilter_search D q k st).2 := rfl

theorem filler_iter (D : List Word) (f : Word) (k : Nat) (hf : f.length = 15)
    (hA : phaseAIds D f = []) (hB : phaseBCands D f = []) :
    ∀ (n : Nat) (rest : List Word) (buf : Nat → Nat) (cap g : Nat),
      ¬ D.length > cap → g + 2 * n < 2 ^ 32 →
      runSearches D k (List.replicate n f ++ rest) ⟨buf, cap, g⟩ =
        List.replicate n false ++ runSearches D k rest ⟨buf, cap, g + 2 * n⟩ := by
  intro n
  induction n with
  | zero => intro rest buf cap g _ _; simp
  | succ n ih =>
    intro rest buf cap g hcap hg
    rw [List.replicate_succ, List.cons_append, runSearches_cons,
      filler_step D f k buf cap g hf hA hB hcap (by omega)]
    rw [List.replicate_succ, List.cons_append]
    have harith : g + 2 + 2 * n = g + 2 * (n + 1) := by ring
    rw [show ((false, (⟨buf, cap, g + 2⟩ : SearchState)) : Bool × SearchState).1 = false from rfl,
      show ((false, (⟨buf, cap, g + 2⟩ : SearchState)) : Bool × SearchState).2 =
        ⟨buf, cap, g + 2⟩ from rfl,
      ih rest buf cap (g + 2) hcap (by omega), harith]

theorem scanA_bisim (D : List Word) (qc k g1 g2 : Nat) :
    ∀ (l : List Nat) (b1 b2 : Nat → Nat), (∀ id, b1 id = g1 ↔ b2 id = g2) →
      (scanA D qc k g1 l b1).1 = (scanA D qc k g2 l b2).1 ∧
        ∀ id, (scanA D qc k g1 l b1).2 id = g1 ↔ (scanA D qc k g2 l b2).2 id = g2 := by
  intro l
  induction l with
  | nil => intro b1 b2 h; exact ⟨rfl, h⟩
  | cons id rest ih =>
    intro b1 b2 h
    have hmark : ∀ j, (if j = id then g1 else b1 j) = g1 ↔ (if j = id then g2 else b2 j) = g2 := by
      intro j
      by_cases hj : j = id
      · simp [hj]
      · simp [hj, h j]
    rw [scanA_cons, scanA_cons]
    by_cases hv : b1 id = g1
    · rw [if_pos hv, if_pos ((h id).mp hv)]
      exact ih b1 b2 h
    · rw [if_neg hv, if_neg (fun hh => hv ((h id).mpr hh))]
      by_cases hh : hamming_packed15 qc (codeOf D id) ≤ k
      · rw [if_pos hh, if_pos hh]
        exact ⟨rfl, hmark⟩
      · rw [if_neg hh, if_neg hh]
        exact ih _ _ hmark

theorem scanB_bisim (D : List Word) (qc k g1 g2 : Nat) :
    ∀ (l : List (Nat × Nat)) (b1 b2 : Nat → Nat), (∀ id, b1 id = g1 ↔ b2 id = g2) →
      (scanB D qc k g1 l b1).1 = (scanB D qc k g2 l b2).1 := by
  intro l
  induction l with
  | nil => intro b1 b2 _; rfl
  | cons p rest ih =>
    obtain ⟨pos, v⟩ := p
    intro b1 b2 h
    rw [scanB_cons, scanB_cons]
    by_cases hv : b1 (v &&& 0xFFFFF) = g1
    · rw [if_pos hv, if_pos ((h _).mp hv)]
      exact ih b1 b2 h
    · rw [if_neg hv, if_neg (fun hh => hv ((h _).mpr hh))]
      by_cases hh : 2 + hamming_packed14 (casefilter_pack_delete qc pos)
          (casefilter_pack_delete (codeOf D (v &&& 0xFFFFF)) ((v >>> 20) &&& 0xF)) ≤ k
      · rw [if_pos hh, if_pos hh]
      · rw [if_neg hh, if_neg hh]
        exact ih b1 b2 h

theorem scanA_out (D : List Word) (qc k g : Nat) :
    ∀ (l : List Nat) (buf : Nat → Nat) (j : Nat),
      (scanA D qc k g l buf).2 j = g ∨ (scanA D qc k g l buf).2 j = buf j := by
  intro l
  induction l with
  | nil => intro buf j; exact Or.inr rfl
  | cons id rest ih =>
    intro buf j
    rw [scanA_cons]
    by_cases hv : buf id = g
    · rw [if_pos hv]; exact ih buf j
    · rw [if_neg hv]
      by_cases hh : hamming_packed15 qc (codeOf D id) ≤ k
      · rw [if_pos hh]
        by_cases hj : j = id
        · exact Or.inl (by simp [hj])
        · exact Or.inr (by simp [hj])
      · rw [if_neg hh]
        rcases ih (fun j' => if j' = id then g else buf j') j with h' | h'
        · exact Or.inl h'
        · rw [h']
          by_cases hj : j = id
          · exact Or.inl (by simp [hj])
          · exact Or.inr (by simp [hj])

theorem scanB_out (D : List Word) (qc k g : Nat) :
    ∀ (l : List (Nat × Nat)) (buf : Nat → Nat) (j : Nat),
      (scanB D qc k g l buf).2 j = g ∨ (scanB D qc k g l buf).2 j = buf j := by
  intro l
  induction l with
  | nil => intro buf j; exact Or.inr rfl
  | cons p rest ih =>
    obtain ⟨pos, v⟩ := p
    intro buf j
    rw [scanB_cons]
    by_cases hv : buf (v &&& 0xFFFFF) = g
    · rw [if_pos hv]; exact ih buf j
    · rw [if_neg hv]
      by_cases hh : 2 + hamming_packed14 (casefilter_pack_delete qc pos)
          (casefilter_pack_delete (codeOf D (v &&& 0xFFFFF)) ((v >>> 20) &&& 0xF)) ≤ k
      · rw [if_pos hh]
        by_cases hj : j = v &&& 0xFFFFF
        · exact Or.inl (by simp [hj])
        · exact Or.inr (by simp [hj])
      · rw [if_neg hh]
        exact ih buf j

theorem search_gen_bisim (D : List Word) (q : Word) (k : Nat)
    (b1 b2 : Nat → Nat) (c1 c2 g1 g2 : Nat) (hq : q.length = 15)
    (hc1 : ¬ D.length > c1) (hc2 : ¬ D.length > c2)
    (hg1 : g1 + 2 < 2 ^ 32) (hg2 : g2 + 2 < 2 ^ 32)
    (hb1 : ∀ j, b1 j ≤ g1) (hb2 : ∀ j, b2 j ≤ g2) :
    (casefilter_search D q k ⟨b1, c1, g1⟩).1 = (casefilter_search D q k ⟨b2, c2, g2⟩).1 := by
  rw [search_noalloc D q k b1 c1 g1 hq hc1 hg1, search_noalloc D q k b2 c2 g2 hq hc2 hg2]
  have hiffA : ∀ id, b1 id = g1 + 1 ↔ b2 id = g2 + 1 := by
    intro id
    constructor
    · intro h; have := hb1 id; omega
    · intro h; have := hb2 id; omega
  obtain ⟨hA1, hA2⟩ :=
    scanA_bisim D (pack_keyword q) k (g1 + 1) (g2 + 1) (phaseAIds D q) b1 b2 hiffA
  by_cases hres : (scanA D (pack_keyword q) k (g1 + 1) (phaseAIds D q) b1).1
  · rw [if_pos hres, if_pos (hA1.symm.trans hres)]
  · rw [if_neg hres, if_neg (fun hh => hres (hA1.trans hh))]
    show (scanB D (pack_keyword q) k (g1 + 2) (phaseBCands D q)
        (scanA D (pack_keyword q) k (g1 + 1) (phaseAIds D q) b1).2).1 =
      (scanB D (pack_keyword q) k (g2 + 2) (phaseBCands D q)
        (scanA D (pack_keyword q) k (g2 + 1) (phaseAIds D q) b2).2).1
    apply scanB_bisim
    intro id
    constructor
    · intro h
      rcases scanA_out D (pack_keyword q) k (g1 + 1) (phaseAIds D q) b1 id with h' | h'
      · omega
      · have := hb1 id; omega
    · intro h
      rcases scanA_out D (pack_keyword q) k (g2 + 1) (phaseAIds D q) b2 id with h' | h'
      · omega
      · have := hb2 id; omega

theorem search_state_bounds (D : List Word) (q : Word) (k : Nat) (buf : Nat → Nat)
    (cap g : Nat) (hg1 : 1 ≤ g) (hg : g + 2 < 2 ^ 32) (hbuf : ∀ j, buf j ≤ g) :
    1 ≤ (casefilter_search D q k ⟨buf, cap, g⟩).2.gen ∧
      (casefilter_search D q k ⟨buf, cap, g⟩).2.gen ≤ g + 2 ∧
      ∀ j, (casefilter_search D q k ⟨buf, cap, g⟩).2.buf j ≤
        (casefilter_search D q k ⟨buf, cap, g⟩).2.gen := by
  by_cases hq : q.length = 15
  · have main : ∀ (b : Nat → Nat) (c gg : Nat), ¬ D.length > c → gg + 2 < 2 ^ 32 →
        (∀ j, b j ≤ gg) →
        1 ≤ (casefilter_search D q k ⟨b, c, gg⟩).2.gen ∧
          (casefilter_search D q k ⟨b, c, gg⟩).2.gen ≤ gg + 2 ∧
          ∀ j, (casefilter_search D q k ⟨b, c, gg⟩).2.buf j ≤
            (casefilter_search D q k ⟨b, c, gg⟩).2.gen := by
      intro b c gg hc hgg hb
      rw [search_noalloc D q k b c gg hq hc hgg]
      by_cases hres : (scanA D (pack_keyword q) k (gg + 1) (phaseAIds D q) b).1
      · rw [if_pos hres]
        refine ⟨?_, ?_, ?_⟩
        · show 1 ≤ gg + 1
          omega
        · show gg + 1 ≤ gg + 2
          omega
        · intro j
          show (scanA D (pack_keyword q) k (gg + 1) (phaseAIds D q) b).2 j ≤ gg + 1
          rcases scanA_out D (pack_keyword q) k (gg + 1) (phaseAIds D q) b j with h | h
          · omega
          · have := hb j; omega
      · rw [if_neg hres]
        refine ⟨?_, ?_, ?_⟩
        · show 1 ≤ gg + 2
          omega
        · show gg + 2 ≤ gg + 2
          omega
        · intro j
          show (scanB D (pack_keyword q) k (gg + 2) (phaseBCands D q)
              (scanA D (pack_keyword q) k (gg + 1) (phaseAIds D q) b).2).2 j ≤ gg + 2
          rcases scanB_out D (pack_keyword q) k (gg + 2) (phaseBCands D q)
              (scanA D (pack_keyword q) k (gg + 1) (phaseAIds D q) b).2 j with h | h
          · omega
          · rw [h]
            rcases scanA_out D (pack_keyword q) k (gg + 1) (phaseAIds D q) b j with h' | h'
            · omega
            · have := hb j; omega
    by_cases hcap : D.length > cap
    · rw [search_realloc D q k ⟨buf, cap, g⟩ hq hcap]
      obtain ⟨x1, x2, x3⟩ :=
        main (fun _ => 0) D.length 1 (by omega) (by omega) (fun _ => Nat.zero_le 1)
      exact ⟨x1, by omega, x3⟩
    · exact main buf cap g hcap hg hbuf
  · rw [search_wrongLen D q k ⟨buf, cap, g⟩ hq]
    exact ⟨hg1, by show g ≤ g + 2; omega, hbuf⟩

theorem search_fresh_eq (D : List Word) (q : Word) (k : Nat) (buf : Nat → Nat) (cap g : Nat)
    (hg1 : 1 ≤ g) (hg : g + 2 < 2 ^ 32) (hbuf : ∀ j, buf j ≤ g) :
    (casefilter_search D q k ⟨buf, cap, g⟩).1 = (casefilter_search D q k initState).1 := by
  by_cases hq : q.length = 15
  · by_cases hD : D.length > 0
    · have hfresh : casefilter_search D q k initState =
          casefilter_search D q k ⟨fun _ => 0, D.length, 1⟩ :=
        search_realloc D q k initState hq hD
      rw [hfresh]
      by_cases hcap : D.length > cap
      · rw [search_realloc D q k ⟨buf, cap, g⟩ hq hcap]
      · exact search_gen_bisim D q k buf (fun _ => 0) cap D.length g 1 hq hcap
          (by omega) hg (by omega) hbuf (fun j => Nat.zero_le 1)
    · exact search_gen_bisim D q k buf (fun _ => 0) cap 0 g 1 hq
        (by omega) (by omega) hg (by omega) hbuf (fun j => Nat.zero_le 1)
  · rw [search_wrongLen D q k ⟨buf, cap, g⟩ hq, search_wrongLen D q k initState hq]

theorem runSearches_fresh_aux (D : List Word) (k : Nat) :
    ∀ (qs : List Word) (buf : Nat → Nat) (cap g : Nat), 1 ≤ g →
      g + 2 * qs.length < 2 ^ 32 → (∀ j, buf j ≤ g) →
      runSearches D k qs ⟨buf, cap, g⟩ =
        qs.map fun q => (casefilter_search D q k initState).1 := by
  intro qs
  induction qs with
  | nil => intro buf cap g _ _ _; rfl
  | cons q rest ih =>
    intro buf cap g hg1 hg hbuf
    have hlen : g + 2 < 2 ^ 32 := by
      simp only [List.length_cons] at hg
      omega
    rw [runSearches_cons, List.map_cons]
    congr 1
    · exact search_fresh_eq D q k buf cap g hg1 hlen hbuf
    · obtain ⟨x1, x2, x3⟩ := search_state_bounds D q k buf cap g hg1 hlen hbuf
      have heta : (casefilter_search D q k ⟨buf, cap, g⟩).2 =
          ⟨(casefilter_search D q k ⟨buf, cap, g⟩).2.buf,
            (casefilter_search D q k ⟨buf, cap, g⟩).2.cap,
            (casefilter_search D q k ⟨buf, cap, g⟩).2.gen⟩ := rfl
      rw [heta]
      refine ih _ _ _ x1 ?_ x3
      simp only [List.length_cons] at hg
      omega

/-- **C9 amended**: as long as fewer than `2^31` searches have been run
since process start, the generation counter never wraps, and every
query's result equals the result it would get from the freshly
initialised searcher state — in that regime the query order is
irrelevant. -/
theorem C9_bounded_independence (D : List Word) (k : Nat) (qs : List Word)
    (h : qs.length ≤ 2 ^ 31 - 1) :
    runSearches D k qs initState =
      qs.map fun q => (casefilter_search D q k initState).1 := by
  refine runSearches_fresh_aux D k qs (fun _ => 0) 0 1 (by omega) (by omega)
    (fun j => Nat.zero_le 1)

set_option maxRecDepth 200000 in
theorem fJ_empty : phaseAIds D9 fJ = [] ∧ phaseBCands D9 fJ = [] := by
  refine ⟨by decide, by decide⟩

set_option maxRecDepth 1000000 in
theorem run1_tail :
    runSearches D9 3 [wH, qB9] ⟨fun _ => 0, D9.length, 2 ^ 32 - 3⟩ = [true, false] := by
  decide

set_option maxRecDepth 1000000 in
theorem qB9_first :
    (casefilter_search D9 qB9 3 initState).1 = true ∧
      (casefilter_search D9 qB9 3 initState).2.cap = 2 ∧
      (casefilter_search D9 qB9 3 initState).2.gen = 3 := by
  refine ⟨by decide, by decide, by decide⟩

theorem search_wrap (D : List Word) (q : Word) (k : Nat) (buf : Nat → Nat) (cap : Nat)
    (hq : q.length = 15) (hcap : ¬ D.length > cap) :
    casefilter_search D q k ⟨buf, cap, 2 ^ 32 - 1⟩ =
      (if (scanA D (pack_keyword q) k 1 (phaseAIds D q) (fun _ => 0)).1 then
        (true, ⟨(scanA D (pack_keyword q) k 1 (phaseAIds D q) (fun _ => 0)).2, cap, 1⟩)
      else
        ((scanB D (pack_keyword q) k 2 (phaseBCands D q)
            (scanA D (pack_keyword q) k 1 (phaseAIds D q) (fun _ => 0)).2).1,
          ⟨(scanB D (pack_keyword q) k 2 (phaseBCands D q)
              (scanA D (pack_keyword q) k 1 (phaseAIds D q) (fun _ => 0)).2).2, cap, 2⟩)) := by
  have e1 : (2 ^ 32 - 1 + 1) % 2 ^ 32 = 0 := by norm_num
  have e2 : (1 + 1) % 2 ^ 32 = 2 := by norm_num
  simp only [casefilter_search, hq, ne_eq, not_true_eq_false, if_false, if_neg hcap, e1, e2,
    ite_false, ite_true, if_true]

set_option maxRecDepth 1000000 in
theorem wH_wrap (b : Nat → Nat) :
    (casefilter_search D9 wH 3 ⟨b, 2, 2 ^ 32 - 1⟩).1 = true := by
  rw [search_wrap D9 wH 3 b 2 (by decide) (by decide)]
  decide

theorem state_eta (st : SearchState) : st = ⟨st.buf, st.cap, st.gen⟩ := rfl

theorem run1_eval :
    runSearches D9 3 (List.replicate n9 fJ ++ [wH, qB9]) initState =
      List.replicate n9 false ++ [true, false] := by
  obtain ⟨hA, hB⟩ := fJ_empty
  have hf : fJ.length = 15 := by decide
  have hn : n9 = 2 ^ 31 - 3 + 1 := by norm_num [n9]
  rw [hn, List.replicate_succ, List.cons_append, runSearches_cons,
    search_realloc D9 fJ 3 initState hf (by decide),
    filler_step D9 fJ 3 (fun _ => 0) D9.length 1 hf hA hB (by decide) (by norm_num)]
  show false :: runSearches D9 3 (List.replicate (2 ^ 31 - 3) fJ ++ [wH, qB9])
      ⟨fun _ => 0, D9.length, 3⟩ = _
  rw [filler_iter D9 fJ 3 hf hA hB (2 ^ 31 - 3) [wH, qB9] (fun _ => 0) D9.length 3
    (by decide) (by norm_num)]
  have h3 : 3 + 2 * (2 ^ 31 - 3) = 2 ^ 32 - 3 := by norm_num
  rw [h3, run1_tail, List.replicate_succ, List.cons_append]

theorem run2_eval :
    runSearches D9 3 (qB9 :: (List.replicate n9 fJ ++ [wH])) initState =
      true :: (List.replicate n9 false ++ [true]) := by
  obtain ⟨hA, hB⟩ := fJ_empty
  have hf : fJ.length = 15 := by decide
  obtain ⟨h1, hcap, hgen⟩ := qB9_first
  rw [runSearches_cons, h1]
  rw [state_eta (casefilter_search D9 qB9 3 initState).2, hcap, hgen,
    filler_iter D9 fJ 3 hf hA hB n9 [wH] ((casefilter_search D9 qB9 3 initState).2.buf) 2 3
      (by decide) (by norm_num [n9])]
  have h3 : 3 + 2 * n9 = 2 ^ 32 - 1 := by norm_num [n9]
  rw [h3, runSearches_cons, wH_wrap ((casefilter_search D9 qB9 3 initState).2.buf)]
  rfl

/-- **C9 counterexample**: query order is NOT independent.  On the
two-word index `D9`, running `2^31 - 2` no-posting filler queries, then
a Phase-A hit, drives the generation counter to `2^32 - 2`; the next
query enters Phase B with generation `(2^32 - 1) + 1 = 0` (the wrap is
only checked at call start), so the zero-initialised visited entries
look already visited and its Phase-B-only match is missed.  Moving that
query to the front of the same multiset of queries yields a second
`true`: a permutation changes the multiset of results. -/
theorem C9_query_order_counterexample :
    (qB9 :: (List.replicate n9 fJ ++ [wH])).Perm (List.replicate n9 fJ ++ [wH, qB9]) ∧
      (runSearches D9 3 (List.replicate n9 fJ ++ [wH, qB9]) initState).count true = 1 ∧
      (runSearches D9 3 (qB9 :: (List.replicate n9 fJ ++ [wH])) initState).count true = 2 := by
  refine ⟨?_, ?_, ?_⟩
  · have h : List.replicate n9 fJ ++ [wH, qB9] =
        (List.replicate n9 fJ ++ [wH]) ++ [qB9] := by simp
    rw [h]
    exact @List.perm_append_comm _ [qB9] (List.replicate n9 fJ ++ [wH])
  · rw [run1_eval]
    simp [List.count_append, List.count_replicate, List.count_cons]
  · rw [run2_eval]
    simp [List.count_append, List.count_replicate, List.count_cons]

theorem C9_bounded_independence_witness :
    ([wex2, wex2] : List Word).length ≤ 2 ^ 31 - 1 ∧
      runSearches [wex] 3 [wex2, wex2] initState =
        [wex2, wex2].map fun q => (casefilter_search [wex] q 3 initState).1 :=
  ⟨by norm_num, C9_bounded_independence [wex] 3 [wex2, wex2] (by norm_num)⟩

theorem rdNum_append : ∀ (w v : Nat) (rest : List Nat), v < 256 ^ w →
    rdNum w (wrNum w v ++ rest) = some (v, rest) := by
  intro w
  induction w with
  | zero =>
    intro v rest hv
    have : v = 0 := by simpa using hv
    subst this
    rfl
  | succ w ih =>
    intro v rest hv
    show rdNum (w + 1) (v % 256 :: (wrNum w (v / 256) ++ rest)) = _
    simp only [rdNum]
    rw [ih (v / 256) rest (by
      have : 256 ^ (w + 1) = 256 ^ w * 256 := by ring
      omega)]
    show some (v % 256 + 256 * (v / 256), rest) = some (v, rest)
    have : v % 256 + 256 * (v / 256) = v := by omega
    rw [this]

theorem rdNum_short : ∀ (w : Nat) (bs : List Nat), bs.length < w → rdNum w bs = none := by
  intro w
  induction w with
  | zero => intro bs h; omega
  | succ w ih =>
    intro bs h
    match bs with
    | [] => rfl
    | b :: rest =>
      simp only [rdNum]
      rw [ih rest (by simp at h; omega)]

theorem wrNum_length : ∀ (w v : Nat), (wrNum w v).length = w := by
  intro w
  induction w with
  | zero => intro v; rfl
  | succ w ih => intro v; simp [wrNum, ih]

theorem rdNums_append (w : Nat) : ∀ (l : List Nat) (rest : List Nat),
    (∀ v ∈ l, v < 256 ^ w) →
    rdNums w l.length (l.flatMap (wrNum w) ++ rest) = some (l, rest) := by
  intro l
  induction l with
  | nil => intro rest _; rfl
  | cons v vs ih =>
    intro rest hl
    rw [List.flatMap_cons, List.length_cons, List.append_assoc]
    simp only [rdNums]
    rw [rdNum_append w v _ (hl v (List.mem_cons_self ..))]
    show (match rdNums w vs.length (vs.flatMap (wrNum w) ++ rest) with
      | none => none
      | some (vs', rest') => some (v :: vs', rest')) = some (v :: vs, rest)
    rw [ih rest (fun u hu => hl u (List.mem_cons_of_mem _ hu))]

theorem rdChunks_append : ∀ (ws : List (List Nat)) (rest : List Nat),
    (∀ w ∈ ws, List.length w = 16) →
    rdChunks ws.length (ws.flatMap id ++ rest) = some (ws, rest) := by
  intro ws
  induction ws with
  | nil => intro rest _; rfl
  | cons w tl ih =>
    intro rest hl
    have hw : List.length w = 16 := hl w (List.mem_cons_self ..)
    rw [List.flatMap_cons, List.length_cons, List.append_assoc]
    show rdChunks (tl.length + 1) (w ++ (tl.flatMap id ++ rest)) = _
    simp only [rdChunks]
    rw [if_pos (by simp [hw])]
    rw [show (w ++ (tl.flatMap id ++ rest)).drop 16 = tl.flatMap id ++ rest by
        rw [← hw, List.drop_left],
      ih rest (fun u hu => hl u (List.mem_cons_of_mem _ hu)),
      show (w ++ (tl.flatMap id ++ rest)).take 16 = w by rw [← hw, List.take_left]]

theorem rdNum_one (b : Nat) (rest : List Nat) : rdNum 1 (b :: rest) = some (b, rest) := by
  simp [rdNum]

theorem mem_le_foldl_max : ∀ (l : List Nat) (a : Nat),
    a ≤ l.foldl max a ∧ ∀ v ∈ l, v ≤ l.foldl max a := by
  intro l
  induction l with
  | nil => intro a; exact ⟨le_refl _, by simp⟩
  | cons x xs ih =>
    intro a
    obtain ⟨h1, h2⟩ := ih (max a x)
    refine ⟨le_trans (le_max_left a x) h1, ?_⟩
    intro v hv
    rcases List.mem_cons.mp hv with rfl | hv'
    · exact le_trans (le_max_right a v) h1
    · exact h2 v hv'

theorem flatMap_congr {α β : Type} (f g : α → List β) : ∀ (l : List α),
    (∀ x ∈ l, f x = g x) → l.flatMap f = l.flatMap g := by
  intro l
  induction l with
  | nil => intro _; rfl
  | cons x xs ih =>
    intro h
    rw [List.flatMap_cons, List.flatMap_cons, h x (List.mem_cons_self ..),
      ih (fun u hu => h u (List.mem_cons_of_mem _ hu))]

theorem counts_bytes_16 (counts : List Nat) (h : counts.foldl max 0 ≤ 65535) :
    (if counts.foldl max 0 ≤ 65535 then
        16 :: counts.flatMap fun c => wrNum 2 (c % 2 ^ 16)
      else 32 :: counts.flatMap fun c => wrNum 4 c) =
      16 :: counts.flatMap (wrNum 2) := by
  rw [if_pos h]
  refine congrArg (16 :: ·) (flatMap_congr _ _ counts fun c hc => ?_)
  have := (mem_le_foldl_max counts 0).2 c hc
  rw [Nat.mod_eq_of_lt (by omega)]

theorem counts_bytes_32 (counts : List Nat) (h : ¬ counts.foldl max 0 ≤ 65535) :
    (if counts.foldl max 0 ≤ 65535 then
        16 :: counts.flatMap fun c => wrNum 2 (c % 2 ^ 16)
      else 32 :: counts.flatMap fun c => wrNum 4 c) =
      32 :: counts.flatMap (wrNum 4) := by
  rw [if_neg h]

theorem payload_bytes (ids : List Nat) (h : ∀ v ∈ ids, v < 2 ^ 24) :
    (ids.flatMap fun v => wrNum 3 (v % 2 ^ 24)) = ids.flatMap (wrNum 3) :=
  flatMap_congr _ _ ids fun v hv => by rw [Nat.mod_eq_of_lt (h v hv)]

theorem counts_stage (counts : List Nat) (hcb : ∀ c ∈ counts, c < 2 ^ 32) :
    ∃ b w, ((if counts.foldl max 0 ≤ 65535 then
        16 :: counts.flatMap fun c => wrNum 2 (c % 2 ^ 16)
      else 32 :: counts.flatMap fun c => wrNum 4 c) =
        b :: counts.flatMap (wrNum w)) ∧
      ((if b = 16 then 2 else 4) = w) ∧ ∀ c ∈ counts, c < 256 ^ w := by
  by_cases h : counts.foldl max 0 ≤ 65535
  · refine ⟨16, 2, counts_bytes_16 counts h, rfl, fun c hc => ?_⟩
    have := (mem_le_foldl_max counts 0).2 c hc
    have h2 : (256 : Nat) ^ 2 = 65536 := by norm_num
    omega
  · refine ⟨32, 4, counts_bytes_32 counts h, rfl, fun c hc => ?_⟩
    have := hcb c hc
    have h4 : (256 : Nat) ^ 4 = 2 ^ 32 := by norm_num
    omega

theorem serialize_roundtrip (m : SerIndex) (h : SerWF m) :
    casefilter_deserialize (casefilter_serialize m) = some m := by
  obtain ⟨hwl, hw16, hkc, hks, hpc, hhcl, hhcb, hhsum, hhtot, hhid,
    hdks, hdcl, hdcb, hdsum, hdtot, hdid⟩ := h
  obtain ⟨bh, wh, hsh, hwh, hbh⟩ := counts_stage m.h_counts hhcb
  obtain ⟨bd, wd, hsd, hwd, hbd⟩ := counts_stage m.d_counts hdcb
  have p4 : (256 : Nat) ^ 4 = 2 ^ 32 := by norm_num
  have p3 : (256 : Nat) ^ 3 = 2 ^ 24 := by norm_num
  have s1 : ∀ r, rdNum 4 (wrNum 4 m.keyword_count ++ r) = some (m.keyword_count, r) :=
    fun r => rdNum_append 4 _ r (by omega)
  have s2 : ∀ r, rdChunks m.keyword_count (m.keywords.flatMap id ++ r) =
      some (m.keywords, r) :=
    fun r => by rw [← hwl]; exact rdChunks_append m.keywords r hw16
  have s3 : ∀ r, rdNum 4 (wrNum 4 m.h_key_space ++ r) = some (m.h_key_space, r) :=
    fun r => rdNum_append 4 _ r (by omega)
  have s4 : ∀ r, rdNum 4 (wrNum 4 m.h_pair_count ++ r) = some (m.h_pair_count, r) :=
    fun r => rdNum_append 4 _ r (by omega)
  have s5 : ∀ r, rdNums wh (m.h_key_space * m.h_pair_count)
      (m.h_counts.flatMap (wrNum wh) ++ r) = some (m.h_counts, r) :=
    fun r => by rw [← hhcl]; exact rdNums_append wh m.h_counts r hbh
  have s6 : ∀ r, rdNum 4 (wrNum 4 m.h_ids.length ++ r) = some (m.h_ids.length, r) :=
    fun r => rdNum_append 4 _ r (by omega)
  have s7 : ∀ r, rdNums 3 m.h_ids.length (m.h_ids.flatMap (wrNum 3) ++ r) =
      some (m.h_ids, r) :=
    fun r => rdNums_append 3 m.h_ids r (fun v hv => by have := hhid v hv; omega)
  have s8 : ∀ r, rdNum 4 (wrNum 4 m.d_key_space ++ r) = some (m.d_key_space, r) :=
    fun r => rdNum_append 4 _ r (by omega)
  have s9 : ∀ r, rdNums wd m.d_key_space (m.d_counts.flatMap (wrNum wd) ++ r) =
      some (m.d_counts, r) :=
    fun r => by rw [← hdcl]; exact rdNums_append wd m.d_counts r hbd
  have s10 : ∀ r, rdNum 4 (wrNum 4 m.d_idpos.length ++ r) = some (m.d_idpos.length, r) :=
    fun r => rdNum_append 4 _ r (by omega)
  have s11 : ∀ r, rdNums 3 m.d_idpos.length (m.d_idpos.flatMap (wrNum 3) ++ r) =
      some (m.d_idpos, r) :=
    fun r => rdNums_append 3 m.d_idpos r (fun v hv => by have := hdid v hv; omega)
  have s12 : rdNums 3 m.d_idpos.length (m.d_idpos.flatMap (wrNum 3)) =
      some (m.d_idpos, []) := by
    have h0 := s11 []
    rwa [List.append_nil] at h0
  unfold casefilter_serialize serialize_hindex serialize_dindex
  rw [hsh, hsd, payload_bytes m.h_ids hhid, payload_bytes m.d_idpos hdid]
  simp only [List.cons_append, List.append_assoc]
  simp only [casefilter_deserialize, s1, s2, s3, s4, rdNum_one, hwh, hwd, s5, s6, s7,
    s8, s9, s10, s11, s12, hhsum, hdsum, ne_eq, eq_self_iff_true, not_true_eq_false,
    if_false, ite_false]

theorem rdNum_some_length : ∀ (w : Nat) (bs : List Nat) (v : Nat) (rest : List Nat),
    rdNum w bs = some (v, rest) → bs.length = w + rest.length := by
  intro w
  induction w with
  | zero =>
    intro bs v rest h
    simp only [rdNum, Option.some.injEq, Prod.mk.injEq] at h
    rw [← h.2]
    omega
  | succ w ih =>
    intro bs v rest h
    match bs with
    | [] => simp [rdNum] at h
    | b :: tl =>
      simp only [rdNum] at h
      match htl : rdNum w tl with
      | none => rw [htl] at h; simp at h
      | some (v', rest') =>
        rw [htl] at h
        simp only [Option.some.injEq, Prod.mk.injEq] at h
        have := ih tl v' rest' htl
        simp only [List.length_cons, this, h.2]
        omega

theorem rdNums_short (w : Nat) : ∀ (k : Nat) (bs : List Nat),
    bs.length < w * k → rdNums w k bs = none := by
  intro k
  induction k with
  | zero => intro bs h; omega
  | succ k ih =>
    intro bs h
    match hP : rdNum w bs with
    | none => simp only [rdNums, hP]
    | some (v, rest) =>
      simp only [rdNums, hP]
      rw [ih rest (by
        have := rdNum_some_length w bs v rest hP
        have hm : w * (k + 1) = w * k + w := by ring
        omega)]

theorem rdChunks_short : ∀ (k : Nat) (bs : List Nat),
    bs.length < 16 * k → rdChunks k bs = none := by
  intro k
  induction k with
  | zero => intro bs h; omega
  | succ k ih =>
    intro bs h
    simp only [rdChunks]
    by_cases h16 : 16 ≤ bs.length
    · rw [if_pos h16, ih (bs.drop 16) (by
        simp only [List.length_drop]
        have hm : 16 * (k + 1) = 16 * k + 16 := by ring
        omega)]
    · rw [if_neg h16]

theorem take_append_add {α : Type} : ∀ (a b : List α) (i : Nat),
    (a ++ b).take (a.length + i) = a ++ b.take i := by
  intro a
  induction a with
  | nil => intro b i; simp
  | cons x xs ih =>
    intro b i
    show ((x :: (xs ++ b)).take (xs.length + 1 + i)) = x :: (xs ++ b.take i)
    rw [show xs.length + 1 + i = (xs.length + i) + 1 by omega, List.take_succ_cons, ih]

theorem parse_take {β : Type} (P : List Nat → Option (β × List Nat))
    (seg tail : List Nat) (v : β)
    (hP : ∀ r, P (seg ++ r) = some (v, r))
    (hshort : ∀ bs, bs.length < seg.length → P bs = none) (j : Nat) :
    P ((seg ++ tail).take j) =
      if j < seg.length then none else some (v, tail.take (j - seg.length)) := by
  by_cases h : j < seg.length
  · rw [if_pos h]
    apply hshort
    rw [List.length_take]
    omega
  · rw [if_neg h]
    rw [show (seg ++ tail).take j = seg ++ tail.take (j - seg.length) by
      rw [show j = seg.length + (j - seg.length) by omega, take_append_add,
        Nat.add_sub_cancel_left]]
    exact hP _

theorem serializeTampered_self (m : SerIndex) :
    serializeTampered m m.h_ids.length m.d_idpos.length = casefilter_serialize m := rfl

theorem tampered_h_none (m : SerIndex) (h : SerWF m) (tH tD : Nat)
    (ht : tH < 2 ^ 32) (hne : tH ≠ m.h_counts.sum) :
    casefilter_deserialize (serializeTampered m tH tD) = none := by
  obtain ⟨hwl, hw16, hkc, hks, hpc, hhcl, hhcb, hhsum, hhtot, hhid,
    hdks, hdcl, hdcb, hdsum, hdtot, hdid⟩ := h
  obtain ⟨bh, wh, hsh, hwh, hbh⟩ := counts_stage m.h_counts hhcb
  have p4 : (256 : Nat) ^ 4 = 2 ^ 32 := by norm_num
  have s1 : ∀ r, rdNum 4 (wrNum 4 m.keyword_count ++ r) = some (m.keyword_count, r) :=
    fun r => rdNum_append 4 _ r (by omega)
  have s2 : ∀ r, rdChunks m.keyword_count (m.keywords.flatMap id ++ r) =
      some (m.keywords, r) :=
    fun r => by rw [← hwl]; exact rdChunks_append m.keywords r hw16
  have s3 : ∀ r, rdNum 4 (wrNum 4 m.h_key_space ++ r) = some (m.h_key_space, r) :=
    fun r => rdNum_append 4 _ r (by omega)
  have s4 : ∀ r, rdNum 4 (wrNum 4 m.h_pair_count ++ r) = some (m.h_pair_count, r) :=
    fun r => rdNum_append 4 _ r (by omega)
  have s5 : ∀ r, rdNums wh (m.h_key_space * m.h_pair_count)
      (m.h_counts.flatMap (wrNum wh) ++ r) = some (m.h_counts, r) :=
    fun r => by rw [← hhcl]; exact rdNums_append wh m.h_counts r hbh
  have s6 : ∀ r, rdNum 4 (wrNum 4 tH ++ r) = some (tH, r) :=
    fun r => rdNum_append 4 _ r (by omega)
  unfold serializeTampered
  rw [hsh]
  simp only [List.cons_append, List.append_assoc]
  simp only [casefilter_deserialize, s1, s2, s3, s4, rdNum_one, hwh, s5, s6]
  rw [if_pos (fun hc => hne (hc.symm))]

theorem tampered_d_none (m : SerIndex) (h : SerWF m) (tD : Nat)
    (ht : tD < 2 ^ 32) (hne : tD ≠ m.d_counts.sum) :
    casefilter_deserialize (serializeTampered m m.h_ids.length tD) = none := by
  obtain ⟨hwl, hw16, hkc, hks, hpc, hhcl, hhcb, hhsum, hhtot, hhid,
    hdks, hdcl, hdcb, hdsum, hdtot, hdid⟩ := h
  obtain ⟨bh, wh, hsh, hwh, hbh⟩ := counts_stage m.h_counts hhcb
  obtain ⟨bd, wd, hsd, hwd, hbd⟩ := counts_stage m.d_counts hdcb
  have p4 : (256 : Nat) ^ 4 = 2 ^ 32 := by norm_num
  have p3 : (256 : Nat) ^ 3 = 2 ^ 24 := by norm_num
  have s1 : ∀ r, rdNum 4 (wrNum 4 m.keyword_count ++ r) = some (m.keyword_count, r) :=
    fun r => rdNum_append 4 _ r (by omega)
  have s2 : ∀ r, rdChunks m.keyword_count (m.keywords.flatMap id ++ r) =
      some (m.keywords, r) :=
    fun r => by rw [← hwl]; exact rdChunks_append m.keywords r hw16
  have s3 : ∀ r, rdNum 4 (wrNum 4 m.h_key_space ++ r) = some (m.h_key_space, r) :=
    fun r => rdNum_append 4 _ r (by omega)
  have s4 : ∀ r, rdNum 4 (wrNum 4 m.h_pair_count ++ r) = some (m.h_pair_count, r) :=
    fun r => rdNum_append 4 _ r (by omega)
  have s5 : ∀ r, rdNums wh (m.h_key_space * m.h_pair_count)
      (m.h_counts.flatMap (wrNum wh) ++ r) = some (m.h_counts, r) :=
    fun r => by rw [← hhcl]; exact rdNums_append wh m.h_counts r hbh
  have s6 : ∀ r, rdNum 4 (wrNum 4 m.h_ids.length ++ r) = some (m.h_ids.length, r) :=
    fun r => rdNum_append 4 _ r (by omega)
  have s7 : ∀ r, rdNums 3 m.h_ids.length (m.h_ids.flatMap (wrNum 3) ++ r) =
      some (m.h_ids, r) :=
    fun r => rdNums_append 3 m.h_ids r (fun v hv => by have := hhid v hv; omega)
  have s8 : ∀ r, rdNum 4 (wrNum 4 m.d_key_space ++ r) = some (m.d_key_space, r) :=
    fun r => rdNum_append 4 _ r (by omega)
  have s9 : ∀ r, rdNums wd m.d_key_space (m.d_counts.flatMap (wrNum wd) ++ r) =
      some (m.d_counts, r) :=
    fun r => by rw [← hdcl]; exact rdNums_append wd m.d_counts r hbd
  have s10 : ∀ r, rdNum 4 (wrNum 4 tD ++ r) = some (tD, r) :=
    fun r => rdNum_append 4 _ r (by omega)
  unfold serializeTampered
  rw [hsh, hsd, payload_bytes m.h_ids hhid]
  simp only [List.cons_append, List.append_assoc]
  simp only [casefilter_deserialize, s1, s2, s3, s4, rdNum_one, hwh, hwd, s5, s6, s7,
    s8, s9, s10, hhsum, ne_eq, eq_self_iff_true, not_true_eq_false, if_false, ite_false]
  rw [if_pos (fun hc => hne (hc.symm))]

theorem length_flatMap_wrNum (w : Nat) : ∀ l : List Nat,
    (l.flatMap (wrNum w)).length = w * l.length := by
  intro l
  induction l with
  | nil => simp
  | cons x xs ih =>
    rw [List.flatMap_cons, List.length_append, wrNum_length, ih, List.length_cons]
    ring

theorem length_flatMap_id16 : ∀ ws : List (List Nat), (∀ w ∈ ws, List.length w = 16) →
    (ws.flatMap id).length = 16 * ws.length := by
  intro ws
  induction ws with
  | nil => intro _; simp
  | cons x xs ih =>
    intro h
    rw [List.flatMap_cons, List.length_append, ih (fun u hu => h u (List.mem_cons_of_mem _ hu)),
      List.length_cons, show (id x).length = List.length x from rfl,
      h x (List.mem_cons_self ..)]
    ring

theorem serialize_prefix_none (m : SerIndex) (h : SerWF m) (j : Nat)
    (hj : j < (casefilter_serialize m).length) :
    casefilter_deserialize ((casefilter_serialize m).take j) = none := by
  obtain ⟨hwl, hw16, hkc, hks, hpc, hhcl, hhcb, hhsum, hhtot, hhid,
    hdks, hdcl, hdcb, hdsum, hdtot, hdid⟩ := h
  obtain ⟨bh, wh, hsh, hwh, hbh⟩ := counts_stage m.h_counts hhcb
  obtain ⟨bd, wd, hsd, hwd, hbd⟩ := counts_stage m.d_counts hdcb
  have p4 : (256 : Nat) ^ 4 = 2 ^ 32 := by norm_num
  have p3 : (256 : Nat) ^ 3 = 2 ^ 24 := by norm_num
  have lw : (m.keywords.flatMap id).length = 16 * m.keyword_count := by
    rw [length_flatMap_id16 m.keywords hw16, hwl]
  have lhc : (m.h_counts.flatMap (wrNum wh)).length =
      wh * (m.h_key_space * m.h_pair_count) := by
    rw [length_flatMap_wrNum, hhcl]
  have lhi : (m.h_ids.flatMap (wrNum 3)).length = 3 * m.h_ids.length :=
    length_flatMap_wrNum 3 m.h_ids
  have ldc : (m.d_counts.flatMap (wrNum wd)).length = wd * m.d_key_space := by
    rw [length_flatMap_wrNum, hdcl]
  have ldi : (m.d_idpos.flatMap (wrNum 3)).length = 3 * m.d_idpos.length :=
    length_flatMap_wrNum 3 m.d_idpos
  have s1 : ∀ r, rdNum 4 (wrNum 4 m.keyword_count ++ r) = some (m.keyword_count, r) :=
    fun r => rdNum_append 4 _ r (by omega)
  have s2 : ∀ r, rdChunks m.keyword_count (m.keywords.flatMap id ++ r) =
      some (m.keywords, r) :=
    fun r => by rw [← hwl]; exact rdChunks_append m.keywords r hw16
  have s3 : ∀ r, rdNum 4 (wrNum 4 m.h_key_space ++ r) = some (m.h_key_space, r) :=
    fun r => rdNum_append 4 _ r (by omega)
  have s4 : ∀ r, rdNum 4 (wrNum 4 m.h_pair_count ++ r) = some (m.h_pair_count, r) :=
    fun r => rdNum_append 4 _ r (by omega)
  have s5 : ∀ r, rdNums wh (m.h_key_space * m.h_pair_count)
      (m.h_counts.flatMap (wrNum wh) ++ r) = some (m.h_counts, r) :=
    fun r => by rw [← hhcl]; exact rdNums_append wh m.h_counts r hbh
  have s6 : ∀ r, rdNum 4 (wrNum 4 m.h_ids.length ++ r) = some (m.h_ids.length, r) :=
    fun r => rdNum_append 4 _ r (by omega)
  have s7 : ∀ r, rdNums 3 m.h_ids.length (m.h_ids.flatMap (wrNum 3) ++ r) =
      some (m.h_ids, r) :=
    fun r => rdNums_append 3 m.h_ids r (fun v hv => by have := hhid v hv; omega)
  have s8 : ∀ r, rdNum 4 (wrNum 4 m.d_key_space ++ r) = some (m.d_key_space, r) :=
    fun r => rdNum_append 4 _ r (by omega)
  have s9 : ∀ r, rdNums wd m.d_key_space (m.d_counts.flatMap (wrNum wd) ++ r) =
      some (m.d_counts, r) :=
    fun r => by rw [← hdcl]; exact rdNums_append wd m.d_counts r hbd
  have s10 : ∀ r, rdNum 4 (wrNum 4 m.d_idpos.length ++ r) = some (m.d_idpos.length, r) :=
    fun r => rdNum_append 4 _ r (by omega)
  have t1 : ∀ tail k, rdNum 4 ((wrNum 4 m.keyword_count ++ tail).take k) =
      if k < 4 then none else some (m.keyword_count, tail.take (k - 4)) := by
    intro tail k
    have := parse_take (rdNum 4) (wrNum 4 m.keyword_count) tail m.keyword_count s1
      (fun bs hb => rdNum_short 4 bs (by rw [wrNum_length] at hb; exact hb)) k
    rwa [wrNum_length] at this
  have t2 : ∀ tail k, rdChunks m.keyword_count ((m.keywords.flatMap id ++ tail).take k) =
      if k < 16 * m.keyword_count then none
      else some (m.keywords, tail.take (k - 16 * m.keyword_count)) := by
    intro tail k
    have := parse_take (rdChunks m.keyword_count) (m.keywords.flatMap id) tail m.keywords s2
      (fun bs hb => rdChunks_short m.keyword_count bs (by rw [lw] at hb; exact hb)) k
    rwa [lw] at this
  have t3 : ∀ tail k, rdNum 4 ((wrNum 4 m.h_key_space ++ tail).take k) =
      if k < 4 then none else some (m.h_key_space, tail.take (k - 4)) := by
    intro tail k
    have := parse_take (rdNum 4) (wrNum 4 m.h_key_space) tail m.h_key_space s3
      (fun bs hb => rdNum_short 4 bs (by rw [wrNum_length] at hb; exact hb)) k
    rwa [wrNum_length] at this
  have t4 : ∀ tail k, rdNum 4 ((wrNum 4 m.h_pair_count ++ tail).take k) =
      if k < 4 then none else some (m.h_pair_count, tail.take (k - 4)) := by
    intro tail k
    have := parse_take (rdNum 4) (wrNum 4 m.h_pair_count) tail m.h_pair_count s4
      (fun bs hb => rdNum_short 4 bs (by rw [wrNum_length] at hb; exact hb)) k
    rwa [wrNum_length] at this
  have sb : ∀ (b : Nat) (r : List Nat), rdNum 1 ([b] ++ r) = some (b, r) :=
    fun b r => rdNum_one b r
  have t5 : ∀ tail k, rdNum 1 (([bh] ++ tail).take k) =
      if k < 1 then none else some (bh, tail.take (k - 1)) := by
    intro tail k
    exact parse_take (rdNum 1) [bh] tail bh (sb bh)
      (fun bs hb => rdNum_short 1 bs (by simpa using hb)) k
  have t6 : ∀ tail k, rdNums wh (m.h_key_space * m.h_pair_count)
      ((m.h_counts.flatMap (wrNum wh) ++ tail).take k) =
      if k < wh * (m.h_key_space * m.h_pair_count) then none
      else some (m.h_counts, tail.take (k - wh * (m.h_key_space * m.h_pair_count))) := by
    intro tail k
    have := parse_take (rdNums wh (m.h_key_space * m.h_pair_count))
      (m.h_counts.flatMap (wrNum wh)) tail m.h_counts s5
      (fun bs hb => rdNums_short wh _ bs (by rw [lhc] at hb; exact hb)) k
    rwa [lhc] at this
  have t7 : ∀ tail k, rdNum 4 ((wrNum 4 m.h_ids.length ++ tail).take k) =
      if k < 4 then none else some (m.h_ids.length, tail.take (k - 4)) := by
    intro tail k
    have := parse_take (rdNum 4) (wrNum 4 m.h_ids.length) tail m.h_ids.length s6
      (fun bs hb => rdNum_short 4 bs (by rw [wrNum_length] at hb; exact hb)) k
    rwa [wrNum_length] at this
  have t8 : ∀ tail k, rdNums 3 m.h_ids.length
      ((m.h_ids.flatMap (wrNum 3) ++ tail).take k) =
      if k < 3 * m.h_ids.length then none
      else some (m.h_ids, tail.take (k - 3 * m.h_ids.length)) := by
    intro tail k
    have := parse_take (rdNums 3 m.h_ids.length) (m.h_ids.flatMap (wrNum 3)) tail m.h_ids s7
      (fun bs hb => rdNums_short 3 _ bs (by rw [lhi] at hb; exact hb)) k
    rwa [lhi] at this
  have t9 : ∀ tail k, rdNum 4 ((wrNum 4 m.d_key_space ++ tail).take k) =
      if k < 4 then none else some (m.d_key_space, tail.take (k - 4)) := by
    intro tail k
    have := parse_take (rdNum 4) (wrNum 4 m.d_key_space) tail m.d_key_space s8
      (fun bs hb => rdNum_short 4 bs (by rw [wrNum_length] at hb; exact hb)) k
    rwa [wrNum_length] at this
  have t10 : ∀ tail k, rdNum 1 (([bd] ++ tail).take k) =
      if k < 1 then none else some (bd, tail.take (k - 1)) := by
    intro tail k
    exact parse_take (rdNum 1) [bd] tail bd (sb bd)
      (fun bs hb => rdNum_short 1 bs (by simpa using hb)) k
  have t11 : ∀ tail k, rdNums wd m.d_key_space
      ((m.d_counts.flatMap (wrNum wd) ++ tail).take k) =
      if k < wd * m.d_key_space then none
      else some (m.d_counts, tail.take (k - wd * m.d_key_space)) := by
    intro tail k
    have := parse_take (rdNums wd m.d_key_space) (m.d_counts.flatMap (wrNum wd)) tail
      m.d_counts s9 (fun bs hb => rdNums_short wd _ bs (by rw [ldc] at hb; exact hb)) k
    rwa [ldc] at this
  have t12 : ∀ tail k, rdNum 4 ((wrNum 4 m.d_idpos.length ++ tail).take k) =
      if k < 4 then none else some (m.d_idpos.length, tail.take (k - 4)) := by
    intro tail k
    have := parse_take (rdNum 4) (wrNum 4 m.d_idpos.length) tail m.d_idpos.length s10
      (fun bs hb => rdNum_short 4 bs (by rw [wrNum_length] at hb; exact hb)) k
    rwa [wrNum_length] at this
  unfold casefilter_serialize serialize_hindex serialize_dindex at hj ⊢
  rw [hsh, hsd, payload_bytes m.h_ids hhid, payload_bytes m.d_idpos hdid] at hj ⊢
  simp only [List.cons_append, List.append_assoc] at hj ⊢
  simp only [List.length_append, List.length_cons, wrNum_length, lw, lhc, lhi, ldc, ldi] at hj
  rw [show bh :: (m.h_counts.flatMap (wrNum wh) ++
      (wrNum 4 m.h_ids.length ++ (m.h_ids.flatMap (wrNum 3) ++
        (wrNum 4 m.d_key_space ++ (bd :: (m.d_counts.flatMap (wrNum wd) ++
          (wrNum 4 m.d_idpos.length ++ m.d_idpos.flatMap (wrNum 3)))))))) =
    [bh] ++ (m.h_counts.flatMap (wrNum wh) ++
      (wrNum 4 m.h_ids.length ++ (m.h_ids.flatMap (wrNum 3) ++
        (wrNum 4 m.d_key_space ++ ([bd] ++ (m.d_counts.flatMap (wrNum wd) ++
          (wrNum 4 m.d_idpos.length ++ m.d_idpos.flatMap (wrNum 3)))))))) from rfl]
  simp only [casefilter_deserialize, t1]
  by_cases hj1 : j < 4
  · rw [if_pos hj1]
  · rw [if_neg hj1]
    simp only [t2]
    by_cases hj2 : j - 4 < 16 * m.keyword_count
    · rw [if_pos hj2]
    · rw [if_neg hj2]
      simp only [t3]
      by_cases hj3 : j - 4 - 16 * m.keyword_count < 4
      · rw [if_pos hj3]
      · rw [if_neg hj3]
        simp only [t4]
        by_cases hj4 : j - 4 - 16 * m.keyword_count - 4 < 4
        · rw [if_pos hj4]
        · rw [if_neg hj4]
          simp only [t5]
          by_cases hj5 : j - 4 - 16 * m.keyword_count - 4 - 4 < 1
          · rw [if_pos hj5]
          · rw [if_neg hj5]
            simp only [hwh, t6]
            by_cases hj6 : j - 4 - 16 * m.keyword_count - 4 - 4 - 1 <
                wh * (m.h_key_space * m.h_pair_count)
            · rw [if_pos hj6]
            · rw [if_neg hj6]
              simp only [t7]
              by_cases hj7 : j - 4 - 16 * m.keyword_count - 4 - 4 - 1 -
                  wh * (m.h_key_space * m.h_pair_count) < 4
              · rw [if_pos hj7]
              · rw [if_neg hj7]
                simp only [hhsum, ne_eq, eq_self_iff_true, not_true_eq_false,
                  if_false, ite_false, t8]
                by_cases hj8 : j - 4 - 16 * m.keyword_count - 4 - 4 - 1 -
                    wh * (m.h_key_space * m.h_pair_count) - 4 < 3 * m.h_ids.length
                · rw [if_pos hj8]
                · rw [if_neg hj8]
                  simp only [t9]
                  by_cases hj9 : j - 4 - 16 * m.keyword_count - 4 - 4 - 1 -
                      wh * (m.h_key_space * m.h_pair_count) - 4 - 3 * m.h_ids.length < 4
                  · rw [if_pos hj9]
                  · rw [if_neg hj9]
                    simp only [t10]
                    by_cases hj10 : j - 4 - 16 * m.keyword_count - 4 - 4 - 1 -
                        wh * (m.h_key_space * m.h_pair_count) - 4 -
                        3 * m.h_ids.length - 4 < 1
                    · rw [if_pos hj10]
                    · rw [if_neg hj10]
                      simp only [hwd, t11]
                      by_cases hj11 : j - 4 - 16 * m.keyword_count - 4 - 4 - 1 -
                          wh * (m.h_key_space * m.h_pair_count) - 4 -
                          3 * m.h_ids.length - 4 - 1 < wd * m.d_key_space
                      · rw [if_pos hj11]
                      · rw [if_neg hj11]
                        simp only [t12]
                        by_cases hj12 : j - 4 - 16 * m.keyword_count - 4 - 4 - 1 -
                            wh * (m.h_key_space * m.h_pair_count) - 4 -
                            3 * m.h_ids.length - 4 - 1 - wd * m.d_key_space < 4
                        · rw [if_pos hj12]
                        · rw [if_neg hj12]
                          simp only [hdsum, ne_eq, eq_self_iff_true, not_true_eq_false,
                            if_false, ite_false]
                          rw [rdNums_short 3 m.d_idpos.length _ (by
                            rw [List.length_take, ldi]
                            omega)]

/-- **C8**: deserializer cross-validation and short reads.  For every
index satisfying the finalize invariants: replacing the stored pair-
block payload total by any wrong value makes `casefilter_deserialize`
return `none`; so does replacing the deletion-block total; and so does
truncating the serialized stream at any point (every proper prefix is
rejected). -/
theorem C8_deserialize_cross_validation (m : SerIndex) (h : SerWF m) :
    (∀ tH tD, tH < 2 ^ 32 → tH ≠ m.h_counts.sum →
      casefilter_deserialize (serializeTampered m tH tD) = none) ∧
      (∀ tD, tD < 2 ^ 32 → tD ≠ m.d_counts.sum →
        casefilter_deserialize (serializeTampered m m.h_ids.length tD) = none) ∧
      ∀ j, j < (casefilter_serialize m).length →
        casefilter_deserialize ((casefilter_serialize m).take j) = none :=
  ⟨fun tH tD ht hne => tampered_h_none m h tH tD ht hne,
    fun tD ht hne => tampered_d_none m h tD ht hne,
    fun j hj => serialize_prefix_none m h j hj⟩

theorem C8_deserialize_cross_validation_witness :
    (SerWF mser ∧ (7 : Nat) < 2 ^ 32 ∧ (7 : Nat) ≠ mser.h_counts.sum ∧
        (5 : Nat) < (casefilter_serialize mser).length) ∧
      casefilter_deserialize (serializeTampered mser 7 mser.d_idpos.length) = none ∧
      casefilter_deserialize ((casefilter_serialize mser).take 5) = none :=
  ⟨⟨by decide, by decide, by decide, by decide⟩,
    (C8_deserialize_cross_validation mser (by decide)).1 7 mser.d_idpos.length
      (by decide) (by decide),
    (C8_deserialize_cross_validation mser (by decide)).2.2 5 (by decide)⟩

theorem hcounts_le (D : List Word) (s : Nat) : hcounts D s ≤ D.length * 10 := by
  unfold hcounts
  refine le_trans (sum_le_length_mul 10 _ ?_) (by simp)
  intro d hd
  rw [List.mem_map] at hd
  obtain ⟨id, _, rfl⟩ := hd
  refine le_trans (sum_le_length_mul 1 _ ?_) (by simp)
  intro d' hd'
  rw [List.mem_map] at hd'
  obtain ⟨p, _, rfl⟩ := hd'
  split <;> omega

theorem dcounts_le (D : List Word) (s : Nat) : dcounts D s ≤ D.length * 30 := by
  unfold dcounts
  refine le_trans (sum_le_length_mul 30 _ ?_) (by simp)
  intro d hd
  rw [List.mem_map] at hd
  obtain ⟨id, _, rfl⟩ := hd
  refine le_trans (sum_le_length_mul 2 _ ?_) (by simp)
  intro d' hd'
  rw [List.mem_map] at hd'
  obtain ⟨p, _, rfl⟩ := hd'
  have h1 : (if dslotL (D.getD id []) p = s then 1 else 0) ≤ 1 := by split <;> omega
  have h2 : (if dslotR (D.getD id []) p = s then 1 else 0) ≤ 1 := by split <;> omega
  omega

theorem mkSerIndex_wf (D : List Word) (hD : ∀ w ∈ D, validWord w)
    (hN : D.length ≤ 2 ^ 20) : SerWF (mkSerIndex D) := by
  have hh : (hpayload D).length = 10 * D.length := by
    rw [length_hpayload, hoffsets_total D hD]
  have hd2 : (dpayload D).length = 30 * D.length := by
    rw [length_dpayload, doffsets_total D hD]
  have c1 : (D.map fun w =>
      ((List.range KEYWORD_LEN).map fun i => w.getD i 0) ++ [0]).length = D.length := by
    simp
  have c2 : ∀ w ∈ D.map fun w =>
      ((List.range KEYWORD_LEN).map fun i => w.getD i 0) ++ [0], List.length w = 16 := by
    intro w hw
    rw [List.mem_map] at hw
    obtain ⟨u, _, rfl⟩ := hw
    simp [KEYWORD_LEN]
  have c3 : D.length < 2 ^ 31 := by omega
  have c4 : H_KEY_SPACE < 2 ^ 31 := by norm_num [H_KEY_SPACE]
  have c5 : (10 : Nat) < 2 ^ 31 := by norm_num
  have c6 : ((List.range (H_KEY_SPACE * 10)).map (hcounts D)).length =
      H_KEY_SPACE * 10 := by
    simp
  have c7 : ∀ c ∈ (List.range (H_KEY_SPACE * 10)).map (hcounts D), c < 2 ^ 32 := by
    intro c hc
    rw [List.mem_map] at hc
    obtain ⟨s, _, rfl⟩ := hc
    have := hcounts_le D s
    omega
  have c8 : ((List.range (H_KEY_SPACE * 10)).map (hcounts D)).sum = (hpayload D).length := by
    rw [length_hpayload]
    unfold hoffsets
    rfl
  have c9 : (hpayload D).length < 2 ^ 31 := by omega
  have c10 : ∀ v ∈ hpayload D, v < 2 ^ 24 := by
    intro v hv
    unfold hpayload at hv
    rw [List.mem_flatMap] at hv
    obtain ⟨s, _, hvs⟩ := hv
    have := (mem_hposting.mp hvs).1
    omega
  have c11 : DEL_KEY_SPACE < 2 ^ 31 := by norm_num [DEL_KEY_SPACE]
  have c12 : ((List.range DEL_KEY_SPACE).map (dcounts D)).length = DEL_KEY_SPACE := by
    simp
  have c13 : ∀ c ∈ (List.range DEL_KEY_SPACE).map (dcounts D), c < 2 ^ 32 := by
    intro c hc
    rw [List.mem_map] at hc
    obtain ⟨s, _, rfl⟩ := hc
    have := dcounts_le D s
    omega
  have c14 : ((List.range DEL_KEY_SPACE).map (dcounts D)).sum = (dpayload D).length := by
    rw [length_dpayload]
    unfold doffsets
    rfl
  have c15 : (dpayload D).length < 2 ^ 31 := by omega
  have c16 : ∀ v ∈ dpayload D, v < 2 ^ 24 := by
    intro v hv
    unfold dpayload at hv
    rw [List.mem_flatMap] at hv
    obtain ⟨s, _, hvs⟩ := hv
    obtain ⟨id, pos, hid, hpos, rfl, _⟩ := mem_dposting hvs
    rw [packIdPos_arith id pos (by omega)]
    omega
  unfold SerWF
  simp only [mkSerIndex]
  exact ⟨c1, c2, c3, c4, c5, c6, c7, c8, c9, c10, c11, c12, c13, c14, c15, c16⟩

/-- **C3**: serialization round-trip.  Every finalized index content
(`mkSerIndex` of a valid dictionary satisfies the invariants `SerWF`),
when serialized by `casefilter_serialize` and read back by
`casefilter_deserialize`, is restored unchanged: the keyword count, the
raw 16-byte records (hence the recomputed nibble codes), both counts
arrays (hence every recomputed `offsets` array), and both payload
arrays (whose entries fit 24 bits, so the 3-byte truncation is
lossless). -/
theorem C3_serialize_roundtrip :
    (∀ m : SerIndex, SerWF m →
      casefilter_deserialize (casefilter_serialize m) = some m) ∧
      ∀ D : List Word, (∀ w ∈ D, validWord w) → D.length ≤ 2 ^ 20 →
        SerWF (mkSerIndex D) :=
  ⟨fun m h => serialize_roundtrip m h, fun D hD hN => mkSerIndex_wf D hD hN⟩

theorem C3_serialize_roundtrip_witness :
    SerWF mser ∧ casefilter_deserialize (casefilter_serialize mser) = some mser :=
  ⟨by decide, C3_serialize_roundtrip.1 mser (by decide)⟩

end CaseFilter
